import Mathlib

/-!
# ChainedHashTable: a verification development

Shallow embedding of `src/ChainedHash.h` (a separately chained hash table with a
caller supplied hash function) and theorems about it.

Modelling conventions.

* The bucket array `std::list<Entry> *Table` is a `List` of chains, each chain a `List`
  of entries; `TableSize` is kept as its own field, as in the source.
* `unsigned` is 32 bits wide: every `unsigned` result is reduced modulo `UINT_RANGE`.
  Chain lengths (`std::list::size()`, a `size_t`) are not reduced before they are
  compared; the value stored back into `MaxChained` is.
* An operation returns `none` exactly where the source would evaluate `x % 0` or index
  the bucket array out of bounds (undefined behaviour); otherwise it returns `some`.
  Allocation failure is not modelled.
* Where the identity of a bucket array matters (two objects after a copy, an insert that
  replaces the array), `TableObject` keeps `Table` as the address of a cell in a `Store`
  of bucket arrays. Every member function is given on objects as well, and is shown to
  do to the table an object denotes what the function on tables does.
* `TKey` comparison `==` is decidable equality on the key type.
* The source writes `e.key`, `(*it).key` and `(*it).data` in `insert`, the copy
  constructor and `find`, where `Entry` declares `Key` and `Data`; these are read as the
  declared fields.
-/

namespace ChainedHash

/-- Number of values of the type `unsigned`. -/
def UINT_RANGE : Nat := 2 ^ 32

/-- Line 7: `#define BASE_SIZE 100`. -/
def BASE_SIZE : Nat := 100

/-- Line 8: `#define MAX_CHAINED_DATA 5`. -/
def MAX_CHAINED_DATA : Nat := 5

/-- Line 9: `#define BASE_INCREASE 2`. -/
def BASE_INCREASE : Nat := 2

/-- Lines 17-21: `struct Entry`. -/
structure Entry (TKey TData : Type) where
  Key : TKey
  Data : TData
deriving DecidableEq

/-- Lines 52-64: the data members of `ChainedHashTable`. -/
structure ChainedHashTable (TKey TData : Type) where
  Table : List (List (Entry TKey TData))
  TableSize : Nat
  HasherFunc : TKey → Nat
  EntriesCount : Nat
  MaxChained : Nat

variable {TKey TData : Type}

/-- The index expression `HasherFunc(key) % TableSize` on `unsigned` operands;
`none` when the divisor is zero. -/
def bucketIndex (hasher : TKey → Nat) (size : Nat) (key : TKey) : Option Nat :=
  if size = 0 then none else some (hasher key % UINT_RANGE % size)

/-- The statement `table[i].push_back(e)`; `none` when `i` is outside the array. -/
def pushBackAt (table : List (List (Entry TKey TData))) (i : Nat) (e : Entry TKey TData) :
    Option (List (List (Entry TKey TData))) :=
  match table[i]? with
  | none => none
  | some chain => some (table.set i (chain ++ [e]))

/-- Lines 165-166 (and 85-86): the inner loop over one chain, pushing each entry to the
back of `newTable[HasherFunc(Key) % newTableSize]`. -/
def rehashChain (hasher : TKey → Nat) (newTableSize : Nat) :
    List (Entry TKey TData) → List (List (Entry TKey TData)) →
    Option (List (List (Entry TKey TData)))
  | [], newTable => some newTable
  | e :: rest, newTable =>
    match bucketIndex hasher newTableSize e.Key with
    | none => none
    | some j =>
      match pushBackAt newTable j e with
      | none => none
      | some newTable1 => rehashChain hasher newTableSize rest newTable1

/-- Lines 163-167 (and 83-87): the outer loop `for (i = 0; i < TableSize; i++)`, given
as the list of indices still to visit. -/
def rehashTable (hasher : TKey → Nat) (newTableSize : Nat)
    (table : List (List (Entry TKey TData))) :
    List Nat → List (List (Entry TKey TData)) → Option (List (List (Entry TKey TData)))
  | [], newTable => some newTable
  | i :: more, newTable =>
    match table[i]? with
    | none => none
    | some originList =>
      match rehashChain hasher newTableSize originList newTable with
      | none => none
      | some newTable1 => rehashTable hasher newTableSize table more newTable1

namespace ChainedHashTable

/-- Lines 73-76: the constructor `ChainedHashTable(hasher, size)`; the source default
for `size` is `BASE_SIZE`. -/
def create (hasher : TKey → Nat) (size : Nat) : ChainedHashTable TKey TData :=
  { Table := List.replicate size []
    TableSize := size
    HasherFunc := hasher
    EntriesCount := 0
    MaxChained := 0 }

/-- Lines 78-88: the copy constructor. -/
def copy (map : ChainedHashTable TKey TData) : Option (ChainedHashTable TKey TData) :=
  match rehashTable map.HasherFunc map.TableSize map.Table (List.range map.TableSize)
      (List.replicate map.TableSize []) with
  | none => none
  | some table =>
    some { Table := table
           TableSize := map.TableSize
           HasherFunc := map.HasherFunc
           EntriesCount := map.EntriesCount
           MaxChained := map.MaxChained }

/-- Lines 157-174: `resize_`. -/
def resize_ (t : ChainedHashTable TKey TData) : Option (ChainedHashTable TKey TData) :=
  if t.MaxChained > MAX_CHAINED_DATA then
    let newTableSize := (t.EntriesCount * BASE_INCREASE) % UINT_RANGE
    match rehashTable t.HasherFunc newTableSize t.Table (List.range t.TableSize)
        (List.replicate newTableSize []) with
    | none => none
    | some newTable =>
      some { t with MaxChained := 1, Table := newTable, TableSize := newTableSize }
  else some t

/-- Lines 107-111 of `insert`: the entry is pushed to the back of the chosen chain,
`MaxChained` is refreshed and `EntriesCount` incremented. -/
def pushEntry (t : ChainedHashTable TKey TData) (i : Nat)
    (chosenList : List (Entry TKey TData)) (e : Entry TKey TData) :
    ChainedHashTable TKey TData :=
  { t with
    Table := t.Table.set i (chosenList ++ [e])
    MaxChained :=
      (if (chosenList ++ [e]).length > t.MaxChained then (chosenList ++ [e]).length
        else t.MaxChained) % UINT_RANGE
    EntriesCount := (t.EntriesCount + 1) % UINT_RANGE }

/-- Lines 98-115: `insert(const Entry &e)`. The Boolean is the return value. -/
def insert [DecidableEq TKey] (t : ChainedHashTable TKey TData) (e : Entry TKey TData) :
    Option (Bool × ChainedHashTable TKey TData) :=
  match bucketIndex t.HasherFunc t.TableSize e.Key with
  | none => none
  | some i =>
    match t.Table[i]? with
    | none => none
    | some chosenList =>
      if chosenList.any (fun it => it.Key == e.Key) then some (false, t)
      else
        match resize_ (pushEntry t i chosenList e) with
        | none => none
        | some t1 => some (true, t1)

/-- Lines 118-121: `insert(key, data)`. -/
def insertKeyData [DecidableEq TKey] (t : ChainedHashTable TKey TData) (key : TKey)
    (data : TData) : Option (Bool × ChainedHashTable TKey TData) :=
  t.insert (Entry.mk key data)

/-- Lines 124-136: `remove`. The Boolean is the return value. -/
def remove [DecidableEq TKey] (t : ChainedHashTable TKey TData) (key : TKey) :
    Option (Bool × ChainedHashTable TKey TData) :=
  match bucketIndex t.HasherFunc t.TableSize key with
  | none => none
  | some i =>
    match t.Table[i]? with
    | none => none
    | some chosenList =>
      if chosenList.any (fun it => it.Key == key) then
        some (true,
          { t with
            Table := t.Table.set i (chosenList.eraseP (fun it => it.Key == key))
            EntriesCount := (t.EntriesCount + UINT_RANGE - 1) % UINT_RANGE })
      else some (false, t)

/-- Lines 139-148: `find`. The inner option is the returned pointer: `none` for
`nullptr`, `some d` for a pointer to stored data `d`. -/
def find [DecidableEq TKey] (t : ChainedHashTable TKey TData) (key : TKey) :
    Option (Option TData) :=
  match bucketIndex t.HasherFunc t.TableSize key with
  | none => none
  | some i =>
    match t.Table[i]? with
    | none => none
    | some chosenList =>
      some ((chosenList.find? (fun it => it.Key == key)).map Entry.Data)

/-- Lines 151-154: `entries`. -/
def entries (t : ChainedHashTable TKey TData) : Nat :=
  t.EntriesCount

end ChainedHashTable

open ChainedHashTable

/-- The public mutating operations of a table. -/
inductive Op (TKey TData : Type) where
  | insert (key : TKey) (data : TData)
  | remove (key : TKey)

/-- Runs a sequence of operations; the result is the final table, the number of
`insert` calls that returned true and the number of `remove` calls that returned true. -/
def runOps [DecidableEq TKey] :
    ChainedHashTable TKey TData → List (Op TKey TData) →
    Option (ChainedHashTable TKey TData × Nat × Nat)
  | t, [] => some (t, 0, 0)
  | t, Op.insert key data :: rest =>
    match t.insertKeyData key data with
    | none => none
    | some (b, t1) =>
      match runOps t1 rest with
      | none => none
      | some (tf, ins, rem) => some (tf, ins + (if b then 1 else 0), rem)
  | t, Op.remove key :: rest =>
    match t.remove key with
    | none => none
    | some (b, t1) =>
      match runOps t1 rest with
      | none => none
      | some (tf, ins, rem) => some (tf, ins, rem + (if b then 1 else 0))

/-- Tables obtained from `create(hasher, n)`, `n > 0`, by finitely many calls of
`insert`, `remove` and the copy constructor, none of which ran into undefined
behaviour. -/
inductive Reachable [DecidableEq TKey] : ChainedHashTable TKey TData → Prop
  | create (hasher : TKey → Nat) (n : Nat) (hn : 0 < n) :
      Reachable (ChainedHashTable.create hasher n)
  | insert (t t1 : ChainedHashTable TKey TData) (key : TKey) (data : TData) (b : Bool) :
      Reachable t → t.insertKeyData key data = some (b, t1) → Reachable t1
  | remove (t t1 : ChainedHashTable TKey TData) (key : TKey) (b : Bool) :
      Reachable t → t.remove key = some (b, t1) → Reachable t1
  | copy (t t1 : ChainedHashTable TKey TData) :
      Reachable t → t.copy = some t1 → Reachable t1

/-! ## Invariants -/

/-- Every entry of chain `i` has `HasherFunc(Key) % size = i`. -/
def Placed (hasher : TKey → Nat) (size : Nat) (table : List (List (Entry TKey TData))) :
    Prop :=
  ∀ i l, table[i]? = some l → ∀ e ∈ l, bucketIndex hasher size e.Key = some i

/-- The representation invariant of a table between two operations. -/
structure WF (t : ChainedHashTable TKey TData) : Prop where
  len : t.Table.length = t.TableSize
  pos : 0 < t.TableSize
  placed : Placed t.HasherFunc t.TableSize t.Table
  nodup : (t.Table.flatten.map Entry.Key).Nodup
  count : t.EntriesCount = t.Table.flatten.length % UINT_RANGE

/-- The tables on which `insert` calls `resize_`: a reachable table after lines 107-111
of an `insert` whose key was not found in the chosen chain. -/
inductive ResizeInput [DecidableEq TKey] : ChainedHashTable TKey TData → Prop
  | intro (t : ChainedHashTable TKey TData) (e : Entry TKey TData) (i : Nat)
      (chosenList : List (Entry TKey TData)) :
      Reachable t → bucketIndex t.HasherFunc t.TableSize e.Key = some i →
      t.Table[i]? = some chosenList →
      chosenList.any (fun it => it.Key == e.Key) = false →
      ResizeInput (t.pushEntry i chosenList e)

/-! ## Concrete tables -/

/-- The table `create(k ↦ k, 4)` after `insert(1, 10)`, `insert(5, 50)`, `insert(2, 20)`. -/
def sampleTable : ChainedHashTable Nat Nat :=
  { Table := [[], [Entry.mk 1 10, Entry.mk 5 50], [Entry.mk 2 20], []]
    TableSize := 4
    HasherFunc := fun k => k
    EntriesCount := 3
    MaxChained := 2 }

/-- The table `create(k ↦ 0, 1)` after `insert(1, 10)`, ..., `insert(5, 50)`: one chain
of five entries. -/
def crowdedTable : ChainedHashTable Nat Nat :=
  { Table := [[Entry.mk 1 10, Entry.mk 2 20, Entry.mk 3 30, Entry.mk 4 40, Entry.mk 5 50]]
    TableSize := 1
    HasherFunc := fun _ => 0
    EntriesCount := 5
    MaxChained := 5 }

/-- The six inserts of the resize scenario of the specification, with data `d k` for
key `k`. -/
def scenarioOps (d : Nat → TData) : List (Op Nat TData) :=
  [Op.insert 1 (d 1), Op.insert 2 (d 2), Op.insert 3 (d 3), Op.insert 4 (d 4),
   Op.insert 5 (d 5), Op.insert 6 (d 6)]

/-- The table the resize scenario ends in. -/
def scenarioTable (d : Nat → TData) : ChainedHashTable Nat TData :=
  { Table := [[Entry.mk 4 (d 4)], [Entry.mk 1 (d 1), Entry.mk 5 (d 5)],
      [Entry.mk 2 (d 2), Entry.mk 6 (d 6)], [Entry.mk 3 (d 3)]]
    TableSize := 4
    HasherFunc := fun k => k
    EntriesCount := 6
    MaxChained := 2 }

/-- The chain of bucket `i` once keys `0 .. m-1` are stored, five consecutive keys per
bucket. -/
def packedChain (m i : Nat) : List (Entry Nat Nat) :=
  (List.range' (5 * i) (min 5 (m - 5 * i))).map (fun j => Entry.mk j 0)

/-- The table `create(k ↦ k / 5, size)` after `insert(0, 0)`, ..., `insert(m-1, 0)`. -/
def packedTable (size m : Nat) : ChainedHashTable Nat Nat :=
  { Table := (List.range size).map (packedChain m)
    TableSize := size
    HasherFunc := fun k => k / 5
    EntriesCount := m % UINT_RANGE
    MaxChained := min m 5 }

/-- The operations `insert(a, 0)`, ..., `insert(a + n - 1, 0)`. -/
def insertRun (a n : Nat) : List (Op Nat Nat) :=
  (List.range' a n).map (fun j => Op.insert j 0)

/-! ## Runs with a log of insertions -/

/-- Whether `insert(e)` on `t` appends `e` and then finds `MaxChained >
MAX_CHAINED_DATA` on line 159, that is, whether it rebuilds the bucket array. -/
def rebuilds [DecidableEq TKey] (t : ChainedHashTable TKey TData) (e : Entry TKey TData) :
    Bool :=
  match bucketIndex t.HasherFunc t.TableSize e.Key with
  | none => false
  | some i =>
    match t.Table[i]? with
    | none => false
    | some chosenList =>
      !(chosenList.any (fun it => it.Key == e.Key)) &&
        decide (MAX_CHAINED_DATA < (t.pushEntry i chosenList e).MaxChained)

/-- Runs a sequence of operations from a table and the log of its stored entries in the
order in which they were inserted; the result is the final table, its log, and the
number of inserts that rebuilt the bucket array. -/
def runLogged [DecidableEq TKey] :
    ChainedHashTable TKey TData → List (Entry TKey TData) → List (Op TKey TData) →
    Option (ChainedHashTable TKey TData × List (Entry TKey TData) × Nat)
  | t, log, [] => some (t, log, 0)
  | t, log, Op.insert key data :: rest =>
    match t.insertKeyData key data with
    | none => none
    | some (b, t1) =>
      match runLogged t1 (if b then log ++ [Entry.mk key data] else log) rest with
      | none => none
      | some (tf, logf, n) =>
        some (tf, logf, n + (if rebuilds t (Entry.mk key data) then 1 else 0))
  | t, log, Op.remove key :: rest =>
    match t.remove key with
    | none => none
    | some (b, t1) =>
      runLogged t1 (if b then log.eraseP (fun it => it.Key == key) else log) rest

/-- A table whose recorded max chain length bounds every chain and whose chains list
their entries in the order of the log. -/
structure Ordered (t : ChainedHashTable TKey TData) (log : List (Entry TKey TData)) :
    Prop where
  wf : WF t
  mc : t.MaxChained ≤ MAX_CHAINED_DATA
  bound : ∀ (i : Nat) (l : List (Entry TKey TData)),
    t.Table[i]? = some l → l.length ≤ t.MaxChained
  sub : ∀ (i : Nat) (l : List (Entry TKey TData)),
    t.Table[i]? = some l → List.Sublist l log

/-- The table `create(k ↦ 0, 1)` after `insert(1, 10)`, ..., `insert(6, 60)`: the sixth
insert has rebuilt the bucket array with 12 buckets. -/
def resizedTable : ChainedHashTable Nat Nat :=
  { Table := [Entry.mk 1 10, Entry.mk 2 20, Entry.mk 3 30, Entry.mk 4 40, Entry.mk 5 50,
      Entry.mk 6 60] :: List.replicate 11 []
    TableSize := 12
    HasherFunc := fun _ => 0
    EntriesCount := 6
    MaxChained := 1 }

/-- Seven inserts into a table of 3 buckets with the identity hasher; the last one makes
chain 0 six entries long. -/
def reorderOps : List (Op Nat Nat) :=
  [Op.insert 1 0, Op.insert 0 0, Op.insert 3 0, Op.insert 6 0, Op.insert 9 0,
   Op.insert 12 0, Op.insert 15 0]

/-! ## Observable behaviour and the reference map -/

/-- A call of the public interface. -/
inductive Call (TKey TData : Type) where
  | insert (key : TKey) (data : TData)
  | remove (key : TKey)
  | find (key : TKey)
  | entries

/-- The value a call returns: a Boolean (`insert`, `remove`), data or not-found (`find`),
or a number (`entries`). -/
inductive Answer (TData : Type) where
  | bool (b : Bool)
  | data (o : Option TData)
  | count (n : Nat)
deriving DecidableEq

/-- Runs a sequence of calls on a table and collects what they return; `none` when a
call runs into undefined behaviour. -/
def runCalls [DecidableEq TKey] :
    ChainedHashTable TKey TData → List (Call TKey TData) → Option (List (Answer TData))
  | _, [] => some []
  | t, Call.insert key data :: rest =>
    match t.insertKeyData key data with
    | none => none
    | some (b, t1) => (runCalls t1 rest).map (fun answers => Answer.bool b :: answers)
  | t, Call.remove key :: rest =>
    match t.remove key with
    | none => none
    | some (b, t1) => (runCalls t1 rest).map (fun answers => Answer.bool b :: answers)
  | t, Call.find key :: rest =>
    match t.find key with
    | none => none
    | some o => (runCalls t rest).map (fun answers => Answer.data o :: answers)
  | t, Call.entries :: rest =>
    (runCalls t rest).map (fun answers => Answer.count t.entries :: answers)

/-- Reference finite map, as a list of bindings with distinct keys: insert adds the
binding only if the key is absent. -/
def refInsert [DecidableEq TKey] (m : List (Entry TKey TData)) (key : TKey) (data : TData) :
    Bool × List (Entry TKey TData) :=
  if m.any (fun it => it.Key == key) then (false, m) else (true, m ++ [Entry.mk key data])

/-- Reference finite map: remove deletes the binding if present. -/
def refRemove [DecidableEq TKey] (m : List (Entry TKey TData)) (key : TKey) :
    Bool × List (Entry TKey TData) :=
  if m.any (fun it => it.Key == key) then (true, m.filter (fun it => !(it.Key == key)))
  else (false, m)

/-- Reference finite map: find returns the data bound to the key, if any. -/
def refFind [DecidableEq TKey] (m : List (Entry TKey TData)) (key : TKey) : Option TData :=
  (m.find? (fun it => it.Key == key)).map Entry.Data

/-- Reference finite map: runs a sequence of calls; `entries` is the cardinality. -/
def refRun [DecidableEq TKey] :
    List (Entry TKey TData) → List (Call TKey TData) → List (Answer TData)
  | _, [] => []
  | m, Call.insert key data :: rest =>
    Answer.bool (refInsert m key data).1 :: refRun (refInsert m key data).2 rest
  | m, Call.remove key :: rest =>
    Answer.bool (refRemove m key).1 :: refRun (refRemove m key).2 rest
  | m, Call.find key :: rest => Answer.data (refFind m key) :: refRun m rest
  | m, Call.entries :: rest => Answer.count m.length :: refRun m rest

/-- An answer with its count reduced to a 32-bit unsigned. -/
def wrapCount : Answer TData → Answer TData
  | Answer.count n => Answer.count (n % UINT_RANGE)
  | a => a

/-- The calls `insert(a, 0)`, ..., `insert(a + n - 1, 0)`. -/
def insertCalls (a n : Nat) : List (Call Nat Nat) :=
  (List.range' a n).map (fun j => Call.insert j 0)

/-- The reference map after `insert(0, 0)`, ..., `insert(m-1, 0)`. -/
def packedLog (m : Nat) : List (Entry Nat Nat) :=
  (List.range m).map (fun j => Entry.mk j 0)

/-! ## A long run that ends in one rebuild -/

/-- The chain of bucket `i` once keys `0 .. m-1` are stored with the hasher
`k ↦ 2 * (k / 5)`: five consecutive keys in every even bucket, nothing in the odd ones. -/
def evenChain (m i : Nat) : List (Entry Nat Nat) :=
  if i % 2 = 0 then packedChain m (i / 2) else []

/-- The table `create(k ↦ 2 * (k / 5), size)` after `insert(0, 0)`, ...,
`insert(m-1, 0)`. -/
def evenTable (size m : Nat) : ChainedHashTable Nat Nat :=
  { Table := (List.range size).map (evenChain m)
    TableSize := size
    HasherFunc := fun k => 2 * (k / 5)
    EntriesCount := m % UINT_RANGE
    MaxChained := min m 5 }

/-- All entries of `evenTable (2 * half) m` after `insert(5 * half, 0)` has pushed its
entry to the back of chain 0, chain by chain. -/
def mergedChain (half m : Nat) : List (Entry Nat Nat) :=
  ((evenTable (2 * half) m).pushEntry 0 (packedChain m 0)
    (Entry.mk (5 * half) 0)).Table.flatten

/-- The table `evenTable (2 * half) m` turns into by `insert(5 * half, 0)` when the
entry count `m` is a multiple of 2^32: the rebuilt bucket array has 2 buckets and every
entry is in bucket 0. -/
def mergedTable (half m : Nat) : ChainedHashTable Nat Nat :=
  { Table := [mergedChain half m, []]
    TableSize := 2
    HasherFunc := fun k => 2 * (k / 5)
    EntriesCount := 1
    MaxChained := 1 }

/-! ## Objects in the free store

The definitions so far treat a table as a value. To speak about two table objects at
once (an original and its copy) and about an insert replacing the bucket array, the same
member functions are given below with the allocation made explicit: `Table` is a pointer
into a store of bucket arrays, `new std::list<Entry>[n]` appends a cell to the store and
`delete[]` empties a cell. -/

/-- The free store: cell `a` holds the bucket array allocated at address `a`, or `none`
once `delete[]` has released it. -/
abbrev Store (TKey TData : Type) : Type :=
  List (Option (List (List (Entry TKey TData))))

/-- Lines 52-64: a `ChainedHashTable` object, with `Table` as the pointer it is. -/
structure TableObject (TKey TData : Type) where
  Table : Nat
  TableSize : Nat
  HasherFunc : TKey → Nat
  EntriesCount : Nat
  MaxChained : Nat

namespace TableObject

/-- The table an object denotes in a store: its fields, with the array `Table` points
to; `none` when the pointer does not refer to a live array. -/
def load (o : TableObject TKey TData) (s : Store TKey TData) :
    Option (ChainedHashTable TKey TData) :=
  match s[o.Table]? with
  | some (some table) =>
    some { Table := table
           TableSize := o.TableSize
           HasherFunc := o.HasherFunc
           EntriesCount := o.EntriesCount
           MaxChained := o.MaxChained }
  | _ => none

/-- Lines 73-76: the constructor; `new std::list<Entry>[size]` is the appended cell. -/
def create (s : Store TKey TData) (hasher : TKey → Nat) (size : Nat) :
    Store TKey TData × TableObject TKey TData :=
  (s ++ [some (List.replicate size [])],
   { Table := s.length
     TableSize := size
     HasherFunc := hasher
     EntriesCount := 0
     MaxChained := 0 })

/-- Lines 78-88: the copy constructor; the new array is a new cell, filled by the two
loops from the array of `map`. -/
def copy (map : TableObject TKey TData) (s : Store TKey TData) :
    Option (Store TKey TData × TableObject TKey TData) :=
  match map.load s with
  | none => none
  | some m =>
    match rehashTable m.HasherFunc m.TableSize m.Table (List.range m.TableSize)
        (List.replicate m.TableSize []) with
    | none => none
    | some table =>
      some (s ++ [some table],
        { Table := s.length
          TableSize := m.TableSize
          HasherFunc := m.HasherFunc
          EntriesCount := m.EntriesCount
          MaxChained := m.MaxChained })

/-- Lines 157-174: `resize_`; line 161 appends the new array to the store, line 170
empties the cell of the old one, line 171 redirects the pointer. -/
def resize_ (o : TableObject TKey TData) (s : Store TKey TData) :
    Option (Store TKey TData × TableObject TKey TData) :=
  match o.load s with
  | none => none
  | some t =>
    if t.MaxChained > MAX_CHAINED_DATA then
      let newTableSize := (t.EntriesCount * BASE_INCREASE) % UINT_RANGE
      match rehashTable t.HasherFunc newTableSize t.Table (List.range t.TableSize)
          (List.replicate newTableSize []) with
      | none => none
      | some newTable =>
        some ((s ++ [some newTable]).set o.Table none,
          { o with MaxChained := 1, Table := s.length, TableSize := newTableSize })
    else some (s, o)

/-- Lines 98-115: `insert(const Entry &e)`; the push_back and the two counters change the
object and its array in place, then `resize_` runs. -/
def insert [DecidableEq TKey] (o : TableObject TKey TData) (s : Store TKey TData)
    (e : Entry TKey TData) : Option (Bool × Store TKey TData × TableObject TKey TData) :=
  match o.load s with
  | none => none
  | some t =>
    match bucketIndex t.HasherFunc t.TableSize e.Key with
    | none => none
    | some i =>
      match t.Table[i]? with
      | none => none
      | some chosenList =>
        if chosenList.any (fun it => it.Key == e.Key) then some (false, s, o)
        else
          match resize_
              { o with
                MaxChained := (t.pushEntry i chosenList e).MaxChained
                EntriesCount := (t.pushEntry i chosenList e).EntriesCount }
              (s.set o.Table (some (t.pushEntry i chosenList e).Table)) with
          | none => none
          | some (s2, o2) => some (true, s2, o2)

/-- Lines 124-136: `remove`; the erase and the decrement change the object and its array
in place. -/
def remove [DecidableEq TKey] (o : TableObject TKey TData) (s : Store TKey TData)
    (key : TKey) : Option (Bool × Store TKey TData × TableObject TKey TData) :=
  match o.load s with
  | none => none
  | some t =>
    match bucketIndex t.HasherFunc t.TableSize key with
    | none => none
    | some i =>
      match t.Table[i]? with
      | none => none
      | some chosenList =>
        if chosenList.any (fun it => it.Key == key) then
          some (true,
            s.set o.Table
              (some (t.Table.set i (chosenList.eraseP (fun it => it.Key == key)))),
            { o with EntriesCount := (o.EntriesCount + UINT_RANGE - 1) % UINT_RANGE })
        else some (false, s, o)

/-- Lines 139-148: `find`, reading the array the object points to. -/
def find [DecidableEq TKey] (o : TableObject TKey TData) (s : Store TKey TData)
    (key : TKey) : Option (Option TData) :=
  match o.load s with
  | none => none
  | some t => t.find key

/-- Lines 151-154: `entries`. -/
def entries (o : TableObject TKey TData) : Nat :=
  o.EntriesCount

end TableObject

/-- An object whose fields are those of table `t` and whose array is cell 0. -/
def objectAtZero (t : ChainedHashTable TKey TData) : TableObject TKey TData :=
  { Table := 0
    TableSize := t.TableSize
    HasherFunc := t.HasherFunc
    EntriesCount := t.EntriesCount
    MaxChained := t.MaxChained }

/-! ## Lists of chains -/

theorem flatten_set_split {α : Type} (T : List (List α)) (i : Nat) (l : List α)
    (h : T[i]? = some l) :
    ∃ A B, T.flatten = A ++ l ++ B ∧ ∀ v, (T.set i v).flatten = A ++ v ++ B := by
  induction T generalizing i with
  | nil => simp at h
  | cons x xs ih =>
    cases i with
    | zero =>
      simp at h
      subst h
      exact ⟨[], xs.flatten, by simp, fun v => by simp⟩
    | succ j =>
      simp at h
      obtain ⟨A, B, h1, h2⟩ := ih j h
      refine ⟨x ++ A, B, by simp [h1], fun v => ?_⟩
      simp [h2 v]

theorem mem_flatten_iff_getElem? {α : Type} (T : List (List α)) (a : α) :
    a ∈ T.flatten ↔ ∃ (i : Nat) (l : List α), T[i]? = some l ∧ a ∈ l := by
  rw [List.mem_flatten]
  constructor
  · rintro ⟨l, hl, ha⟩
    obtain ⟨i, hi, hEq⟩ := List.getElem_of_mem hl
    exact ⟨i, l, by rw [← hEq]; exact List.getElem?_eq_getElem hi, ha⟩
  · rintro ⟨i, l, hl, ha⟩
    exact ⟨l, List.getElem?_mem hl, ha⟩

theorem bucketIndex_lt (hasher : TKey → Nat) (size : Nat) (key : TKey) (hs : 0 < size) :
    ∃ i, bucketIndex hasher size key = some i ∧ i < size := by
  refine ⟨hasher key % UINT_RANGE % size, ?_, Nat.mod_lt _ hs⟩
  simp [bucketIndex, Nat.pos_iff_ne_zero.mp hs]

theorem bucketIndex_some_lt {hasher : TKey → Nat} {size : Nat} {key : TKey} {i : Nat}
    (h : bucketIndex hasher size key = some i) : i < size := by
  unfold bucketIndex at h
  split at h
  · simp at h
  · have hs : 0 < size := by omega
    simp at h
    rw [← h]
    exact Nat.mod_lt _ hs

/-! ## `find` on a well-formed table -/

theorem keys_inj_of_nodup {l : List (Entry TKey TData)} (h : (l.map Entry.Key).Nodup)
    {a b : Entry TKey TData} (ha : a ∈ l) (hb : b ∈ l) (hk : a.Key = b.Key) : a = b :=
  List.inj_on_of_nodup_map h ha hb hk

section Find

variable [DecidableEq TKey]

theorem find_eq_of_wf {t : ChainedHashTable TKey TData} (hw : WF t) (key : TKey) :
    ∃ i l, bucketIndex t.HasherFunc t.TableSize key = some i ∧ t.Table[i]? = some l ∧
      t.find key = some ((l.find? (fun it => it.Key == key)).map Entry.Data) := by
  obtain ⟨i, hi, hlt⟩ := bucketIndex_lt t.HasherFunc t.TableSize key hw.pos
  have hlen : i < t.Table.length := by rw [hw.len]; exact hlt
  refine ⟨i, t.Table[i], hi, List.getElem?_eq_getElem hlen, ?_⟩
  simp [ChainedHashTable.find, hi, List.getElem?_eq_getElem hlen]

theorem find_some_iff {t : ChainedHashTable TKey TData} (hw : WF t) (key : TKey)
    (d : TData) : t.find key = some (some d) ↔ Entry.mk key d ∈ t.Table.flatten := by
  obtain ⟨i, l, hi, hl, hf⟩ := find_eq_of_wf hw key
  rw [hf]
  constructor
  · intro h
    simp only [Option.some.injEq, Option.map_eq_some'] at h
    obtain ⟨x, hx, hd⟩ := h
    have hp := List.find?_some hx
    have hm := List.mem_of_find?_eq_some hx
    simp at hp
    have : x = Entry.mk key d := by
      cases x
      simp at hp hd
      simp [hp, hd]
    rw [← this]
    exact (mem_flatten_iff_getElem? _ _).2 ⟨i, l, hl, hm⟩
  · intro h
    obtain ⟨j, l1, hl1, hm⟩ := (mem_flatten_iff_getElem? _ _).1 h
    have hj := hw.placed j l1 hl1 _ hm
    simp only at hj
    rw [hi] at hj
    simp at hj
    subst hj
    rw [hl] at hl1
    simp at hl1
    subst hl1
    cases hfind : l.find? (fun it => it.Key == key) with
    | none =>
      rw [List.find?_eq_none] at hfind
      exact absurd (by simp) (hfind _ hm)
    | some x =>
      have hp := List.find?_some hfind
      have hx := List.mem_of_find?_eq_some hfind
      simp at hp
      have hxf : x ∈ t.Table.flatten := (mem_flatten_iff_getElem? _ _).2 ⟨i, l, hl, hx⟩
      have : x = Entry.mk key d := keys_inj_of_nodup hw.nodup hxf h (by simp [hp])
      simp [this]

theorem find_isSome {t : ChainedHashTable TKey TData} (hw : WF t) (key : TKey) :
    ∃ o, t.find key = some o := by
  obtain ⟨i, l, _, _, hf⟩ := find_eq_of_wf hw key
  exact ⟨_, hf⟩

theorem find_none_iff {t : ChainedHashTable TKey TData} (hw : WF t) (key : TKey) :
    t.find key = some none ↔ ∀ e ∈ t.Table.flatten, e.Key ≠ key := by
  obtain ⟨o, ho⟩ := find_isSome hw key
  constructor
  · intro h e he hk
    have : t.find key = some (some e.Data) := by
      rw [find_some_iff hw]
      cases e
      simp at hk
      subst hk
      exact he
    rw [h] at this
    simp at this
  · intro h
    cases o with
    | none => exact ho
    | some d =>
      have := (find_some_iff hw key d).1 ho
      exact absurd rfl (h _ this)

/-- Two well-formed tables holding the same entries answer every `find` alike. -/
theorem find_congr {t u : ChainedHashTable TKey TData} (ht : WF t) (hu : WF u)
    (h : ∀ e, e ∈ t.Table.flatten ↔ e ∈ u.Table.flatten) (key : TKey) :
    t.find key = u.find key := by
  obtain ⟨o, ho⟩ := find_isSome ht key
  obtain ⟨o1, ho1⟩ := find_isSome hu key
  rw [ho, ho1]
  congr 1
  cases o with
  | none =>
    cases o1 with
    | none => rfl
    | some d =>
      have h1 := (find_some_iff hu key d).1 ho1
      have h2 := (find_some_iff ht key d).2 ((h _).2 h1)
      rw [ho] at h2
      simp at h2
  | some d =>
    have h1 := (find_some_iff ht key d).1 ho
    have h2 := (find_some_iff hu key d).2 ((h _).1 h1)
    rw [ho1] at h2
    simp at h2
    rw [h2]

end Find

/-! ## The rehash loops -/

theorem placed_set {hasher : TKey → Nat} {size : Nat} {T : List (List (Entry TKey TData))}
    (hp : Placed hasher size T) (i : Nat) (v : List (Entry TKey TData))
    (hv : ∀ e ∈ v, bucketIndex hasher size e.Key = some i) :
    Placed hasher size (T.set i v) := by
  intro j l hl e he
  rw [List.getElem?_set] at hl
  split at hl
  · split at hl
    · simp at hl
      subst hl
      rename_i hij _
      rw [← hij]
      exact hv e he
    · simp at hl
  · exact hp j l hl e he

theorem placed_replicate (hasher : TKey → Nat) (size n : Nat) :
    Placed hasher size (List.replicate n ([] : List (Entry TKey TData))) := by
  intro i l hl e he
  rw [List.getElem?_replicate] at hl
  split at hl
  · simp at hl
    subst hl
    simp at he
  · simp at hl

theorem rehashChain_append (hasher : TKey → Nat) (size : Nat)
    (xs ys : List (Entry TKey TData)) (nt : List (List (Entry TKey TData))) :
    rehashChain hasher size (xs ++ ys) nt =
      (rehashChain hasher size xs nt).bind (rehashChain hasher size ys) := by
  induction xs generalizing nt with
  | nil => simp [rehashChain]
  | cons x xs ih =>
    simp only [List.cons_append, rehashChain]
    cases bucketIndex hasher size x.Key with
    | none => simp
    | some j =>
      simp only
      cases pushBackAt nt j x with
      | none => simp
      | some nt1 => simpa using ih nt1

theorem rehashTable_range' (hasher : TKey → Nat) (size : Nat)
    (T : List (List (Entry TKey TData))) :
    ∀ (m a : Nat) (nt : List (List (Entry TKey TData))), a + m = T.length →
      rehashTable hasher size T (List.range' a m) nt =
        rehashChain hasher size (T.drop a).flatten nt := by
  intro m
  induction m with
  | zero =>
    intro a nt h
    have : T.drop a = [] := List.drop_eq_nil_of_le (by omega)
    simp [rehashTable, this, rehashChain]
  | succ m ih =>
    intro a nt h
    have ha : a < T.length := by omega
    rw [List.range'_succ, List.drop_eq_getElem_cons ha]
    simp only [rehashTable, List.getElem?_eq_getElem ha, List.flatten_cons]
    rw [rehashChain_append]
    cases rehashChain hasher size T[a] nt with
    | none => simp
    | some nt1 =>
      simp only [Option.some_bind]
      exact ih (a + 1) nt1 (by omega)

/-- On a bucket array of the recorded length the two nested loops visit the entries
chain by chain, front to back. -/
theorem rehashTable_eq (hasher : TKey → Nat) (size : Nat)
    (T : List (List (Entry TKey TData))) (nt : List (List (Entry TKey TData))) :
    rehashTable hasher size T (List.range T.length) nt =
      rehashChain hasher size T.flatten nt := by
  rw [List.range_eq_range']
  simpa using rehashTable_range' hasher size T T.length 0 nt (by omega)

theorem rehashChain_spec (hasher : TKey → Nat) (size : Nat) (hs : 0 < size)
    (es : List (Entry TKey TData)) :
    ∀ nt : List (List (Entry TKey TData)), nt.length = size → Placed hasher size nt →
      ∃ nt1, rehashChain hasher size es nt = some nt1 ∧ nt1.length = size ∧
        Placed hasher size nt1 ∧ List.Perm nt1.flatten (nt.flatten ++ es) := by
  induction es with
  | nil =>
    intro nt hl hp
    exact ⟨nt, rfl, hl, hp, by simp⟩
  | cons e es ih =>
    intro nt hl hp
    obtain ⟨j, hj, hlt⟩ := bucketIndex_lt hasher size e.Key hs
    have hjl : j < nt.length := by omega
    have hget : nt[j]? = some nt[j] := List.getElem?_eq_getElem hjl
    obtain ⟨A, B, hAB, hset⟩ := flatten_set_split nt j nt[j] hget
    have hp1 : Placed hasher size (nt.set j (nt[j] ++ [e])) := by
      apply placed_set hp
      intro x hx
      rw [List.mem_append] at hx
      rcases hx with hx | hx
      · exact hp j _ hget x hx
      · simp at hx
        subst hx
        exact hj
    obtain ⟨nt1, h1, h2, h3, h4⟩ := ih (nt.set j (nt[j] ++ [e])) (by simpa using hl) hp1
    refine ⟨nt1, ?_, h2, h3, ?_⟩
    · simp only [rehashChain, hj, pushBackAt, hget]
      exact h1
    · refine h4.trans ?_
      rw [hset, hAB]
      simp only [List.append_assoc, List.singleton_append]
      refine List.Perm.append_left A (List.Perm.append_left _ ?_)
      exact List.perm_middle.symm

theorem rehashChain_zero (hasher : TKey → Nat) (e : Entry TKey TData)
    (es : List (Entry TKey TData)) (nt : List (List (Entry TKey TData))) :
    rehashChain hasher 0 (e :: es) nt = none := by
  simp [rehashChain, bucketIndex]

/-! ## `resize_` -/

theorem resize_eq {t : ChainedHashTable TKey TData} (hlen : t.Table.length = t.TableSize) :
    t.resize_ =
      if t.MaxChained > MAX_CHAINED_DATA then
        match rehashChain t.HasherFunc ((t.EntriesCount * BASE_INCREASE) % UINT_RANGE)
            t.Table.flatten
            (List.replicate ((t.EntriesCount * BASE_INCREASE) % UINT_RANGE) []) with
        | none => none
        | some newTable =>
          some { t with
                 MaxChained := 1, Table := newTable,
                 TableSize := (t.EntriesCount * BASE_INCREASE) % UINT_RANGE }
      else some t := by
  unfold ChainedHashTable.resize_
  rw [← hlen]
  simp only [rehashTable_eq]

theorem resize_undefined {t : ChainedHashTable TKey TData}
    (hlen : t.Table.length = t.TableSize) (hne : t.Table.flatten ≠ [])
    (h1 : MAX_CHAINED_DATA < t.MaxChained)
    (h2 : (t.EntriesCount * BASE_INCREASE) % UINT_RANGE = 0) : t.resize_ = none := by
  rw [resize_eq hlen, if_pos h1, h2]
  cases hf : t.Table.flatten with
  | nil => exact absurd hf hne
  | cons e es => simp [rehashChain_zero]

theorem resize_keep {t : ChainedHashTable TKey TData}
    (h1 : t.MaxChained ≤ MAX_CHAINED_DATA) : t.resize_ = some t := by
  unfold ChainedHashTable.resize_
  rw [if_neg (by omega)]

theorem resize_grow {t : ChainedHashTable TKey TData} (hw : WF t)
    (h1 : MAX_CHAINED_DATA < t.MaxChained)
    (h2 : (t.EntriesCount * BASE_INCREASE) % UINT_RANGE ≠ 0) :
    ∃ t2, t.resize_ = some t2 ∧ WF t2 ∧ List.Perm t2.Table.flatten t.Table.flatten ∧
      t2.EntriesCount = t.EntriesCount ∧ t2.HasherFunc = t.HasherFunc ∧
      t2.TableSize = (t.EntriesCount * BASE_INCREASE) % UINT_RANGE ∧ t2.MaxChained = 1 := by
  have hs : 0 < (t.EntriesCount * BASE_INCREASE) % UINT_RANGE := Nat.pos_of_ne_zero h2
  obtain ⟨nt, hr, hl, hp, hperm⟩ :=
    rehashChain_spec t.HasherFunc ((t.EntriesCount * BASE_INCREASE) % UINT_RANGE) hs
      t.Table.flatten (List.replicate ((t.EntriesCount * BASE_INCREASE) % UINT_RANGE) [])
      (by simp) (placed_replicate _ _ _)
  refine ⟨{ t with
             MaxChained := 1, Table := nt,
             TableSize := (t.EntriesCount * BASE_INCREASE) % UINT_RANGE },
    ?_, ?_, ?_, rfl, rfl, rfl, rfl⟩
  · rw [resize_eq hw.len, if_pos h1, hr]
  · have hperm1 : List.Perm nt.flatten t.Table.flatten := by simpa using hperm
    exact
      { len := hl
        pos := hs
        placed := hp
        nodup := ((hperm1.map Entry.Key).nodup_iff).2 hw.nodup
        count := by
          show t.EntriesCount = nt.flatten.length % UINT_RANGE
          rw [hperm1.length_eq]
          exact hw.count }
  · simpa using hperm

/-- What `resize_` returns on a well-formed non-empty table, when it returns. -/
theorem resize_wf {t t2 : ChainedHashTable TKey TData} (hw : WF t)
    (hne : t.Table.flatten ≠ []) (h : t.resize_ = some t2) :
    WF t2 ∧ List.Perm t2.Table.flatten t.Table.flatten ∧
      t2.EntriesCount = t.EntriesCount ∧ t2.HasherFunc = t.HasherFunc := by
  by_cases h1 : t.MaxChained ≤ MAX_CHAINED_DATA
  · rw [resize_keep h1] at h
    simp at h
    subst h
    exact ⟨hw, List.Perm.refl _, rfl, rfl⟩
  · have h1 : MAX_CHAINED_DATA < t.MaxChained := by omega
    by_cases h2 : (t.EntriesCount * BASE_INCREASE) % UINT_RANGE = 0
    · rw [resize_undefined hw.len hne h1 h2] at h
      simp at h
    · obtain ⟨t3, h3, h4, h5, h6, h7, _, _⟩ := resize_grow hw h1 h2
      rw [h3] at h
      simp at h
      subst h
      exact ⟨h4, h5, h6, h7⟩

/-! ## `insert` -/

section Ops

variable [DecidableEq TKey]

/-- Scanning the chosen chain for a key decides whether the key is in the table. -/
theorem any_iff_mem {t : ChainedHashTable TKey TData} (hw : WF t) {key : TKey} {i : Nat}
    {l : List (Entry TKey TData)} (hi : bucketIndex t.HasherFunc t.TableSize key = some i)
    (hl : t.Table[i]? = some l) :
    l.any (fun it => it.Key == key) = true ↔ ∃ x ∈ t.Table.flatten, x.Key = key := by
  rw [List.any_eq_true]
  constructor
  · rintro ⟨x, hx, hk⟩
    exact ⟨x, (mem_flatten_iff_getElem? _ _).2 ⟨i, l, hl, hx⟩, by simpa using hk⟩
  · rintro ⟨x, hx, hk⟩
    obtain ⟨j, l1, hl1, hm⟩ := (mem_flatten_iff_getElem? _ _).1 hx
    have hj := hw.placed j l1 hl1 _ hm
    rw [hk, hi] at hj
    simp at hj
    subst hj
    rw [hl] at hl1
    simp at hl1
    subst hl1
    exact ⟨x, hm, by simpa using hk⟩

theorem pushEntry_wf {t : ChainedHashTable TKey TData} (hw : WF t) {e : Entry TKey TData}
    {i : Nat} {l : List (Entry TKey TData)}
    (hi : bucketIndex t.HasherFunc t.TableSize e.Key = some i) (hl : t.Table[i]? = some l)
    (hany : ¬ l.any (fun it => it.Key == e.Key) = true) :
    WF (t.pushEntry i l e) ∧ List.Perm (t.pushEntry i l e).Table.flatten (e :: t.Table.flatten) := by
  obtain ⟨A, B, hAB, hset⟩ := flatten_set_split _ _ _ hl
  have hperm : List.Perm (t.pushEntry i l e).Table.flatten (e :: t.Table.flatten) := by
    show List.Perm (t.Table.set i (l ++ [e])).flatten (e :: t.Table.flatten)
    rw [hset, hAB]
    simp only [List.append_assoc, List.singleton_append]
    refine List.Perm.trans ?_ List.perm_middle
    exact List.Perm.append_left A List.perm_middle
  refine ⟨?_, hperm⟩
  have habs : ∀ x ∈ t.Table.flatten, x.Key ≠ e.Key := by
    intro x hx hk
    exact hany ((any_iff_mem hw hi hl).2 ⟨x, hx, hk⟩)
  exact
    { len := by
        show (t.Table.set i (l ++ [e])).length = t.TableSize
        simpa using hw.len
      pos := hw.pos
      placed := by
        show Placed t.HasherFunc t.TableSize (t.Table.set i (l ++ [e]))
        apply placed_set hw.placed
        intro x hx
        rw [List.mem_append] at hx
        rcases hx with hx | hx
        · exact hw.placed i l hl x hx
        · simp at hx
          subst hx
          exact hi
      nodup := by
        rw [((hperm.map Entry.Key).nodup_iff)]
        simp only [List.map_cons, List.nodup_cons]
        refine ⟨?_, hw.nodup⟩
        intro hmem
        rw [List.mem_map] at hmem
        obtain ⟨x, hx, hk⟩ := hmem
        exact habs x hx hk
      count := by
        show (t.EntriesCount + 1) % UINT_RANGE = (t.pushEntry i l e).Table.flatten.length % UINT_RANGE
        rw [hperm.length_eq, hw.count]
        simp only [List.length_cons, UINT_RANGE]
        omega }

theorem insert_eq_of_wf {t : ChainedHashTable TKey TData} (hw : WF t)
    (e : Entry TKey TData) :
    ∃ i l, bucketIndex t.HasherFunc t.TableSize e.Key = some i ∧ t.Table[i]? = some l ∧
      t.insert e =
        if l.any (fun it => it.Key == e.Key) then some (false, t)
        else
          match (t.pushEntry i l e).resize_ with
          | none => none
          | some t1 => some (true, t1) := by
  obtain ⟨i, hi, hlt⟩ := bucketIndex_lt t.HasherFunc t.TableSize e.Key hw.pos
  have hlen : i < t.Table.length := by rw [hw.len]; exact hlt
  refine ⟨i, t.Table[i], hi, List.getElem?_eq_getElem hlen, ?_⟩
  simp [ChainedHashTable.insert, hi, List.getElem?_eq_getElem hlen]

/-- What `insert` returns on a well-formed table, when it returns. -/
theorem insert_spec {t t1 : ChainedHashTable TKey TData} (hw : WF t) {e : Entry TKey TData}
    {b : Bool} (h : t.insert e = some (b, t1)) :
    WF t1 ∧ t1.HasherFunc = t.HasherFunc ∧
      ((b = false ∧ t1 = t ∧ ∃ x ∈ t.Table.flatten, x.Key = e.Key) ∨
       (b = true ∧ (∀ x ∈ t.Table.flatten, x.Key ≠ e.Key) ∧
          List.Perm t1.Table.flatten (e :: t.Table.flatten) ∧
          t1.EntriesCount = (t.EntriesCount + 1) % UINT_RANGE)) := by
  obtain ⟨i, l, hi, hl, hins⟩ := insert_eq_of_wf hw e
  rw [hins] at h
  by_cases hany : l.any (fun it => it.Key == e.Key) = true
  · rw [if_pos hany] at h
    simp at h
    obtain ⟨rfl, rfl⟩ := h
    exact ⟨hw, rfl, Or.inl ⟨rfl, rfl, (any_iff_mem hw hi hl).1 hany⟩⟩
  · rw [if_neg hany] at h
    obtain ⟨hw1, hperm⟩ := pushEntry_wf hw hi hl hany
    have hne : (t.pushEntry i l e).Table.flatten ≠ [] := by
      intro h0
      rw [h0] at hperm
      simp at hperm
    cases hr : (t.pushEntry i l e).resize_ with
    | none => rw [hr] at h; simp at h
    | some t2 =>
      rw [hr] at h
      simp at h
      obtain ⟨rfl, rfl⟩ := h
      obtain ⟨h1, h2, h3, h4⟩ := resize_wf hw1 hne hr
      refine ⟨h1, by rw [h4]; rfl, Or.inr ⟨rfl, ?_, h2.trans hperm, by rw [h3]; rfl⟩⟩
      intro x hx hk
      exact hany ((any_iff_mem hw hi hl).2 ⟨x, hx, hk⟩)

/-- An `insert` of an absent key returns unless it has to rebuild the bucket array with
a size that wrapped to zero. -/
theorem insert_absent_total {t : ChainedHashTable TKey TData} (hw : WF t)
    (e : Entry TKey TData) (habs : ∀ x ∈ t.Table.flatten, x.Key ≠ e.Key)
    (hc : (t.EntriesCount + 1) % 2 ^ 31 ≠ 0) : ∃ t1, t.insert e = some (true, t1) := by
  obtain ⟨i, l, hi, hl, hins⟩ := insert_eq_of_wf hw e
  have hany : ¬ l.any (fun it => it.Key == e.Key) = true := by
    intro h
    obtain ⟨x, hx, hk⟩ := (any_iff_mem hw hi hl).1 h
    exact habs x hx hk
  obtain ⟨hw1, _⟩ := pushEntry_wf hw hi hl hany
  rw [hins, if_neg hany]
  by_cases h1 : (t.pushEntry i l e).MaxChained ≤ MAX_CHAINED_DATA
  · rw [resize_keep h1]
    exact ⟨_, rfl⟩
  · have h2 : ((t.pushEntry i l e).EntriesCount * BASE_INCREASE) % UINT_RANGE ≠ 0 := by
      show ((t.EntriesCount + 1) % UINT_RANGE * BASE_INCREASE) % UINT_RANGE ≠ 0
      simp only [UINT_RANGE, BASE_INCREASE]
      omega
    obtain ⟨t2, hr, _⟩ := resize_grow hw1 (by omega) h2
    rw [hr]
    exact ⟨_, rfl⟩

theorem insert_present {t : ChainedHashTable TKey TData} (hw : WF t)
    (e : Entry TKey TData) (hpres : ∃ x ∈ t.Table.flatten, x.Key = e.Key) :
    t.insert e = some (false, t) := by
  obtain ⟨i, l, hi, hl, hins⟩ := insert_eq_of_wf hw e
  rw [hins, if_pos ((any_iff_mem hw hi hl).2 hpres)]

end Ops

/-! ## `remove`, the constructors, and reachable tables -/

section Ops2

variable [DecidableEq TKey]

theorem remove_eq_of_wf {t : ChainedHashTable TKey TData} (hw : WF t) (key : TKey) :
    ∃ i l, bucketIndex t.HasherFunc t.TableSize key = some i ∧ t.Table[i]? = some l ∧
      t.remove key =
        if l.any (fun it => it.Key == key) then
          some (true,
            { t with
              Table := t.Table.set i (l.eraseP (fun it => it.Key == key))
              EntriesCount := (t.EntriesCount + UINT_RANGE - 1) % UINT_RANGE })
        else some (false, t) := by
  obtain ⟨i, hi, hlt⟩ := bucketIndex_lt t.HasherFunc t.TableSize key hw.pos
  have hlen : i < t.Table.length := by rw [hw.len]; exact hlt
  refine ⟨i, t.Table[i], hi, List.getElem?_eq_getElem hlen, ?_⟩
  simp [ChainedHashTable.remove, hi, List.getElem?_eq_getElem hlen]

/-- What `remove` returns on a well-formed table: it always returns. -/
theorem remove_spec {t : ChainedHashTable TKey TData} (hw : WF t) (key : TKey) :
    ∃ b t1, t.remove key = some (b, t1) ∧ WF t1 ∧ t1.HasherFunc = t.HasherFunc ∧
      ((b = false ∧ t1 = t ∧ ∀ x ∈ t.Table.flatten, x.Key ≠ key) ∨
       (b = true ∧ (∃ x ∈ t.Table.flatten, x.Key = key) ∧
          (∀ x, x ∈ t1.Table.flatten ↔ x ∈ t.Table.flatten ∧ x.Key ≠ key) ∧
          t1.Table.flatten.length + 1 = t.Table.flatten.length ∧
          t1.EntriesCount = (t.EntriesCount + UINT_RANGE - 1) % UINT_RANGE)) := by
  obtain ⟨i, l, hi, hl, hrem⟩ := remove_eq_of_wf hw key
  by_cases hany : l.any (fun it => it.Key == key) = true
  · rw [if_pos hany] at hrem
    have hpres := (any_iff_mem hw hi hl).1 hany
    obtain ⟨A, B, hAB, hset⟩ := flatten_set_split _ _ _ hl
    rw [List.any_eq_true] at hany
    obtain ⟨a, hal, hpa⟩ := hany
    obtain ⟨a1, l1, l2, hl1, hpa1, hsplit, herase⟩ :=
      List.exists_of_eraseP (p := fun it : Entry TKey TData => it.Key == key) hal hpa
    have hk1 : a1.Key = key := by simpa using hpa1
    have hperm : List.Perm t.Table.flatten (a1 :: (A ++ (l1 ++ l2) ++ B)) := by
      rw [hAB, hsplit]
      simp only [List.append_assoc, List.cons_append]
      exact (List.Perm.append_left A List.perm_middle).trans List.perm_middle
    have hnd : (a1.Key :: (A ++ (l1 ++ l2) ++ B).map Entry.Key).Nodup :=
      ((hperm.map Entry.Key).nodup_iff).1 hw.nodup
    rw [List.nodup_cons] at hnd
    refine ⟨true, _, hrem, ?_, rfl, Or.inr ⟨rfl, hpres, ?_, ?_, rfl⟩⟩
    · exact
        { len := by
            show (t.Table.set i _).length = t.TableSize
            simpa using hw.len
          pos := hw.pos
          placed := by
            show Placed t.HasherFunc t.TableSize (t.Table.set i _)
            apply placed_set hw.placed
            intro x hx
            exact hw.placed i l hl x ((List.eraseP_sublist l).subset hx)
          nodup := by
            show ((t.Table.set i _).flatten.map Entry.Key).Nodup
            rw [hset, herase]
            exact hnd.2
          count := by
            show (t.EntriesCount + UINT_RANGE - 1) % UINT_RANGE =
              (t.Table.set i _).flatten.length % UINT_RANGE
            rw [hset, herase, hw.count, hperm.length_eq]
            simp only [List.length_cons, UINT_RANGE]
            omega }
    · intro x
      show x ∈ (t.Table.set i _).flatten ↔ _
      rw [hset, herase, hperm.mem_iff, List.mem_cons]
      constructor
      · intro hx
        refine ⟨Or.inr hx, ?_⟩
        intro hxk
        exact hnd.1 (List.mem_map.2 ⟨x, hx, by rw [hxk, hk1]⟩)
      · rintro ⟨hx | hx, hxk⟩
        · subst hx
          exact absurd hk1 hxk
        · exact hx
    · show (t.Table.set i _).flatten.length + 1 = _
      rw [hset, herase, hperm.length_eq]
      simp
  · rw [if_neg hany] at hrem
    refine ⟨false, t, hrem, hw, rfl, Or.inl ⟨rfl, rfl, ?_⟩⟩
    intro x hx hk
    exact hany ((any_iff_mem hw hi hl).2 ⟨x, hx, hk⟩)

end Ops2

/-! ## The copy constructor -/

theorem getElem?_length_append_cons {α : Type} (P : List α) (x : α) (R : List α) :
    (P ++ x :: R)[P.length]? = some x := by
  induction P with
  | nil => simp
  | cons y P ih => simpa using ih

theorem rehashChain_same_bucket (hasher : TKey → Nat) (size k : Nat)
    (l : List (Entry TKey TData)) (hl : ∀ e ∈ l, bucketIndex hasher size e.Key = some k) :
    ∀ (P : List (List (Entry TKey TData))) (l0 : List (Entry TKey TData))
      (R : List (List (Entry TKey TData))), P.length = k →
      rehashChain hasher size l (P ++ l0 :: R) = some (P ++ (l0 ++ l) :: R) := by
  induction l with
  | nil =>
    intro P l0 R _
    simp [rehashChain]
  | cons e es ih =>
    intro P l0 R hP
    have he := hl e (by simp)
    have hget : (P ++ l0 :: R)[k]? = some l0 := by
      rw [← hP]
      exact getElem?_length_append_cons P l0 R
    have hset : (P ++ l0 :: R).set k (l0 ++ [e]) = P ++ (l0 ++ [e]) :: R := by
      rw [← hP]
      simp
    simp only [rehashChain, he, pushBackAt, hget, hset]
    rw [ih (fun x hx => hl x (by simp [hx])) P (l0 ++ [e]) R hP]
    simp

theorem rehashChain_identity (hasher : TKey → Nat) (size : Nat) :
    ∀ (Q P : List (List (Entry TKey TData))), Placed hasher size (P ++ Q) →
      rehashChain hasher size Q.flatten (P ++ List.replicate Q.length []) = some (P ++ Q) := by
  intro Q
  induction Q with
  | nil =>
    intro P _
    simp [rehashChain]
  | cons l Q ih =>
    intro P hp
    have hl : ∀ e ∈ l, bucketIndex hasher size e.Key = some P.length := by
      intro e he
      exact hp P.length l (getElem?_length_append_cons P l Q) e he
    rw [List.flatten_cons, rehashChain_append, List.length_cons, List.replicate_succ,
      rehashChain_same_bucket hasher size P.length l hl P [] _ rfl]
    simp only [Option.some_bind, List.nil_append]
    have := ih (P ++ [l]) (by simpa using hp)
    simpa using this

/-- The copy constructor rebuilds a well-placed bucket array chain for chain. -/
theorem copy_eq_self {t : ChainedHashTable TKey TData} (hlen : t.Table.length = t.TableSize)
    (hp : Placed t.HasherFunc t.TableSize t.Table) : t.copy = some t := by
  unfold ChainedHashTable.copy
  rw [← hlen, rehashTable_eq]
  have := rehashChain_identity t.HasherFunc t.Table.length t.Table []
    (by rw [hlen]; simpa using hp)
  simp only [List.nil_append] at this
  rw [this]
  simp only [hlen]

theorem create_wf (hasher : TKey → Nat) (n : Nat) (hn : 0 < n) :
    WF (ChainedHashTable.create hasher n : ChainedHashTable TKey TData) :=
  { len := by simp [ChainedHashTable.create]
    pos := hn
    placed := placed_replicate _ _ _
    nodup := by simp [ChainedHashTable.create]
    count := by simp [ChainedHashTable.create] }

/-- Every reachable table satisfies the representation invariant. -/
theorem Reachable.wf [DecidableEq TKey] {t : ChainedHashTable TKey TData}
    (h : Reachable t) : WF t := by
  induction h with
  | create hasher n hn => exact create_wf hasher n hn
  | insert t t1 key data b _ hstep ih => exact (insert_spec ih hstep).1
  | remove t t1 key b _ hstep ih =>
    obtain ⟨b1, t2, h1, h2, _⟩ := remove_spec ih key
    rw [h1] at hstep
    simp at hstep
    rw [← hstep.2]
    exact h2
  | copy t t1 _ hstep ih =>
    rw [copy_eq_self ih.len ih.placed] at hstep
    simp at hstep
    rw [← hstep]
    exact ih

/-! ## A long run without any resize -/

theorem packedTable_getElem? (size m i : Nat) (hi : i < size) :
    (packedTable size m).Table[i]? = some (packedChain m i) := by
  simp [packedTable, List.getElem?_range hi]

theorem packedTable_zero (size : Nat) :
    packedTable size 0 = ChainedHashTable.create (fun k => k / 5) size := by
  unfold packedTable ChainedHashTable.create
  simp only [ChainedHashTable.mk.injEq, true_and, and_true]
  refine ⟨?_, by simp [UINT_RANGE], by simp⟩
  apply List.ext_getElem?
  intro j
  by_cases hj : j < size
  · simp [List.getElem?_range hj, hj, packedChain]
  · simp [hj, List.getElem?_replicate]
    omega

theorem packedChain_any (m : Nat) :
    (packedChain m (m / 5)).any (fun it => it.Key == m) = false := by
  rw [List.any_eq_false]
  intro x hx
  simp only [packedChain, List.mem_map, List.mem_range'_1] at hx
  obtain ⟨j, hj, rfl⟩ := hx
  simp
  omega

theorem packedTable_step (size m : Nat) (hs : size ≤ 2 ^ 32) (hm : m < 5 * size) :
    (packedTable size m).insertKeyData m 0 = some (true, packedTable size (m + 1)) := by
  have hq : m / 5 < size := by omega
  have hidx : bucketIndex (packedTable size m).HasherFunc (packedTable size m).TableSize m
      = some (m / 5) := by
    simp only [bucketIndex, packedTable, UINT_RANGE]
    rw [if_neg (by omega)]
    congr 1
    rw [Nat.mod_eq_of_lt (by omega)]
    omega
  have hk : (packedTable size m).pushEntry (m / 5) (packedChain m (m / 5)) (Entry.mk m 0)
      = packedTable size (m + 1) := by
    unfold ChainedHashTable.pushEntry
    simp only [packedTable, ChainedHashTable.mk.injEq, true_and]
    refine ⟨?_, ?_, ?_⟩
    · apply List.ext_getElem?
      intro j
      rw [List.getElem?_set]
      by_cases hj : j < size
      · simp only [List.length_map, List.length_range, List.getElem?_map,
          List.getElem?_range hj, Option.map_some']
        by_cases hjq : m / 5 = j
        · subst hjq
          simp only [if_true, hq]
          congr 1
          have h1 : min 5 (m + 1 - 5 * (m / 5)) = min 5 (m - 5 * (m / 5)) + 1 := by omega
          have h2 : 5 * (m / 5) + min 5 (m - 5 * (m / 5)) = m := by omega
          simp only [packedChain]
          rw [h1, List.range'_1_concat, List.map_append, h2]
          rfl
        · rw [if_neg hjq]
          have h1 : min 5 (m + 1 - 5 * j) = min 5 (m - 5 * j) := by omega
          simp only [packedChain, h1]
      · have : (List.range size)[j]? = none := by simp; omega
        simp [this]
        omega
    · simp only [UINT_RANGE]
      omega
    · simp only [packedChain, List.length_append, List.length_map, List.length_range',
        List.length_singleton, UINT_RANGE]
      split <;> omega
  unfold ChainedHashTable.insertKeyData ChainedHashTable.insert
  simp only [hidx, packedTable_getElem? size m (m / 5) hq, packedChain_any m, hk]
  rw [resize_keep (by simp [packedTable, MAX_CHAINED_DATA])]
  simp

theorem packedTable_reachable (size m : Nat) (hs0 : 0 < size) (hs : size ≤ 2 ^ 32)
    (hm : m ≤ 5 * size) : Reachable (packedTable size m) := by
  induction m with
  | zero =>
    rw [packedTable_zero]
    exact Reachable.create _ _ hs0
  | succ m ih =>
    exact Reachable.insert _ _ m 0 true (ih (by omega)) (packedTable_step size m hs (by omega))

theorem packedTable_far_index (size m : Nat) (hs0 : 0 < size) (hs : size ≤ 2 ^ 32) :
    bucketIndex (packedTable size m).HasherFunc (packedTable size m).TableSize (5 * size)
      = some 0 := by
  simp only [bucketIndex, packedTable, UINT_RANGE]
  rw [if_neg (by omega)]
  congr 1
  have h5 : 5 * size / 5 = size := by omega
  rw [h5]
  by_cases h : size = 2 ^ 32
  · rw [h]
    rfl
  · have h1 : size % 2 ^ 32 = size := Nat.mod_eq_of_lt (by omega)
    rw [h1, Nat.mod_self]

theorem packedTable_find_far (size m : Nat) (hs0 : 0 < size) (hs : size ≤ 2 ^ 32) :
    (packedTable size m).find (5 * size) = some none := by
  have hidx := packedTable_far_index size m hs0 hs
  unfold ChainedHashTable.find
  simp only [hidx, packedTable_getElem? size m 0 hs0]
  congr 1
  simp only [Option.map_eq_none', List.find?_eq_none]
  intro x hx
  simp only [packedChain, List.mem_map, List.mem_range'_1] at hx
  obtain ⟨j, hj, rfl⟩ := hx
  simp
  omega

theorem packedTable_far_resize (size m : Nat) (hs0 : 0 < size) (hs : size ≤ 2 ^ 32)
    (hm5 : 5 ≤ m) (hm : m ≤ 5 * size) (hov : (m + 1) % 2 ^ 31 = 0) :
    ResizeInput ((packedTable size m).pushEntry 0 (packedChain m 0) (Entry.mk (5 * size) 0)) ∧
    ((packedTable size m).pushEntry 0 (packedChain m 0) (Entry.mk (5 * size) 0)).MaxChained
      = 6 ∧
    ((packedTable size m).pushEntry 0 (packedChain m 0) (Entry.mk (5 * size) 0)).EntriesCount
      = (m + 1) % 2 ^ 32 ∧
    ((packedTable size m).pushEntry 0 (packedChain m 0) (Entry.mk (5 * size) 0)).resize_
      = none := by
  have hr := packedTable_reachable size m hs0 hs hm
  have hw : WF (packedTable size m) := hr.wf
  have hnf := packedTable_find_far size m hs0 hs
  have habs := (find_none_iff hw _).1 hnf
  have hi := packedTable_far_index size m hs0 hs
  have hl := packedTable_getElem? size m 0 hs0
  have hany : ¬ (packedChain m 0).any
      (fun it => it.Key == (Entry.mk (5 * size) (0 : Nat)).Key) = true := by
    intro h
    obtain ⟨x, hx, hk⟩ := (any_iff_mem hw hi hl).1 h
    exact habs x hx hk
  obtain ⟨hw1, hperm⟩ := pushEntry_wf hw hi hl hany
  have hlen5 : (packedChain m 0).length = 5 := by
    simp [packedChain]
    omega
  have hmax : ((packedTable size m).pushEntry 0 (packedChain m 0)
      (Entry.mk (5 * size) 0)).MaxChained = 6 := by
    simp only [ChainedHashTable.pushEntry, packedTable, List.length_append, hlen5,
      List.length_singleton, UINT_RANGE]
    split <;> omega
  have hcnt : ((packedTable size m).pushEntry 0 (packedChain m 0)
      (Entry.mk (5 * size) 0)).EntriesCount = (m + 1) % 2 ^ 32 := by
    simp only [ChainedHashTable.pushEntry, packedTable, UINT_RANGE]
    omega
  refine ⟨ResizeInput.intro _ _ 0 _ hr hi hl (by simpa using hany), hmax, hcnt, ?_⟩
  apply resize_undefined hw1.len
  · intro h0
    rw [h0] at hperm
    simp at hperm
  · rw [hmax]
    simp [MAX_CHAINED_DATA]
  · rw [hcnt]
    simp only [UINT_RANGE, BASE_INCREASE]
    omega

theorem packedTable_insert_far (size m : Nat) (hs0 : 0 < size) (hs : size ≤ 2 ^ 32)
    (hm5 : 5 ≤ m) (hm : m ≤ 5 * size) (hov : (m + 1) % 2 ^ 31 = 0) :
    (packedTable size m).insertKeyData (5 * size) 0 = none := by
  obtain ⟨hin, _, _, hres⟩ := packedTable_far_resize size m hs0 hs hm5 hm hov
  have hany : (packedChain m 0).any
      (fun it => it.Key == (Entry.mk (5 * size) (0 : Nat)).Key) = false := by
    rw [List.any_eq_false]
    intro x hx
    simp only [packedChain, List.mem_map, List.mem_range'_1] at hx
    obtain ⟨j, hj, rfl⟩ := hx
    simp
    omega
  unfold ChainedHashTable.insertKeyData ChainedHashTable.insert
  simp only [packedTable_far_index size m hs0 hs, packedTable_getElem? size m 0 hs0, hany,
    hres]
  simp

/-! ## Concrete reachable tables -/

theorem sampleTable_reachable : Reachable sampleTable :=
  Reachable.insert _ _ 2 20 true
    (Reachable.insert _ _ 5 50 true
      (Reachable.insert _ _ 1 10 true (Reachable.create (fun k => k) 4 (by decide)) rfl)
      rfl)
    rfl

theorem crowdedTable_reachable : Reachable crowdedTable :=
  Reachable.insert _ _ 5 50 true
    (Reachable.insert _ _ 4 40 true
      (Reachable.insert _ _ 3 30 true
        (Reachable.insert _ _ 2 20 true
          (Reachable.insert _ _ 1 10 true (Reachable.create (fun _ => 0) 1 (by decide)) rfl)
          rfl)
        rfl)
      rfl)
    rfl

/-! ## C1: round trip -/

section Claims

variable [DecidableEq TKey]

/-- C1 (as amended). On every reachable table whose entry count plus one is not a
multiple of 2^31, for every key that `find` does not find and every data, `insert`
returns true and `find` on the resulting table returns that data, whether or not the
insert rebuilt the bucket array. -/
theorem C1_round_trip (t : ChainedHashTable TKey TData) (hr : Reachable t) (k : TKey)
    (d : TData) (hnf : t.find k = some none) (hc : (t.entries + 1) % 2 ^ 31 ≠ 0) :
    ∃ t1, t.insertKeyData k d = some (true, t1) ∧ t1.find k = some (some d) := by
  have hw := hr.wf
  have habs := (find_none_iff hw k).1 hnf
  obtain ⟨t1, h1⟩ := insert_absent_total hw (Entry.mk k d) habs hc
  refine ⟨t1, h1, ?_⟩
  obtain ⟨hw1, _, hcase⟩ := insert_spec hw h1
  rcases hcase with ⟨hb, _⟩ | ⟨_, _, hperm, _⟩
  · simp at hb
  · rw [find_some_iff hw1]
    exact hperm.mem_iff.2 (by simp)

end Claims

/-- Witness for C1: key 6 becomes the sixth entry of the only chain of the crowded table,
the insert rebuilds the bucket array, and the key is found again. -/
theorem C1_round_trip_witness :
    ∃ t1, crowdedTable.insertKeyData 6 60 = some (true, t1) ∧ t1.find 6 = some (some 60) :=
  C1_round_trip crowdedTable crowdedTable_reachable 6 60 (by decide) (by decide)

/-- C1 as stated fails: after `insert(0, 0)`, ..., `insert(2^31 - 2, 0)` into
`create(k ↦ k / 5, 2^30)` every chain holds at most five entries; key `5 * 2^30` is not
found, and inserting it makes chain 0 six entries long with `EntriesCount = 2^31`, so
`resize_` computes the new size `2^31 * 2 mod 2^32 = 0` and takes a remainder by zero. -/
theorem C1_counterexample :
    Reachable (packedTable (2 ^ 30) (2 ^ 31 - 1)) ∧
    (packedTable (2 ^ 30) (2 ^ 31 - 1)).find (5 * 2 ^ 30) = some none ∧
    (packedTable (2 ^ 30) (2 ^ 31 - 1)).insertKeyData (5 * 2 ^ 30) 0 = none :=
  ⟨packedTable_reachable _ _ (by norm_num) (by norm_num) (by norm_num),
   packedTable_find_far _ _ (by norm_num) (by norm_num),
   packedTable_insert_far _ _ (by norm_num) (by norm_num) (by norm_num) (by norm_num)
     (by norm_num)⟩

/-! ## C2: duplicate rejection -/

/-- C2. On every reachable table, for every key that `find` finds, `insert` of that key
with any data returns false and returns the table itself (same buckets, bucket count,
entry count and max chain length), so `find` still returns the first entry's data. -/
theorem C2_duplicate_rejected [DecidableEq TKey] (t : ChainedHashTable TKey TData)
    (hr : Reachable t) (k : TKey) (d0 d1 : TData) (hf : t.find k = some (some d0)) :
    ∃ t1, t.insertKeyData k d1 = some (false, t1) ∧ t1 = t ∧
      t1.find k = some (some d0) := by
  have hw := hr.wf
  have hmem := (find_some_iff hw k d0).1 hf
  exact ⟨t, insert_present hw (Entry.mk k d1) ⟨_, hmem, rfl⟩, rfl, hf⟩

/-- Witness for C2: key 5 of the sample table is rejected. -/
theorem C2_duplicate_rejected_witness :
    ∃ t1, sampleTable.insertKeyData 5 77 = some (false, t1) ∧ t1 = sampleTable ∧
      t1.find 5 = some (some 50) :=
  C2_duplicate_rejected sampleTable sampleTable_reachable 5 50 77 (by decide)

/-! ## C3: remove, then find -/

/-- C3 (as amended). On every reachable table, if `remove(k)` returns true then `find(k)`
on the resulting table finds nothing and `entries()` is one less modulo 2^32; it is
exactly one less whenever `entries()` was not zero before. -/
theorem C3_remove_then_find [DecidableEq TKey] (t t1 : ChainedHashTable TKey TData)
    (hr : Reachable t) (k : TKey) (h : t.remove k = some (true, t1)) :
    t1.find k = some none ∧
      t1.entries = (t.entries + 2 ^ 32 - 1) % 2 ^ 32 ∧
      (0 < t.entries → t1.entries + 1 = t.entries) := by
  have hw := hr.wf
  obtain ⟨b, t2, h1, hw2, _, hcase⟩ := remove_spec hw k
  rw [h1] at h
  simp only [Option.some.injEq, Prod.mk.injEq] at h
  obtain ⟨rfl, rfl⟩ := h
  rcases hcase with ⟨hb, _⟩ | ⟨_, _, hmem, _, hcnt⟩
  · simp at hb
  · refine ⟨?_, hcnt, ?_⟩
    · rw [find_none_iff hw2]
      intro e he
      exact ((hmem e).1 he).2
    · intro hpos
      have hlt : t.EntriesCount < UINT_RANGE := by
        rw [hw.count]
        exact Nat.mod_lt _ (by simp [UINT_RANGE])
      simp only [ChainedHashTable.entries, UINT_RANGE] at hpos hlt hcnt ⊢
      omega

/-- Witness for C3: key 5 is removed from the sample table. -/
theorem C3_remove_then_find_witness :
    ∃ t1, sampleTable.remove 5 = some (true, t1) ∧ t1.find 5 = some none ∧
      t1.entries = (sampleTable.entries + 2 ^ 32 - 1) % 2 ^ 32 ∧
      (0 < sampleTable.entries → t1.entries + 1 = sampleTable.entries) :=
  ⟨_, rfl, C3_remove_then_find sampleTable _ sampleTable_reachable 5 rfl⟩

theorem packedTable_remove_zero (size m : Nat) (hs0 : 0 < size) (hs : size ≤ 2 ^ 32)
    (hm1 : 1 ≤ m) (hm : m ≤ 5 * size) :
    ∃ t1, (packedTable size m).remove 0 = some (true, t1) ∧
      t1.EntriesCount = (m % UINT_RANGE + UINT_RANGE - 1) % UINT_RANGE := by
  have hw : WF (packedTable size m) := (packedTable_reachable size m hs0 hs hm).wf
  obtain ⟨b, t1, h1, _, _, hcase⟩ := remove_spec hw 0
  rcases hcase with ⟨_, _, habs⟩ | ⟨hb, _, _, _, hcnt⟩
  · exfalso
    refine habs (Entry.mk 0 0) ?_ rfl
    refine (mem_flatten_iff_getElem? _ _).2 ⟨0, _, packedTable_getElem? size m 0 hs0, ?_⟩
    simp only [packedChain, List.mem_map, List.mem_range'_1]
    exact ⟨0, by omega, rfl⟩
  · subst hb
    exact ⟨t1, h1, hcnt⟩

/-- C3 as stated fails: after `insert(0, 0)`, ..., `insert(2^32 - 1, 0)` into
`create(k ↦ k / 5, 2^30)` (no chain grows beyond five entries, so no insert resizes)
`EntriesCount` has wrapped to 0; `remove(0)` returns true and `entries()` goes from 0
to 4294967295. -/
theorem C3_counterexample :
    Reachable (packedTable (2 ^ 30) (2 ^ 32)) ∧
    (packedTable (2 ^ 30) (2 ^ 32)).entries = 0 ∧
    ∃ t1, (packedTable (2 ^ 30) (2 ^ 32)).remove 0 = some (true, t1) ∧
      t1.entries = 4294967295 := by
  refine ⟨packedTable_reachable _ _ (by norm_num) (by norm_num) (by norm_num), ?_, ?_⟩
  · simp [ChainedHashTable.entries, packedTable, UINT_RANGE]
  · obtain ⟨t1, h1, h2⟩ :=
      packedTable_remove_zero (2 ^ 30) (2 ^ 32) (by norm_num) (by norm_num) (by norm_num)
        (by norm_num)
    refine ⟨t1, h1, ?_⟩
    rw [ChainedHashTable.entries, h2]
    simp [UINT_RANGE]

/-! ## C4: removing a missing key -/

/-- C4. On every reachable table `remove(k)` returns, it returns false exactly when
`find(k)` finds nothing, and then the table is returned unchanged; in particular on a
freshly created table `remove` returns false and `entries()` stays 0. -/
theorem C4_remove_missing [DecidableEq TKey] :
    (∀ (t : ChainedHashTable TKey TData), Reachable t → ∀ k : TKey,
      ∃ b t1, t.remove k = some (b, t1) ∧ (b = false ↔ t.find k = some none) ∧
        (b = false → t1 = t)) ∧
    (∀ (hasher : TKey → Nat) (n : Nat), 0 < n → ∀ k : TKey,
      (ChainedHashTable.create hasher n : ChainedHashTable TKey TData).remove k =
          some (false, ChainedHashTable.create hasher n) ∧
        (ChainedHashTable.create hasher n : ChainedHashTable TKey TData).entries = 0) := by
  have main : ∀ (t : ChainedHashTable TKey TData), WF t → ∀ k : TKey,
      ∃ b t1, t.remove k = some (b, t1) ∧ (b = false ↔ t.find k = some none) ∧
        (b = false → t1 = t) := by
    intro t hw k
    obtain ⟨b, t1, h1, _, _, hcase⟩ := remove_spec hw k
    refine ⟨b, t1, h1, ?_, ?_⟩
    · rw [find_none_iff hw]
      rcases hcase with ⟨hb, _, habs⟩ | ⟨hb, ⟨x, hx, hk⟩, _⟩
      · exact ⟨fun _ => habs, fun _ => hb⟩
      · subst hb
        exact ⟨fun h => by simp at h, fun h => absurd hk (h x hx)⟩
    · rcases hcase with ⟨_, ht, _⟩ | ⟨hb, _⟩
      · exact fun _ => ht
      · subst hb
        exact fun h => by simp at h
  refine ⟨fun t hr k => main t hr.wf k, ?_⟩
  intro hasher n hn k
  refine ⟨?_, rfl⟩
  obtain ⟨b, t1, h1, h2, h3⟩ := main _ (create_wf hasher n hn) k
  have hb : b = false := by
    rw [h2, find_none_iff (create_wf hasher n hn)]
    intro e he
    simp [ChainedHashTable.create] at he
  rw [h1, h3 hb, hb]

/-- Witness for C4: key 9 is missing from the sample table. -/
theorem C4_remove_missing_witness :
    (∃ b t1, sampleTable.remove 9 = some (b, t1) ∧
        (b = false ↔ sampleTable.find 9 = some none) ∧ (b = false → t1 = sampleTable)) ∧
    ((ChainedHashTable.create (fun k => k) 4 : ChainedHashTable Nat Nat).remove 7 =
        some (false, ChainedHashTable.create (fun k => k) 4) ∧
      (ChainedHashTable.create (fun k => k) 4 : ChainedHashTable Nat Nat).entries = 0) :=
  ⟨C4_remove_missing.1 sampleTable sampleTable_reachable 9,
   C4_remove_missing.2 (fun k => k) 4 (by decide) 7⟩

/-! ## C5: the entry count -/

section Runs

variable [DecidableEq TKey]

/-- Along a completed run the number of stored entries is the starting number plus the
successful inserts minus the successful removes. -/
theorem runOps_inv (ops : List (Op TKey TData)) :
    ∀ (t tf : ChainedHashTable TKey TData) (ins rem : Nat), WF t →
      runOps t ops = some (tf, ins, rem) →
      WF tf ∧ tf.Table.flatten.length + rem = t.Table.flatten.length + ins ∧
        tf.Table.flatten.length ≤ t.Table.flatten.length + ops.length := by
  induction ops with
  | nil =>
    intro t tf ins rem hw h
    simp only [runOps, Option.some.injEq, Prod.mk.injEq] at h
    obtain ⟨rfl, rfl, rfl⟩ := h
    exact ⟨hw, rfl, by simp⟩
  | cons op ops ih =>
    intro t tf ins rem hw h
    cases op with
    | insert key data =>
      simp only [runOps] at h
      cases hstep : t.insertKeyData key data with
      | none => rw [hstep] at h; simp at h
      | some r =>
        obtain ⟨b, t1⟩ := r
        rw [hstep] at h
        simp only at h
        cases hrest : runOps t1 ops with
        | none => rw [hrest] at h; simp at h
        | some r1 =>
          obtain ⟨tf1, ins1, rem1⟩ := r1
          rw [hrest] at h
          simp only [Option.some.injEq, Prod.mk.injEq] at h
          obtain ⟨rfl, rfl, rfl⟩ := h
          obtain ⟨hw1, _, hcase⟩ := insert_spec hw hstep
          obtain ⟨hwf, h1, h2⟩ := ih t1 tf1 ins1 rem1 hw1 hrest
          refine ⟨hwf, ?_, ?_⟩
          · rcases hcase with ⟨hb, ht, _⟩ | ⟨hb, _, hperm, _⟩
            · subst hb; subst ht
              simpa using h1
            · subst hb
              have := hperm.length_eq
              simp only [List.length_cons] at this
              simp only [if_true]
              omega
          · rcases hcase with ⟨_, ht, _⟩ | ⟨_, _, hperm, _⟩
            · subst ht
              simp only [List.length_cons]
              omega
            · have := hperm.length_eq
              simp only [List.length_cons] at this ⊢
              omega
    | remove key =>
      simp only [runOps] at h
      obtain ⟨b, t1, hstep, hw1, _, hcase⟩ := remove_spec hw key
      rw [hstep] at h
      simp only at h
      cases hrest : runOps t1 ops with
      | none => rw [hrest] at h; simp at h
      | some r1 =>
        obtain ⟨tf1, ins1, rem1⟩ := r1
        rw [hrest] at h
        simp only [Option.some.injEq, Prod.mk.injEq] at h
        obtain ⟨rfl, rfl, rfl⟩ := h
        obtain ⟨hwf, h1, h2⟩ := ih t1 tf1 ins1 rem1 hw1 hrest
        refine ⟨hwf, ?_, ?_⟩
        · rcases hcase with ⟨hb, ht, _⟩ | ⟨hb, _, _, hlen, _⟩
          · subst hb; subst ht
            simpa using h1
          · subst hb
            simp only [if_true]
            omega
        · rcases hcase with ⟨_, ht, _⟩ | ⟨_, _, _, hlen, _⟩
          · subst ht
            simp only [List.length_cons]
            omega
          · simp only [List.length_cons]
            omega

/-- A run that cannot bring the number of stored entries to 2^31 completes. -/
theorem runOps_total (ops : List (Op TKey TData)) :
    ∀ (t : ChainedHashTable TKey TData), WF t →
      t.Table.flatten.length + ops.length < 2 ^ 31 → ∃ r, runOps t ops = some r := by
  induction ops with
  | nil =>
    intro t _ _
    exact ⟨_, rfl⟩
  | cons op ops ih =>
    intro t hw hlen
    simp only [List.length_cons] at hlen
    cases op with
    | insert key data =>
      have hstep : ∃ b t1, t.insertKeyData key data = some (b, t1) := by
        by_cases hp : ∃ x ∈ t.Table.flatten, x.Key = key
        · exact ⟨false, t, insert_present hw (Entry.mk key data) hp⟩
        · have habs : ∀ x ∈ t.Table.flatten, x.Key ≠ (Entry.mk key data).Key :=
            fun x hx hk => hp ⟨x, hx, hk⟩
          have hc : (t.EntriesCount + 1) % 2 ^ 31 ≠ 0 := by
            rw [hw.count]
            simp only [UINT_RANGE]
            omega
          obtain ⟨t1, h1⟩ := insert_absent_total hw (Entry.mk key data) habs hc
          exact ⟨true, t1, h1⟩
      obtain ⟨b, t1, hstep⟩ := hstep
      obtain ⟨hw1, _, hcase⟩ := insert_spec hw hstep
      have hl1 : t1.Table.flatten.length + ops.length < 2 ^ 31 := by
        rcases hcase with ⟨_, ht, _⟩ | ⟨_, _, hperm, _⟩
        · subst ht
          omega
        · have := hperm.length_eq
          simp only [List.length_cons] at this
          omega
      obtain ⟨r, hrest⟩ := ih t1 hw1 hl1
      obtain ⟨tf, ins, rem⟩ := r
      exact ⟨(tf, ins + (if b then 1 else 0), rem), by simp only [runOps, hstep, hrest]⟩
    | remove key =>
      obtain ⟨b, t1, hstep, hw1, _, hcase⟩ := remove_spec hw key
      have hl1 : t1.Table.flatten.length + ops.length < 2 ^ 31 := by
        rcases hcase with ⟨_, ht, _⟩ | ⟨_, _, _, hlen1, _⟩
        · subst ht
          omega
        · omega
      obtain ⟨r, hrest⟩ := ih t1 hw1 hl1
      obtain ⟨tf, ins, rem⟩ := r
      exact ⟨(tf, ins, rem + (if b then 1 else 0)), by simp only [runOps, hstep, hrest]⟩

/-- C5 (as amended). For a table from `create(hasher, n)`, `n > 0`: after every sequence
of `insert`/`remove` calls that runs to completion, `entries()` equals the number of
inserts that returned true minus the number of removes that returned true, modulo 2^32;
and every sequence of fewer than 2^31 calls runs to completion with `entries()` equal
to exactly that difference. -/
theorem C5_count_invariant (hasher : TKey → Nat) (n : Nat) (hn : 0 < n)
    (ops : List (Op TKey TData)) :
    (∀ (t : ChainedHashTable TKey TData) (ins rem : Nat),
        runOps (ChainedHashTable.create hasher n) ops = some (t, ins, rem) →
        rem ≤ ins ∧ t.entries = (ins - rem) % 2 ^ 32) ∧
    (ops.length < 2 ^ 31 →
      ∃ (t : ChainedHashTable TKey TData) (ins rem : Nat),
        runOps (ChainedHashTable.create hasher n) ops = some (t, ins, rem) ∧
        rem ≤ ins ∧ t.entries = ins - rem) := by
  have hw0 : WF (ChainedHashTable.create hasher n : ChainedHashTable TKey TData) :=
    create_wf hasher n hn
  have hlen0 : (ChainedHashTable.create hasher n :
      ChainedHashTable TKey TData).Table.flatten.length = 0 := by
    simp [ChainedHashTable.create]
  constructor
  · intro t ins rem h
    obtain ⟨hw, h1, _⟩ := runOps_inv ops _ t ins rem hw0 h
    rw [hlen0] at h1
    refine ⟨by omega, ?_⟩
    rw [ChainedHashTable.entries, hw.count]
    simp only [UINT_RANGE]
    congr 1
    omega
  · intro hshort
    obtain ⟨r, hr⟩ := runOps_total ops _ hw0 (by rw [hlen0]; omega)
    obtain ⟨t, ins, rem⟩ := r
    obtain ⟨hw, h1, h2⟩ := runOps_inv ops _ t ins rem hw0 hr
    rw [hlen0] at h1 h2
    refine ⟨t, ins, rem, hr, by omega, ?_⟩
    rw [ChainedHashTable.entries, hw.count]
    simp only [UINT_RANGE]
    omega

end Runs

/-- Witness for C5: three inserts (one rejected) and two removes (one failing) on
`create(k ↦ k, 4)`. -/
theorem C5_count_invariant_witness :
    (∀ (t : ChainedHashTable Nat Nat) (ins rem : Nat),
        runOps (ChainedHashTable.create (fun k => k) 4)
          [Op.insert 1 10, Op.insert 5 50, Op.insert 1 11, Op.remove 5, Op.remove 7]
          = some (t, ins, rem) →
        rem ≤ ins ∧ t.entries = (ins - rem) % 2 ^ 32) ∧
    (([Op.insert 1 10, Op.insert 5 50, Op.insert 1 11, Op.remove 5, Op.remove 7] :
        List (Op Nat Nat)).length < 2 ^ 31 →
      ∃ (t : ChainedHashTable Nat Nat) (ins rem : Nat),
        runOps (ChainedHashTable.create (fun k => k) 4)
          [Op.insert 1 10, Op.insert 5 50, Op.insert 1 11, Op.remove 5, Op.remove 7]
          = some (t, ins, rem) ∧
        rem ≤ ins ∧ t.entries = ins - rem) :=
  C5_count_invariant (fun k => k) 4 (by decide)
    [Op.insert 1 10, Op.insert 5 50, Op.insert 1 11, Op.remove 5, Op.remove 7]

theorem packedTable_run (size : Nat) (hs : size ≤ 2 ^ 32) :
    ∀ n a : Nat, a + n ≤ 5 * size →
      runOps (packedTable size a) (insertRun a n) = some (packedTable size (a + n), n, 0) := by
  intro n
  induction n with
  | zero =>
    intro a _
    simp [insertRun, runOps]
  | succ n ih =>
    intro a ha
    have hstep := packedTable_step size a hs (by omega)
    have hrest := ih (a + 1) (by omega)
    have hcons : insertRun a (n + 1) = Op.insert a 0 :: insertRun (a + 1) n := by
      simp [insertRun, List.range'_succ]
    have harith : a + 1 + n = a + (n + 1) := by omega
    rw [hcons]
    simp only [runOps, hstep, hrest, harith, if_true]

/-- C5 as stated fails: the 2^32 calls `insert(0, 0)`, ..., `insert(2^32 - 1, 0)` on
`create(k ↦ k / 5, 2^30)` all return true (no chain grows beyond five entries, so no
insert resizes), no remove is called, and `entries()` of the final table is 0. -/
theorem C5_counterexample :
    runOps (ChainedHashTable.create (fun k => k / 5) (2 ^ 30)) (insertRun 0 (2 ^ 32)) =
        some (packedTable (2 ^ 30) (2 ^ 32), 2 ^ 32, 0) ∧
      (packedTable (2 ^ 30) (2 ^ 32)).entries = 0 := by
  constructor
  · rw [← packedTable_zero]
    have h := packedTable_run (2 ^ 30) (by norm_num) (2 ^ 32) 0 (by norm_num)
    rw [Nat.zero_add] at h
    exact h
  · simp [ChainedHashTable.entries, packedTable, UINT_RANGE]

/-! ## C6: uniqueness of keys -/

/-- C6. In every table reachable from `create` with `n > 0` by `insert`, `remove` and
the copy constructor, for every key at most one entry with that key exists across all
buckets. -/
theorem C6_unique_keys [DecidableEq TKey] (t : ChainedHashTable TKey TData)
    (hr : Reachable t) (k : TKey) :
    t.Table.flatten.countP (fun e => e.Key == k) ≤ 1 := by
  have h := List.nodup_iff_count_le_one.1 hr.wf.nodup k
  rw [List.count_eq_countP, List.countP_map] at h
  exact h

/-- Witness for C6: key 5 occurs at most once in the sample table. -/
theorem C6_unique_keys_witness :
    sampleTable.Table.flatten.countP (fun e => e.Key == 5) ≤ 1 :=
  C6_unique_keys sampleTable sampleTable_reachable 5

/-! ## C7: resize preserves content -/

/-- C7 (as amended). On every table on which `insert` calls `resize_`, if the max chain
length exceeds 5 and the entry count is not a multiple of 2^31, then `resize_` returns,
every `find` gives the same result after it as before, and `entries()` is unchanged. -/
theorem C7_resize_preserves [DecidableEq TKey] (t1 : ChainedHashTable TKey TData)
    (hin : ResizeInput t1) (hfire : MAX_CHAINED_DATA < t1.MaxChained)
    (hc : t1.entries % 2 ^ 31 ≠ 0) :
    ∃ t2, t1.resize_ = some t2 ∧ (∀ k, t2.find k = t1.find k) ∧
      t2.entries = t1.entries := by
  cases hin with
  | intro t e i l hr hi hl hany =>
    obtain ⟨hw1, _⟩ := pushEntry_wf hr.wf hi hl (by simp [hany])
    have h2 : ((t.pushEntry i l e).EntriesCount * BASE_INCREASE) % UINT_RANGE ≠ 0 := by
      simp only [ChainedHashTable.entries, UINT_RANGE, BASE_INCREASE] at hc ⊢
      omega
    obtain ⟨t2, hr2, hw2, hperm, hcnt, _⟩ := resize_grow hw1 hfire h2
    exact ⟨t2, hr2, fun k => find_congr hw2 hw1 (fun x => hperm.mem_iff) k, hcnt⟩

/-- Witness for C7: the sixth entry of a chain makes `resize_` rebuild the table. -/
theorem C7_resize_preserves_witness :
    ∃ t2, (crowdedTable.pushEntry 0
        [Entry.mk 1 10, Entry.mk 2 20, Entry.mk 3 30, Entry.mk 4 40, Entry.mk 5 50]
        (Entry.mk 6 60)).resize_ = some t2 ∧
      (∀ k, t2.find k = (crowdedTable.pushEntry 0
        [Entry.mk 1 10, Entry.mk 2 20, Entry.mk 3 30, Entry.mk 4 40, Entry.mk 5 50]
        (Entry.mk 6 60)).find k) ∧
      t2.entries = (crowdedTable.pushEntry 0
        [Entry.mk 1 10, Entry.mk 2 20, Entry.mk 3 30, Entry.mk 4 40, Entry.mk 5 50]
        (Entry.mk 6 60)).entries :=
  C7_resize_preserves _
    (ResizeInput.intro crowdedTable (Entry.mk 6 60) 0
      [Entry.mk 1 10, Entry.mk 2 20, Entry.mk 3 30, Entry.mk 4 40, Entry.mk 5 50]
      crowdedTable_reachable rfl rfl rfl)
    (by decide) (by decide)

/-- C7 as stated fails: `insert(5 * 2^30, 0)` on the table holding keys `0 .. 2^31 - 2`
five to a chain calls `resize_` with max chain length 6 and entry count 2^31 (at least
1); the new size is `2^31 * 2 mod 2^32 = 0` and the rehash takes a remainder by zero. -/
theorem C7_counterexample :
    ResizeInput ((packedTable (2 ^ 30) (2 ^ 31 - 1)).pushEntry 0
        (packedChain (2 ^ 31 - 1) 0) (Entry.mk (5 * 2 ^ 30) 0)) ∧
    MAX_CHAINED_DATA < ((packedTable (2 ^ 30) (2 ^ 31 - 1)).pushEntry 0
        (packedChain (2 ^ 31 - 1) 0) (Entry.mk (5 * 2 ^ 30) 0)).MaxChained ∧
    1 ≤ ((packedTable (2 ^ 30) (2 ^ 31 - 1)).pushEntry 0
        (packedChain (2 ^ 31 - 1) 0) (Entry.mk (5 * 2 ^ 30) 0)).entries ∧
    ((packedTable (2 ^ 30) (2 ^ 31 - 1)).pushEntry 0
        (packedChain (2 ^ 31 - 1) 0) (Entry.mk (5 * 2 ^ 30) 0)).resize_ = none := by
  obtain ⟨h1, h2, h3, h4⟩ :=
    packedTable_far_resize (2 ^ 30) (2 ^ 31 - 1) (by norm_num) (by norm_num) (by norm_num)
      (by norm_num) (by norm_num)
  refine ⟨h1, ?_, ?_, h4⟩
  · rw [h2]
    simp [MAX_CHAINED_DATA]
  · rw [ChainedHashTable.entries, h3]
    norm_num

/-! ## C9: the resize scenario -/

/-- C9 (as amended). On the table created with the identity hasher and initial size 4,
the inserts of keys 1, 2, 3, 4, 5, 6 in order all return true and none of them resizes:
the bucket count is still 4, the longest chain has 2 entries, and `find` returns the
inserted data for each of the 6 keys. -/
theorem C9_scenario_no_resize (d : Nat → TData) :
    runOps (ChainedHashTable.create (fun k => k) 4) (scenarioOps d)
        = some (scenarioTable d, 6, 0) ∧
      (scenarioTable d).TableSize = 4 ∧ (scenarioTable d).MaxChained = 2 ∧
      (scenarioTable d).find 1 = some (some (d 1)) ∧
      (scenarioTable d).find 2 = some (some (d 2)) ∧
      (scenarioTable d).find 3 = some (some (d 3)) ∧
      (scenarioTable d).find 4 = some (some (d 4)) ∧
      (scenarioTable d).find 5 = some (some (d 5)) ∧
      (scenarioTable d).find 6 = some (some (d 6)) := by
  refine ⟨?_, rfl, rfl, ?_, ?_, ?_, ?_, ?_, ?_⟩
  · simp [runOps, scenarioOps, scenarioTable, ChainedHashTable.insertKeyData,
      ChainedHashTable.insert, ChainedHashTable.create, ChainedHashTable.pushEntry,
      ChainedHashTable.resize_, bucketIndex, UINT_RANGE, MAX_CHAINED_DATA]
  all_goals simp [ChainedHashTable.find, scenarioTable, bucketIndex, UINT_RANGE]

/-- C9 as stated fails: with data `10 * k` for key `k`, the bucket count after the six
inserts is still 4, so no resize has occurred. -/
theorem C9_counterexample :
    (runOps (ChainedHashTable.create (fun k => k) 4)
        (scenarioOps (fun k => 10 * k))).map (fun r => r.1.TableSize) = some 4 := by
  decide

/-! ## C10: construction with size zero -/

/-- C10 (as amended). `create(hasher, 0)` is not rejected: it returns a table with zero
buckets, zero entries and zero max chain length, on which every `insert`, `remove` and
`find` is undefined (remainder by zero). -/
theorem C10_zero_size_unchecked [DecidableEq TKey] (hasher : TKey → Nat) :
    (ChainedHashTable.create hasher 0 : ChainedHashTable TKey TData).Table = [] ∧
    (ChainedHashTable.create hasher 0 : ChainedHashTable TKey TData).TableSize = 0 ∧
    (ChainedHashTable.create hasher 0 : ChainedHashTable TKey TData).entries = 0 ∧
    (ChainedHashTable.create hasher 0 : ChainedHashTable TKey TData).MaxChained = 0 ∧
    ∀ (k : TKey) (d : TData),
      (ChainedHashTable.create hasher 0 : ChainedHashTable TKey TData).insertKeyData k d
        = none ∧
      (ChainedHashTable.create hasher 0 : ChainedHashTable TKey TData).remove k = none ∧
      (ChainedHashTable.create hasher 0 : ChainedHashTable TKey TData).find k = none :=
  ⟨rfl, rfl, rfl, rfl, fun _ _ => ⟨rfl, rfl, rfl⟩⟩

/-- C10 as stated fails: `create(k ↦ k, 0)` returns a table, and it has zero buckets. -/
theorem C10_counterexample :
    (ChainedHashTable.create (fun k => k) 0 : ChainedHashTable Nat Nat).TableSize = 0 ∧
    (ChainedHashTable.create (fun k => k) 0 : ChainedHashTable Nat Nat).Table = [] :=
  ⟨rfl, rfl⟩

/-! ## More about reachable tables -/

theorem chain_sublist {t : ChainedHashTable TKey TData} {i : Nat}
    {l : List (Entry TKey TData)} (hl : t.Table[i]? = some l) :
    List.Sublist l t.Table.flatten :=
  List.sublist_flatten_of_mem (List.getElem?_mem hl)

theorem chain_nodup {t : ChainedHashTable TKey TData} (hw : WF t) {i : Nat}
    {l : List (Entry TKey TData)} (hl : t.Table[i]? = some l) :
    (l.map Entry.Key).Nodup :=
  List.Nodup.sublist ((chain_sublist hl).map Entry.Key) hw.nodup

theorem pushEntry_maxChained (t : ChainedHashTable TKey TData) (i : Nat)
    (l : List (Entry TKey TData)) (e : Entry TKey TData) :
    (t.pushEntry i l e).MaxChained = (max t.MaxChained (l.length + 1)) % UINT_RANGE := by
  simp only [ChainedHashTable.pushEntry, List.length_append, List.length_singleton]
  congr 1
  split <;> omega

section MoreInvariants

variable [DecidableEq TKey]

/-- What an `insert` that appends does to the table, case by case. -/
theorem insert_cases {t t1 : ChainedHashTable TKey TData} (hw : WF t)
    {e : Entry TKey TData} (h : t.insert e = some (true, t1)) :
    ∃ i l, bucketIndex t.HasherFunc t.TableSize e.Key = some i ∧ t.Table[i]? = some l ∧
      ¬ l.any (fun it => it.Key == e.Key) = true ∧
      ((MAX_CHAINED_DATA < (t.pushEntry i l e).MaxChained ∧
          t1.TableSize = ((t.pushEntry i l e).EntriesCount * BASE_INCREASE) % UINT_RANGE ∧
          t1.MaxChained = 1) ∨
       ((t.pushEntry i l e).MaxChained ≤ MAX_CHAINED_DATA ∧ t1 = t.pushEntry i l e)) := by
  obtain ⟨i, l, hi, hl, hins⟩ := insert_eq_of_wf hw e
  refine ⟨i, l, hi, hl, ?_⟩
  rw [hins] at h
  by_cases hany : l.any (fun it => it.Key == e.Key) = true
  · rw [if_pos hany] at h
    simp at h
  · refine ⟨hany, ?_⟩
    rw [if_neg hany] at h
    obtain ⟨hw1, hperm⟩ := pushEntry_wf hw hi hl hany
    by_cases h1 : (t.pushEntry i l e).MaxChained ≤ MAX_CHAINED_DATA
    · rw [resize_keep h1] at h
      simp at h
      exact Or.inr ⟨h1, h.symm⟩
    · have h1 : MAX_CHAINED_DATA < (t.pushEntry i l e).MaxChained := by omega
      by_cases h2 : ((t.pushEntry i l e).EntriesCount * BASE_INCREASE) % UINT_RANGE = 0
      · have hne : (t.pushEntry i l e).Table.flatten ≠ [] := by
          intro h0
          rw [h0] at hperm
          simp at hperm
        rw [resize_undefined hw1.len hne h1 h2] at h
        simp at h
      · obtain ⟨t2, hr2, _, _, _, _, hsz, hmc⟩ := resize_grow hw1 h1 h2
        rw [hr2] at h
        simp at h
        subst h
        exact Or.inl ⟨h1, hsz, hmc⟩

theorem insert_maxChained_le {t t1 : ChainedHashTable TKey TData} (hw : WF t)
    {e : Entry TKey TData} {b : Bool} (h : t.insert e = some (b, t1))
    (hm : t.MaxChained ≤ MAX_CHAINED_DATA) : t1.MaxChained ≤ MAX_CHAINED_DATA := by
  cases b with
  | false =>
    obtain ⟨_, _, hcase⟩ := insert_spec hw h
    rcases hcase with ⟨_, ht, _⟩ | ⟨hb, _⟩
    · rw [ht]
      exact hm
    · simp at hb
  | true =>
    obtain ⟨i, l, _, _, _, hcase⟩ := insert_cases hw h
    rcases hcase with ⟨_, _, hmc⟩ | ⟨hle, ht⟩
    · rw [hmc]
      simp [MAX_CHAINED_DATA]
    · rw [ht]
      exact hle

theorem remove_frame {t : ChainedHashTable TKey TData} (hw : WF t) (key : TKey) :
    ∃ b t1 i l, t.remove key = some (b, t1) ∧
      bucketIndex t.HasherFunc t.TableSize key = some i ∧ t.Table[i]? = some l ∧
      t1.TableSize = t.TableSize ∧ t1.HasherFunc = t.HasherFunc ∧
      t1.MaxChained = t.MaxChained ∧
      (b = false → t1 = t) ∧
      (b = true → t1.Table = t.Table.set i (l.eraseP (fun it => it.Key == key)) ∧
        l.any (fun it => it.Key == key) = true) := by
  obtain ⟨i, l, hi, hl, hrem⟩ := remove_eq_of_wf hw key
  by_cases hany : l.any (fun it => it.Key == key) = true
  · rw [if_pos hany] at hrem
    exact ⟨true, _, i, l, hrem, hi, hl, rfl, rfl, rfl, fun h => by simp at h,
      fun _ => ⟨rfl, hany⟩⟩
  · rw [if_neg hany] at hrem
    exact ⟨false, t, i, l, hrem, hi, hl, rfl, rfl, rfl, fun _ => rfl,
      fun h => by simp at h⟩

/-- Between operations the recorded max chain length never exceeds the threshold. -/
theorem Reachable.maxChained_le {t : ChainedHashTable TKey TData} (h : Reachable t) :
    t.MaxChained ≤ MAX_CHAINED_DATA := by
  induction h with
  | create hasher n hn => simp [ChainedHashTable.create]
  | insert t t1 key data b hr hstep ih => exact insert_maxChained_le hr.wf hstep ih
  | remove t t1 key b hr hstep ih =>
    obtain ⟨b1, t2, _, _, h1, _, _, _, _, hmc, _⟩ := remove_frame hr.wf key
    rw [h1] at hstep
    simp at hstep
    rw [← hstep.2, hmc]
    exact ih
  | copy t t1 hr hstep ih =>
    rw [copy_eq_self hr.wf.len hr.wf.placed] at hstep
    simp at hstep
    rw [← hstep]
    exact ih

end MoreInvariants

/-! ## C11: placement -/

/-- C11. In every table reachable from `create` with `n > 0` by `insert`, `remove` and
the copy constructor (resizing inserts included), every entry stored in bucket `i`
satisfies `hash(entry.key) mod bucket_count = i`, the divisor being positive. -/
theorem C11_placement [DecidableEq TKey] (t : ChainedHashTable TKey TData)
    (hr : Reachable t) (i : Nat) (l : List (Entry TKey TData))
    (hl : t.Table[i]? = some l) (e : Entry TKey TData) (he : e ∈ l) :
    0 < t.TableSize ∧ t.HasherFunc e.Key % UINT_RANGE % t.TableSize = i := by
  have hw := hr.wf
  refine ⟨hw.pos, ?_⟩
  have h := hw.placed i l hl e he
  unfold bucketIndex at h
  rw [if_neg (Nat.pos_iff_ne_zero.mp hw.pos)] at h
  simpa using h

/-- Witness for C11: key 5 sits in bucket 1 of the sample table. -/
theorem C11_placement_witness :
    0 < sampleTable.TableSize ∧
      sampleTable.HasherFunc (Entry.mk 5 50 : Entry Nat Nat).Key % UINT_RANGE
        % sampleTable.TableSize = 1 :=
  C11_placement sampleTable sampleTable_reachable 1 [Entry.mk 1 10, Entry.mk 5 50] rfl
    (Entry.mk 5 50) (by decide)

/-! ## C12: entry count and bucket lengths -/

/-- C12 (as amended). In every reachable table `entry_count` equals the sum of the
lengths of all buckets modulo 2^32, hence that sum itself whenever fewer than 2^32
entries are stored. -/
theorem C12_count_is_bucket_sum [DecidableEq TKey] (t : ChainedHashTable TKey TData)
    (hr : Reachable t) :
    t.entries = (t.Table.map List.length).sum % 2 ^ 32 ∧
      ((t.Table.map List.length).sum < 2 ^ 32 →
        t.entries = (t.Table.map List.length).sum) := by
  have h := hr.wf.count
  rw [List.length_flatten] at h
  simp only [UINT_RANGE] at h
  refine ⟨h, fun hlt => ?_⟩
  rw [ChainedHashTable.entries, h]
  exact Nat.mod_eq_of_lt hlt

/-- Witness for C12: the sample table stores three entries. -/
theorem C12_count_is_bucket_sum_witness :
    sampleTable.entries = (sampleTable.Table.map List.length).sum % 2 ^ 32 ∧
      ((sampleTable.Table.map List.length).sum < 2 ^ 32 →
        sampleTable.entries = (sampleTable.Table.map List.length).sum) :=
  C12_count_is_bucket_sum sampleTable sampleTable_reachable

theorem packedTable_length (size m : Nat) (hs0 : 0 < size) (hs : size ≤ 2 ^ 32)
    (hm : m ≤ 5 * size) : (packedTable size m).Table.flatten.length = m := by
  have hrun := packedTable_run size hs m 0 (by omega)
  have hw0 : WF (packedTable size 0) := (packedTable_reachable size 0 hs0 hs (by omega)).wf
  obtain ⟨_, h1, _⟩ := runOps_inv _ _ _ _ _ hw0 hrun
  have h0 : (packedTable size 0).Table.flatten.length = 0 := by
    rw [packedTable_zero]
    simp [ChainedHashTable.create]
  rw [h0] at h1
  have harith : 0 + m = m := by omega
  rw [harith] at h1
  omega

/-- C12 as stated fails: after `insert(0, 0)`, ..., `insert(2^32 - 1, 0)` into
`create(k ↦ k / 5, 2^30)` (no insert resizes) the buckets hold 2^32 entries in total
while `entry_count` has wrapped to 0. -/
theorem C12_counterexample :
    Reachable (packedTable (2 ^ 30) (2 ^ 32)) ∧
    (packedTable (2 ^ 30) (2 ^ 32)).entries = 0 ∧
    ((packedTable (2 ^ 30) (2 ^ 32)).Table.map List.length).sum = 2 ^ 32 := by
  refine ⟨packedTable_reachable _ _ (by norm_num) (by norm_num) (by norm_num), ?_, ?_⟩
  · simp [ChainedHashTable.entries, packedTable, UINT_RANGE]
  · rw [← List.length_flatten]
    exact packedTable_length _ _ (by norm_num) (by norm_num) (by norm_num)

/-! ## C15: what `remove` leaves alone -/

/-- C15. On every reachable table `remove(k)` returns and leaves the bucket count, the
hasher and the max chain length unchanged and every bucket other than bucket
`hash(k) mod bucket_count` unchanged; when it returns false the whole bucket array is
unchanged, and when it returns true the target bucket is the old bucket with the one
entry of key `k` deleted and the others kept in their order. -/
theorem C15_remove_frame [DecidableEq TKey] (t : ChainedHashTable TKey TData)
    (hr : Reachable t) (k : TKey) :
    ∃ b t1 i l, t.remove k = some (b, t1) ∧
      bucketIndex t.HasherFunc t.TableSize k = some i ∧ t.Table[i]? = some l ∧
      t1.TableSize = t.TableSize ∧ t1.HasherFunc = t.HasherFunc ∧
      t1.MaxChained = t.MaxChained ∧
      (∀ j, j ≠ i → t1.Table[j]? = t.Table[j]?) ∧
      (b = false → t1.Table = t.Table) ∧
      (b = true → ∃ l1 a l2, l = l1 ++ a :: l2 ∧ a.Key = k ∧
        (∀ x ∈ l1 ++ l2, x.Key ≠ k) ∧ t1.Table[i]? = some (l1 ++ l2)) := by
  have hw := hr.wf
  obtain ⟨b, t1, i, l, h1, hi, hl, h2, h3, h4, hf, ht⟩ := remove_frame hw k
  refine ⟨b, t1, i, l, h1, hi, hl, h2, h3, h4, ?_, ?_, ?_⟩
  · intro j hj
    cases b with
    | false => rw [hf rfl]
    | true =>
      rw [(ht rfl).1, List.getElem?_set]
      rw [if_neg (fun h => hj h.symm)]
  · intro hb
    rw [hf hb]
  · intro hb
    obtain ⟨htab, hany⟩ := ht hb
    rw [List.any_eq_true] at hany
    obtain ⟨a, hal, hpa⟩ := hany
    obtain ⟨a1, l1, l2, hl1, hpa1, hsplit, herase⟩ :=
      List.exists_of_eraseP (p := fun it : Entry TKey TData => it.Key == k) hal hpa
    have hk1 : a1.Key = k := by simpa using hpa1
    refine ⟨l1, a1, l2, hsplit, hk1, ?_, ?_⟩
    · have hnd := chain_nodup hw hl
      rw [hsplit] at hnd
      have hperm : List.Perm (l1 ++ a1 :: l2) (a1 :: (l1 ++ l2)) := List.perm_middle
      have hnd1 := ((hperm.map Entry.Key).nodup_iff).1 hnd
      simp only [List.map_cons, List.nodup_cons] at hnd1
      intro x hx hxk
      exact hnd1.1 (List.mem_map.2 ⟨x, hx, by rw [hxk, hk1]⟩)
    · rw [htab, List.getElem?_set, if_pos rfl, herase]
      have hlt : i < t.Table.length := by
        rw [hw.len]
        exact bucketIndex_some_lt hi
      simp [hlt]

/-- Witness for C15: `remove(5)` on the sample table. -/
theorem C15_remove_frame_witness :
    ∃ b t1 i l, sampleTable.remove 5 = some (b, t1) ∧
      bucketIndex sampleTable.HasherFunc sampleTable.TableSize 5 = some i ∧
      sampleTable.Table[i]? = some l ∧
      t1.TableSize = sampleTable.TableSize ∧ t1.HasherFunc = sampleTable.HasherFunc ∧
      t1.MaxChained = sampleTable.MaxChained ∧
      (∀ j, j ≠ i → t1.Table[j]? = sampleTable.Table[j]?) ∧
      (b = false → t1.Table = sampleTable.Table) ∧
      (b = true → ∃ l1 a l2, l = l1 ++ a :: l2 ∧ a.Key = 5 ∧
        (∀ x ∈ l1 ++ l2, x.Key ≠ 5) ∧ t1.Table[i]? = some (l1 ++ l2)) :=
  C15_remove_frame sampleTable sampleTable_reachable 5

/-! ## C17: no remainder by zero -/

/-- C17. Every table reachable from `create(hasher, n)` with `n > 0` through `insert`,
`remove` and the copy constructor has a positive bucket count, so `hash(key) mod
bucket_count` and `find` are defined; and while the entry count stays below 2^31 every
`insert`, `remove` and copy on it returns a table with a positive bucket count, an
`insert` never reaching `resize_` with entry count 0 or with a new size of 0. -/
theorem C17_no_division_by_zero [DecidableEq TKey] (t : ChainedHashTable TKey TData)
    (hr : Reachable t) (hc : t.entries + 1 < 2 ^ 31) :
    0 < t.TableSize ∧
    (∀ k, ∃ i, bucketIndex t.HasherFunc t.TableSize k = some i) ∧
    (∀ k, ∃ o, t.find k = some o) ∧
    (∀ k d, ∃ b t1, t.insertKeyData k d = some (b, t1) ∧ 0 < t1.TableSize) ∧
    (∀ k, ∃ b t1, t.remove k = some (b, t1) ∧ 0 < t1.TableSize) ∧
    (∃ c, t.copy = some c ∧ 0 < c.TableSize) ∧
    (∀ (e : Entry TKey TData) (i : Nat) (l : List (Entry TKey TData)),
      0 < (t.pushEntry i l e).EntriesCount ∧
      0 < ((t.pushEntry i l e).EntriesCount * BASE_INCREASE) % UINT_RANGE) := by
  have hw := hr.wf
  refine ⟨hw.pos, ?_, find_isSome hw, ?_, ?_, ?_, ?_⟩
  · intro k
    obtain ⟨i, hi, _⟩ := bucketIndex_lt t.HasherFunc t.TableSize k hw.pos
    exact ⟨i, hi⟩
  · intro k d
    have hstep : ∃ b t1, t.insertKeyData k d = some (b, t1) := by
      by_cases hp : ∃ x ∈ t.Table.flatten, x.Key = k
      · exact ⟨false, t, insert_present hw (Entry.mk k d) hp⟩
      · have habs : ∀ x ∈ t.Table.flatten, x.Key ≠ (Entry.mk k d).Key :=
          fun x hx hk => hp ⟨x, hx, hk⟩
        have hc1 : (t.EntriesCount + 1) % 2 ^ 31 ≠ 0 := by
          simp only [ChainedHashTable.entries] at hc
          omega
        obtain ⟨t1, h1⟩ := insert_absent_total hw (Entry.mk k d) habs hc1
        exact ⟨true, t1, h1⟩
    obtain ⟨b, t1, hstep⟩ := hstep
    exact ⟨b, t1, hstep, (insert_spec hw hstep).1.pos⟩
  · intro k
    obtain ⟨b, t1, h1, hw1, _⟩ := remove_spec hw k
    exact ⟨b, t1, h1, hw1.pos⟩
  · exact ⟨t, copy_eq_self hw.len hw.placed, hw.pos⟩
  · intro e i l
    simp only [ChainedHashTable.pushEntry, ChainedHashTable.entries, UINT_RANGE,
      BASE_INCREASE] at hc ⊢
    omega

/-- Witness for C17: the sample table. -/
theorem C17_no_division_by_zero_witness :
    0 < sampleTable.TableSize ∧
    (∀ k, ∃ i, bucketIndex sampleTable.HasherFunc sampleTable.TableSize k = some i) ∧
    (∀ k, ∃ o, sampleTable.find k = some o) ∧
    (∀ k d, ∃ b t1, sampleTable.insertKeyData k d = some (b, t1) ∧ 0 < t1.TableSize) ∧
    (∀ k, ∃ b t1, sampleTable.remove k = some (b, t1) ∧ 0 < t1.TableSize) ∧
    (∃ c, sampleTable.copy = some c ∧ 0 < c.TableSize) ∧
    (∀ (e : Entry Nat Nat) (i : Nat) (l : List (Entry Nat Nat)),
      0 < (sampleTable.pushEntry i l e).EntriesCount ∧
      0 < ((sampleTable.pushEntry i l e).EntriesCount * BASE_INCREASE) % UINT_RANGE) :=
  C17_no_division_by_zero sampleTable sampleTable_reachable (by decide)

/-! ## C19: other keys are untouched -/

/-- C19 (as amended). On every reachable table, for keys `k ≠ k'`: `remove(k)` returns
and `find(k')` gives the same result after it as before; `find(k')` gives the same
result after every `insert(k, d)` that returns, resizing or not; and `insert(k, d)`
returns whenever the entry count plus one is not a multiple of 2^31. -/
theorem C19_other_keys_untouched [DecidableEq TKey] (t : ChainedHashTable TKey TData)
    (hr : Reachable t) (k k1 : TKey) (hne : k ≠ k1) :
    (∃ b t1, t.remove k = some (b, t1) ∧ t1.find k1 = t.find k1) ∧
    (∀ d b t1, t.insertKeyData k d = some (b, t1) → t1.find k1 = t.find k1) ∧
    (∀ d, (t.entries + 1) % 2 ^ 31 ≠ 0 →
      ∃ b t1, t.insertKeyData k d = some (b, t1) ∧ t1.find k1 = t.find k1) := by
  have hw := hr.wf
  have hins : ∀ d b t1, t.insertKeyData k d = some (b, t1) → t1.find k1 = t.find k1 := by
    intro d b t1 h
    obtain ⟨hw1, _, hcase⟩ := insert_spec hw h
    rcases hcase with ⟨_, ht, _⟩ | ⟨_, _, hperm, _⟩
    · rw [ht]
    · obtain ⟨o, ho⟩ := find_isSome hw k1
      obtain ⟨o1, ho1⟩ := find_isSome hw1 k1
      rw [ho, ho1]
      congr 1
      have hiff : ∀ x, o1 = some x ↔ o = some x := by
        intro x
        have h1 := find_some_iff hw1 k1 x
        have h2 := find_some_iff hw k1 x
        rw [ho1] at h1
        rw [ho] at h2
        simp only [Option.some.injEq] at h1 h2
        rw [h1, h2, hperm.mem_iff, List.mem_cons]
        constructor
        · rintro (h | h)
          · exact absurd (congrArg Entry.Key h) (fun h => hne h.symm)
          · exact h
        · exact Or.inr
      cases o1 with
      | none =>
        cases o with
        | none => rfl
        | some x => exact absurd ((hiff x).2 rfl) (by simp)
      | some x => exact ((hiff x).1 rfl).symm
  refine ⟨?_, hins, ?_⟩
  · obtain ⟨b, t1, h1, hw1, _, hcase⟩ := remove_spec hw k
    refine ⟨b, t1, h1, ?_⟩
    rcases hcase with ⟨_, ht, _⟩ | ⟨_, _, hmem, _⟩
    · rw [ht]
    · obtain ⟨o, ho⟩ := find_isSome hw k1
      obtain ⟨o1, ho1⟩ := find_isSome hw1 k1
      rw [ho, ho1]
      congr 1
      have hiff : ∀ x, o1 = some x ↔ o = some x := by
        intro x
        have h1 := find_some_iff hw1 k1 x
        have h2 := find_some_iff hw k1 x
        rw [ho1] at h1
        rw [ho] at h2
        simp only [Option.some.injEq] at h1 h2
        rw [h1, h2, hmem]
        constructor
        · exact fun h => h.1
        · exact fun h => ⟨h, fun hk => hne hk.symm⟩
      cases o1 with
      | none =>
        cases o with
        | none => rfl
        | some x => exact absurd ((hiff x).2 rfl) (by simp)
      | some x => exact ((hiff x).1 rfl).symm
  · intro d hc
    have hstep : ∃ b t1, t.insertKeyData k d = some (b, t1) := by
      by_cases hp : ∃ x ∈ t.Table.flatten, x.Key = k
      · exact ⟨false, t, insert_present hw (Entry.mk k d) hp⟩
      · have habs : ∀ x ∈ t.Table.flatten, x.Key ≠ (Entry.mk k d).Key :=
          fun x hx hk => hp ⟨x, hx, hk⟩
        obtain ⟨t1, h1⟩ := insert_absent_total hw (Entry.mk k d) habs hc
        exact ⟨true, t1, h1⟩
    obtain ⟨b, t1, hstep⟩ := hstep
    exact ⟨b, t1, hstep, hins d b t1 hstep⟩

/-- Witness for C19: key 6 is inserted into the crowded table (which resizes) and key 9
removed from the sample table; other keys keep their `find` results. -/
theorem C19_other_keys_untouched_witness :
    (∃ b t1, crowdedTable.remove 6 = some (b, t1) ∧ t1.find 3 = crowdedTable.find 3) ∧
    (∀ d b t1, crowdedTable.insertKeyData 6 d = some (b, t1) →
      t1.find 3 = crowdedTable.find 3) ∧
    (∀ d, (crowdedTable.entries + 1) % 2 ^ 31 ≠ 0 →
      ∃ b t1, crowdedTable.insertKeyData 6 d = some (b, t1) ∧
        t1.find 3 = crowdedTable.find 3) :=
  C19_other_keys_untouched crowdedTable crowdedTable_reachable 6 3 (by decide)

/-- C19 as stated fails: on the table holding keys `0 .. 2^31 - 2` five to a chain,
`insert(5 * 2^30, 0)` does not return (its resize computes the new size
`2^31 * 2 mod 2^32 = 0` and takes a remainder by zero), so there is no table after it on
which `find(0)` could give its earlier result. -/
theorem C19_counterexample :
    Reachable (packedTable (2 ^ 30) (2 ^ 31 - 1)) ∧ (5 * 2 ^ 30 : Nat) ≠ 0 ∧
    (packedTable (2 ^ 30) (2 ^ 31 - 1)).insertKeyData (5 * 2 ^ 30) 0 = none :=
  ⟨packedTable_reachable _ _ (by norm_num) (by norm_num) (by norm_num), by norm_num,
   packedTable_insert_far _ _ (by norm_num) (by norm_num) (by norm_num) (by norm_num)
     (by norm_num)⟩

/-! ## Runs in which no insert rebuilds the bucket array -/

section Logged

variable [DecidableEq TKey]

theorem rebuilds_eq {t : ChainedHashTable TKey TData} {e : Entry TKey TData} {i : Nat}
    {l : List (Entry TKey TData)}
    (hi : bucketIndex t.HasherFunc t.TableSize e.Key = some i) (hl : t.Table[i]? = some l)
    (hany : ¬ l.any (fun it => it.Key == e.Key) = true) :
    rebuilds t e = decide (MAX_CHAINED_DATA < (t.pushEntry i l e).MaxChained) := by
  simp only [rebuilds, hi, hl]
  simp [hany]

theorem ordered_insert {t t1 : ChainedHashTable TKey TData} {log : List (Entry TKey TData)}
    (ho : Ordered t log) {e : Entry TKey TData} {b : Bool}
    (hstep : t.insert e = some (b, t1)) (hkeep : rebuilds t e = false) :
    Ordered t1 (if b then log ++ [e] else log) := by
  have hw := ho.wf
  cases b with
  | false =>
    obtain ⟨_, _, hcase⟩ := insert_spec hw hstep
    rcases hcase with ⟨_, ht, _⟩ | ⟨hb, _⟩
    · rw [ht]
      simpa using ho
    · simp at hb
  | true =>
    obtain ⟨i, l, hi, hl, hany, hcase⟩ := insert_cases hw hstep
    rw [rebuilds_eq hi hl hany] at hkeep
    simp only [decide_eq_false_iff_not] at hkeep
    rcases hcase with ⟨hfire, _⟩ | ⟨hle, ht⟩
    · exact absurd hfire hkeep
    · have hlen : l.length ≤ t.MaxChained := ho.bound i l hl
      have hold := ho.mc
      have hmax : (t.pushEntry i l e).MaxChained = max t.MaxChained (l.length + 1) := by
        rw [pushEntry_maxChained]
        simp only [MAX_CHAINED_DATA, UINT_RANGE] at hold ⊢
        omega
      subst ht
      simp only [if_true]
      exact
        { wf := (insert_spec hw hstep).1
          mc := hle
          bound := by
            intro j l1 hl1
            rw [hmax]
            have hl2 : (t.Table.set i (l ++ [e]))[j]? = some l1 := hl1
            rw [List.getElem?_set] at hl2
            split at hl2
            · split at hl2
              · simp only [Option.some.injEq] at hl2
                subst hl2
                simp
              · simp at hl2
            · have := ho.bound j l1 hl2
              omega
          sub := by
            intro j l1 hl1
            have hl2 : (t.Table.set i (l ++ [e]))[j]? = some l1 := hl1
            rw [List.getElem?_set] at hl2
            split at hl2
            · split at hl2
              · simp only [Option.some.injEq] at hl2
                subst hl2
                exact List.Sublist.append (ho.sub i l hl) (List.Sublist.refl _)
              · simp at hl2
            · exact (ho.sub j l1 hl2).trans (List.sublist_append_left _ _) }

theorem ordered_remove {t t1 : ChainedHashTable TKey TData} {log : List (Entry TKey TData)}
    (ho : Ordered t log) {key : TKey} {b : Bool} (hstep : t.remove key = some (b, t1)) :
    Ordered t1 (if b then log.eraseP (fun it => it.Key == key) else log) := by
  have hw := ho.wf
  obtain ⟨b1, t2, i, l, h1, hi, hl, _, _, hmc, hf, ht⟩ := remove_frame hw key
  obtain ⟨b2, t3, h3, hw3, _⟩ := remove_spec hw key
  rw [h1] at hstep h3
  simp only [Option.some.injEq, Prod.mk.injEq] at hstep h3
  obtain ⟨rfl, rfl⟩ := hstep
  obtain ⟨_, rfl⟩ := h3
  cases b1 with
  | false =>
    rw [hf rfl]
    simpa using ho
  | true =>
    obtain ⟨htab, _⟩ := ht rfl
    simp only [if_true]
    exact
      { wf := hw3
        mc := by rw [hmc]; exact ho.mc
        bound := by
          intro j l1 hl1
          rw [hmc]
          rw [htab, List.getElem?_set] at hl1
          split at hl1
          · split at hl1
            · simp only [Option.some.injEq] at hl1
              subst hl1
              exact (List.length_eraseP_le l).trans (ho.bound i l hl)
            · simp at hl1
          · exact ho.bound j l1 hl1
        sub := by
          intro j l1 hl1
          rw [htab, List.getElem?_set] at hl1
          split at hl1
          · split at hl1
            · simp only [Option.some.injEq] at hl1
              subst hl1
              exact (ho.sub i l hl).eraseP
            · simp at hl1
          · rename_i hij
            have hno : ∀ a, a ∈ l1 → ¬ (fun it : Entry TKey TData => it.Key == key) a = true := by
              intro a ha hpa
              have hk : a.Key = key := by simpa using hpa
              have hj := hw.placed j l1 hl1 a ha
              rw [hk, hi] at hj
              simp only [Option.some.injEq] at hj
              exact hij hj
            have := (ho.sub j l1 hl1).eraseP (p := fun it : Entry TKey TData => it.Key == key)
            rw [List.eraseP_of_forall_not hno] at this
            exact this }

/-- A run in which no insert rebuilds the bucket array keeps every chain within the
recorded max chain length and in the order of the log. -/
theorem runLogged_inv (ops : List (Op TKey TData)) :
    ∀ (t tf : ChainedHashTable TKey TData) (log logf : List (Entry TKey TData)),
      Ordered t log → runLogged t log ops = some (tf, logf, 0) → Ordered tf logf := by
  induction ops with
  | nil =>
    intro t tf log logf ho h
    simp only [runLogged, Option.some.injEq, Prod.mk.injEq, and_true] at h
    obtain ⟨rfl, rfl⟩ := h
    exact ho
  | cons op ops ih =>
    intro t tf log logf ho h
    cases op with
    | insert key data =>
      simp only [runLogged] at h
      cases hstep : t.insertKeyData key data with
      | none => rw [hstep] at h; simp at h
      | some r =>
        obtain ⟨b, t1⟩ := r
        rw [hstep] at h
        simp only at h
        cases hrest : runLogged t1 (if b then log ++ [Entry.mk key data] else log) ops with
        | none => rw [hrest] at h; simp at h
        | some r1 =>
          obtain ⟨tf1, logf1, n1⟩ := r1
          rw [hrest] at h
          simp only [Option.some.injEq, Prod.mk.injEq] at h
          obtain ⟨rfl, rfl, hn⟩ := h
          have hkeep : rebuilds t (Entry.mk key data) = false := by
            cases hb : rebuilds t (Entry.mk key data) with
            | false => rfl
            | true => rw [hb] at hn; simp at hn
          have hn1 : n1 = 0 := by omega
          subst hn1
          exact ih t1 tf1 _ logf1 (ordered_insert ho hstep hkeep) hrest
    | remove key =>
      simp only [runLogged] at h
      cases hstep : t.remove key with
      | none => rw [hstep] at h; simp at h
      | some r =>
        obtain ⟨b, t1⟩ := r
        rw [hstep] at h
        simp only at h
        exact ih t1 tf _ logf (ordered_remove ho hstep) h

end Logged

theorem ordered_create (hasher : TKey → Nat) (n : Nat) (hn : 0 < n) :
    Ordered (ChainedHashTable.create hasher n : ChainedHashTable TKey TData) [] :=
  { wf := create_wf hasher n hn
    mc := by simp [ChainedHashTable.create]
    bound := by
      intro i l hl
      simp only [ChainedHashTable.create, List.getElem?_replicate] at hl
      split at hl
      · simp only [Option.some.injEq] at hl
        subst hl
        simp
      · simp at hl
    sub := by
      intro i l hl
      simp only [ChainedHashTable.create, List.getElem?_replicate] at hl
      split at hl
      · simp only [Option.some.injEq] at hl
        subst hl
        simp
      · simp at hl }

theorem resizedTable_reachable : Reachable resizedTable :=
  Reachable.insert crowdedTable _ 6 60 true crowdedTable_reachable rfl

/-! ## C14: the recorded max chain length -/

/-- C14 (as amended). In every table reached from `create` with `n > 0` by a sequence
of `insert` and `remove` calls none of which rebuilt the bucket array, the max chain
length is at most 5 and greater than or equal to the length of every bucket. -/
theorem C14_max_chain_bound [DecidableEq TKey] (hasher : TKey → Nat) (n : Nat)
    (hn : 0 < n) (ops : List (Op TKey TData)) (t : ChainedHashTable TKey TData)
    (log : List (Entry TKey TData))
    (hrun : runLogged (ChainedHashTable.create hasher n) [] ops = some (t, log, 0))
    (i : Nat) (l : List (Entry TKey TData)) (hl : t.Table[i]? = some l) :
    l.length ≤ t.MaxChained ∧ t.MaxChained ≤ MAX_CHAINED_DATA := by
  have ho := runLogged_inv ops _ t [] log (ordered_create hasher n hn) hrun
  exact ⟨ho.bound i l hl, ho.mc⟩

/-- Witness for C14: three inserts and a remove on `create(k ↦ k, 4)` end in the sample
table without key 5; no insert rebuilt the bucket array, and chain 1 is within the
recorded max chain length 2. -/
theorem C14_max_chain_bound_witness :
    runLogged (ChainedHashTable.create (fun k => k) 4) []
        [Op.insert 1 10, Op.insert 5 50, Op.insert 2 20, Op.remove 5]
      = some ({ sampleTable with
                Table := [[], [Entry.mk 1 10], [Entry.mk 2 20], []]
                EntriesCount := 2 },
              [Entry.mk 1 10, Entry.mk 2 20], 0) ∧
    ([Entry.mk 1 10] : List (Entry Nat Nat)).length ≤ 2 ∧ 2 ≤ MAX_CHAINED_DATA :=
  ⟨by rfl,
   C14_max_chain_bound (fun k => k) 4 (by decide)
    [Op.insert 1 10, Op.insert 5 50, Op.insert 2 20, Op.remove 5]
    { sampleTable with
      Table := [[], [Entry.mk 1 10], [Entry.mk 2 20], []]
      EntriesCount := 2 }
    [Entry.mk 1 10, Entry.mk 2 20] (by rfl) 1 [Entry.mk 1 10] rfl⟩

/-- C14 as stated fails: the sixth insert into `create(k ↦ 0, 1)` rebuilds the bucket
array and resets the max chain length to 1, while all six entries are rehashed into
bucket 0. -/
theorem C14_counterexample :
    Reachable resizedTable ∧ resizedTable.MaxChained = 1 ∧
    resizedTable.Table[0]? = some [Entry.mk 1 10, Entry.mk 2 20, Entry.mk 3 30,
      Entry.mk 4 40, Entry.mk 5 50, Entry.mk 6 60] ∧
    ¬ ([Entry.mk 1 10, Entry.mk 2 20, Entry.mk 3 30, Entry.mk 4 40, Entry.mk 5 50,
      Entry.mk 6 60] : List (Entry Nat Nat)).length ≤ resizedTable.MaxChained :=
  ⟨resizedTable_reachable, rfl, rfl, by decide⟩

/-! ## C16: order within a bucket -/

/-- C16 (as amended). In every table reached from `create` with `n > 0` by a sequence
of `insert` and `remove` calls none of which rebuilt the bucket array, every bucket
lists its entries in the order in which they were inserted: it is a sublist of the log
of stored entries in insertion order. -/
theorem C16_bucket_order [DecidableEq TKey] (hasher : TKey → Nat) (n : Nat)
    (hn : 0 < n) (ops : List (Op TKey TData)) (t : ChainedHashTable TKey TData)
    (log : List (Entry TKey TData))
    (hrun : runLogged (ChainedHashTable.create hasher n) [] ops = some (t, log, 0))
    (i : Nat) (l : List (Entry TKey TData)) (hl : t.Table[i]? = some l) :
    List.Sublist l log := by
  have ho := runLogged_inv ops _ t [] log (ordered_create hasher n hn) hrun
  exact ho.sub i l hl

/-- Witness for C16: keys 1, 5, 2 go into `create(k ↦ k, 4)` without a rebuild; bucket
1 of the sample table holds 1 before 5, as the log does. -/
theorem C16_bucket_order_witness :
    runLogged (ChainedHashTable.create (fun k => k) 4) []
        [Op.insert 1 10, Op.insert 5 50, Op.insert 2 20]
      = some (sampleTable, [Entry.mk 1 10, Entry.mk 5 50, Entry.mk 2 20], 0) ∧
    sampleTable.Table[1]? = some [Entry.mk 1 10, Entry.mk 5 50] ∧
    List.Sublist ([Entry.mk 1 10, Entry.mk 5 50] : List (Entry Nat Nat))
      [Entry.mk 1 10, Entry.mk 5 50, Entry.mk 2 20] :=
  ⟨by rfl, rfl,
   C16_bucket_order (fun k => k) 4 (by decide)
    [Op.insert 1 10, Op.insert 5 50, Op.insert 2 20] sampleTable
    [Entry.mk 1 10, Entry.mk 5 50, Entry.mk 2 20] (by rfl) 1
    [Entry.mk 1 10, Entry.mk 5 50] rfl⟩

/-- C16 as stated fails: keys 1, 0, 3, 6, 9, 12, 15 are inserted in this order into
`create(k ↦ k, 3)`; the last insert makes chain 0 six entries long and rebuilds the
array with 14 buckets, visiting old chain 0 (which holds 15) before old chain 1 (which
holds 1), so new bucket 1 is `[15, 1]` although 1 was inserted before 15. -/
theorem C16_counterexample :
    ∃ t log, runLogged (ChainedHashTable.create (fun k => k) 3) [] reorderOps
        = some (t, log, 1) ∧
      log = [Entry.mk 1 0, Entry.mk 0 0, Entry.mk 3 0, Entry.mk 6 0, Entry.mk 9 0,
        Entry.mk 12 0, Entry.mk 15 0] ∧
      t.Table[1]? = some [Entry.mk 15 0, Entry.mk 1 0] ∧
      ¬ List.Sublist [Entry.mk 15 0, Entry.mk 1 0] log := by
  refine ⟨_, _, rfl, rfl, rfl, ?_⟩
  decide

/-! ## The table simulates the reference map -/

section Refinement

variable [DecidableEq TKey]

theorem refFind_some_iff {m : List (Entry TKey TData)} (hnd : (m.map Entry.Key).Nodup)
    (key : TKey) (d : TData) : refFind m key = some d ↔ Entry.mk key d ∈ m := by
  unfold refFind
  constructor
  · intro h
    simp only [Option.map_eq_some'] at h
    obtain ⟨x, hx, hd⟩ := h
    have hp := List.find?_some hx
    have hm := List.mem_of_find?_eq_some hx
    simp at hp
    have : x = Entry.mk key d := by
      cases x
      simp at hp hd
      simp [hp, hd]
    rw [← this]
    exact hm
  · intro h
    cases hfind : m.find? (fun it => it.Key == key) with
    | none =>
      rw [List.find?_eq_none] at hfind
      exact absurd (by simp) (hfind _ h)
    | some x =>
      have hp := List.find?_some hfind
      have hx := List.mem_of_find?_eq_some hfind
      simp at hp
      have : x = Entry.mk key d := keys_inj_of_nodup hnd hx h (by simp [hp])
      simp [this]

theorem sim_find {t : ChainedHashTable TKey TData} {m : List (Entry TKey TData)}
    (hw : WF t) (hp : List.Perm t.Table.flatten m) (key : TKey) :
    t.find key = some (refFind m key) := by
  have hnd : (m.map Entry.Key).Nodup := ((hp.map Entry.Key).nodup_iff).1 hw.nodup
  obtain ⟨o, ho⟩ := find_isSome hw key
  rw [ho]
  congr 1
  have hiff : ∀ x, o = some x ↔ refFind m key = some x := by
    intro x
    have h1 := find_some_iff hw key x
    rw [ho] at h1
    simp only [Option.some.injEq] at h1
    rw [h1, refFind_some_iff hnd, hp.mem_iff]
  cases o with
  | none =>
    cases hr : refFind m key with
    | none => rfl
    | some x => exact absurd ((hiff x).2 hr) (by simp)
  | some x => exact ((hiff x).1 rfl).symm

theorem sim_any {t : ChainedHashTable TKey TData} {m : List (Entry TKey TData)}
    (hp : List.Perm t.Table.flatten m) (key : TKey) :
    m.any (fun it => it.Key == key) = true ↔ ∃ x ∈ t.Table.flatten, x.Key = key := by
  rw [List.any_eq_true]
  constructor
  · rintro ⟨x, hx, hk⟩
    exact ⟨x, hp.mem_iff.2 hx, by simpa using hk⟩
  · rintro ⟨x, hx, hk⟩
    exact ⟨x, hp.mem_iff.1 hx, by simpa using hk⟩

theorem sim_insert {t t1 : ChainedHashTable TKey TData} {m : List (Entry TKey TData)}
    (hw : WF t) (hp : List.Perm t.Table.flatten m) {key : TKey} {data : TData} {b : Bool}
    (h : t.insertKeyData key data = some (b, t1)) :
    b = (refInsert m key data).1 ∧ WF t1 ∧
      List.Perm t1.Table.flatten (refInsert m key data).2 := by
  obtain ⟨hw1, _, hcase⟩ := insert_spec hw h
  unfold refInsert
  rcases hcase with ⟨hb, ht, hpres⟩ | ⟨hb, habs, hperm, _⟩
  · rw [if_pos ((sim_any hp key).2 hpres)]
    subst ht
    exact ⟨hb, hw, hp⟩
  · have hno : ¬ m.any (fun it => it.Key == key) = true := by
      intro hany
      obtain ⟨x, hx, hk⟩ := (sim_any hp key).1 hany
      exact habs x hx hk
    rw [if_neg hno]
    refine ⟨hb, hw1, hperm.trans ?_⟩
    exact ((List.Perm.cons _ hp).trans (List.perm_append_singleton _ _).symm)

theorem sim_remove {t : ChainedHashTable TKey TData} {m : List (Entry TKey TData)}
    (hw : WF t) (hp : List.Perm t.Table.flatten m) (key : TKey) :
    ∃ b t1, t.remove key = some (b, t1) ∧ b = (refRemove m key).1 ∧ WF t1 ∧
      List.Perm t1.Table.flatten (refRemove m key).2 ∧
      t1.Table.flatten.length ≤ t.Table.flatten.length := by
  obtain ⟨b, t1, h1, hw1, _, hcase⟩ := remove_spec hw key
  refine ⟨b, t1, h1, ?_⟩
  unfold refRemove
  rcases hcase with ⟨hb, ht, habs⟩ | ⟨hb, hpres, hmem, hlen, _⟩
  · have hno : ¬ m.any (fun it => it.Key == key) = true := by
      intro hany
      obtain ⟨x, hx, hk⟩ := (sim_any hp key).1 hany
      exact habs x hx hk
    rw [if_neg hno]
    subst ht
    exact ⟨hb, hw, hp, le_refl _⟩
  · rw [if_pos ((sim_any hp key).2 hpres)]
    refine ⟨hb, hw1, ?_, by omega⟩
    have hnd1 : t1.Table.flatten.Nodup := List.Nodup.of_map Entry.Key hw1.nodup
    have hndm : m.Nodup :=
      List.Nodup.of_map Entry.Key (((hp.map Entry.Key).nodup_iff).1 hw.nodup)
    refine (List.perm_ext_iff_of_nodup hnd1 (hndm.filter _)).2 ?_
    intro x
    rw [hmem, List.mem_filter, hp.mem_iff]
    simp

/-- Every completed run answers as the reference map does, counts being reduced to 32
bits. -/
theorem runCalls_sim (calls : List (Call TKey TData)) :
    ∀ (t : ChainedHashTable TKey TData) (m : List (Entry TKey TData))
      (answers : List (Answer TData)), WF t → List.Perm t.Table.flatten m →
      runCalls t calls = some answers → answers = (refRun m calls).map wrapCount := by
  induction calls with
  | nil =>
    intro t m answers _ _ h
    simp only [runCalls, Option.some.injEq] at h
    simp [← h, refRun]
  | cons c calls ih =>
    intro t m answers hw hp h
    cases c with
    | insert key data =>
      simp only [runCalls] at h
      cases hstep : t.insertKeyData key data with
      | none => rw [hstep] at h; simp at h
      | some r =>
        obtain ⟨b, t1⟩ := r
        rw [hstep] at h
        simp only [Option.map_eq_some'] at h
        obtain ⟨rest, hrest, rfl⟩ := h
        obtain ⟨hb, hw1, hp1⟩ := sim_insert hw hp hstep
        rw [ih t1 _ rest hw1 hp1 hrest, hb]
        simp [refRun, wrapCount]
    | remove key =>
      simp only [runCalls] at h
      obtain ⟨b, t1, hstep, hb, hw1, hp1, _⟩ := sim_remove hw hp key
      rw [hstep] at h
      simp only [Option.map_eq_some'] at h
      obtain ⟨rest, hrest, rfl⟩ := h
      rw [ih t1 _ rest hw1 hp1 hrest, hb]
      simp [refRun, wrapCount]
    | find key =>
      simp only [runCalls, sim_find hw hp key, Option.map_eq_some'] at h
      obtain ⟨rest, hrest, rfl⟩ := h
      rw [ih t m rest hw hp hrest]
      simp [refRun, wrapCount]
    | entries =>
      simp only [runCalls, Option.map_eq_some'] at h
      obtain ⟨rest, hrest, rfl⟩ := h
      rw [ih t m rest hw hp hrest]
      simp [refRun, wrapCount, ChainedHashTable.entries, hw.count, hp.length_eq]

/-- A run that cannot bring the number of stored entries to 2^31 completes and answers
exactly as the reference map does. -/
theorem runCalls_exact (calls : List (Call TKey TData)) :
    ∀ (t : ChainedHashTable TKey TData) (m : List (Entry TKey TData)), WF t →
      List.Perm t.Table.flatten m → t.Table.flatten.length + calls.length < 2 ^ 31 →
      runCalls t calls = some (refRun m calls) := by
  induction calls with
  | nil =>
    intro t m _ _ _
    rfl
  | cons c calls ih =>
    intro t m hw hp hlen
    simp only [List.length_cons] at hlen
    cases c with
    | insert key data =>
      have hstep : ∃ b t1, t.insertKeyData key data = some (b, t1) := by
        by_cases hpres : ∃ x ∈ t.Table.flatten, x.Key = key
        · exact ⟨false, t, insert_present hw (Entry.mk key data) hpres⟩
        · have habs : ∀ x ∈ t.Table.flatten, x.Key ≠ (Entry.mk key data).Key :=
            fun x hx hk => hpres ⟨x, hx, hk⟩
          have hc : (t.EntriesCount + 1) % 2 ^ 31 ≠ 0 := by
            rw [hw.count]
            simp only [UINT_RANGE]
            omega
          obtain ⟨t1, h1⟩ := insert_absent_total hw (Entry.mk key data) habs hc
          exact ⟨true, t1, h1⟩
      obtain ⟨b, t1, hstep⟩ := hstep
      obtain ⟨hb, hw1, hp1⟩ := sim_insert hw hp hstep
      obtain ⟨_, _, hcase⟩ := insert_spec hw hstep
      have hl1 : t1.Table.flatten.length + calls.length < 2 ^ 31 := by
        rcases hcase with ⟨_, ht, _⟩ | ⟨_, _, hperm, _⟩
        · subst ht
          omega
        · have := hperm.length_eq
          simp only [List.length_cons] at this
          omega
      simp only [runCalls, hstep, ih t1 _ hw1 hp1 hl1, refRun, hb, Option.map_some']
    | remove key =>
      obtain ⟨b, t1, hstep, hb, hw1, hp1, hle⟩ := sim_remove hw hp key
      have hl1 : t1.Table.flatten.length + calls.length < 2 ^ 31 := by omega
      simp only [runCalls, hstep, ih t1 _ hw1 hp1 hl1, refRun, hb, Option.map_some']
    | find key =>
      simp only [runCalls, sim_find hw hp key, ih t m hw hp (by omega), refRun,
        Option.map_some']
    | entries =>
      have hcnt : t.entries = m.length := by
        rw [ChainedHashTable.entries, hw.count, hp.length_eq]
        have := hp.length_eq
        simp only [UINT_RANGE]
        omega
      simp only [runCalls, ih t m hw hp (by omega), refRun, Option.map_some', hcnt]

/-- C18 (as amended). For every hasher, every `n > 0` and every finite sequence of
`insert`/`remove`/`find`/`entries` calls on `create(hasher, n)`: if the run completes,
each call's result equals the result of the same sequence on the reference finite map,
with `entries()` equal to the map's cardinality modulo 2^32; and every sequence of
fewer than 2^31 calls completes with results exactly equal to the reference's. The
reference does not mention the hasher or the bucket count. -/
theorem C18_map_refinement (hasher : TKey → Nat) (n : Nat) (hn : 0 < n)
    (calls : List (Call TKey TData)) :
    (∀ answers, runCalls (ChainedHashTable.create hasher n) calls = some answers →
        answers = (refRun [] calls).map wrapCount) ∧
    (calls.length < 2 ^ 31 →
      runCalls (ChainedHashTable.create hasher n) calls = some (refRun [] calls)) := by
  have hw0 : WF (ChainedHashTable.create hasher n : ChainedHashTable TKey TData) :=
    create_wf hasher n hn
  have hflat : (ChainedHashTable.create hasher n :
      ChainedHashTable TKey TData).Table.flatten = [] := by
    simp [ChainedHashTable.create]
  have hp0 : List.Perm (ChainedHashTable.create hasher n :
      ChainedHashTable TKey TData).Table.flatten [] := by
    rw [hflat]
  constructor
  · intro answers h
    exact runCalls_sim calls _ [] answers hw0 hp0 h
  · intro hshort
    exact runCalls_exact calls _ [] hw0 hp0 (by rw [hflat]; simpa using hshort)

end Refinement

/-- Witness for C18: a short sequence of calls on `create(k ↦ k, 4)`. -/
theorem C18_map_refinement_witness :
    (∀ answers,
        runCalls (ChainedHashTable.create (fun k => k) 4 : ChainedHashTable Nat Nat)
          [Call.insert 1 10, Call.insert 5 50, Call.insert 1 11, Call.find 5,
            Call.remove 5, Call.find 5, Call.entries] = some answers →
        answers = (refRun []
          [Call.insert 1 10, Call.insert 5 50, Call.insert 1 11, Call.find 5,
            Call.remove 5, Call.find 5, Call.entries]).map wrapCount) ∧
    (([Call.insert 1 10, Call.insert 5 50, Call.insert 1 11, Call.find 5,
        Call.remove 5, Call.find 5, Call.entries] : List (Call Nat Nat)).length < 2 ^ 31 →
      runCalls (ChainedHashTable.create (fun k => k) 4 : ChainedHashTable Nat Nat)
          [Call.insert 1 10, Call.insert 5 50, Call.insert 1 11, Call.find 5,
            Call.remove 5, Call.find 5, Call.entries]
        = some (refRun []
          [Call.insert 1 10, Call.insert 5 50, Call.insert 1 11, Call.find 5,
            Call.remove 5, Call.find 5, Call.entries])) :=
  C18_map_refinement (fun k => k) 4 (by decide)
    [Call.insert 1 10, Call.insert 5 50, Call.insert 1 11, Call.find 5,
      Call.remove 5, Call.find 5, Call.entries]

theorem packedTable_calls (size : Nat) (hs : size ≤ 2 ^ 32)
    (rest : List (Call Nat Nat)) :
    ∀ n a : Nat, a + n ≤ 5 * size →
      runCalls (packedTable size a) (insertCalls a n ++ rest) =
        (runCalls (packedTable size (a + n)) rest).map
          (fun answers => List.replicate n (Answer.bool true) ++ answers) := by
  intro n
  induction n with
  | zero =>
    intro a _
    simp [insertCalls]
  | succ n ih =>
    intro a ha
    have hstep := packedTable_step size a hs (by omega)
    have hrest := ih (a + 1) (by omega)
    have hcons : insertCalls a (n + 1) = Call.insert a 0 :: insertCalls (a + 1) n := by
      simp [insertCalls, List.range'_succ]
    have harith : a + 1 + n = a + (n + 1) := by omega
    rw [hcons, List.cons_append]
    simp only [runCalls, hstep, hrest, harith, Option.map_map]
    congr 1

theorem refRun_insertCalls (rest : List (Call Nat Nat)) :
    ∀ n a : Nat,
      refRun (packedLog a) (insertCalls a n ++ rest) =
        List.replicate n (Answer.bool true) ++ refRun (packedLog (a + n)) rest := by
  intro n
  induction n with
  | zero =>
    intro a
    simp [insertCalls]
  | succ n ih =>
    intro a
    have hcons : insertCalls a (n + 1) = Call.insert a 0 :: insertCalls (a + 1) n := by
      simp [insertCalls, List.range'_succ]
    have hany : (packedLog a).any (fun it => it.Key == a) = false := by
      rw [List.any_eq_false]
      intro x hx
      simp only [packedLog, List.mem_map, List.mem_range] at hx
      obtain ⟨j, hj, rfl⟩ := hx
      simp
      omega
    have hins : refInsert (packedLog a) a 0 = (true, packedLog (a + 1)) := by
      simp only [refInsert, hany]
      simp [packedLog, List.range_succ]
    have harith : a + 1 + n = a + (n + 1) := by omega
    rw [hcons, List.cons_append]
    simp only [refRun, hins, ih (a + 1), harith, List.replicate_succ, List.cons_append]

theorem packedTable_calls_entries (size m : Nat) (hs : size ≤ 2 ^ 32) (hm : m ≤ 5 * size) :
    runCalls (ChainedHashTable.create (fun k => k / 5) size)
        (insertCalls 0 m ++ [Call.entries]) =
      some (List.replicate m (Answer.bool true) ++ [Answer.count (m % UINT_RANGE)]) := by
  rw [← packedTable_zero, packedTable_calls size hs [Call.entries] m 0 (by omega)]
  have harith : 0 + m = m := by omega
  rw [harith]
  rfl

theorem refRun_calls_entries (m : Nat) :
    refRun [] (insertCalls 0 m ++ [Call.entries]) =
      List.replicate m (Answer.bool true) ++ [Answer.count m] := by
  have h0 : packedLog 0 = [] := rfl
  rw [← h0, refRun_insertCalls [Call.entries] m 0]
  have harith : 0 + m = m := by omega
  rw [harith]
  simp [refRun, packedLog]

/-- C18 as stated fails: after the 2^32 calls `insert(0, 0)`, ..., `insert(2^32 - 1, 0)`
on `create(k ↦ k / 5, 2^30)`, all returning true on the table and on the reference map,
`entries()` returns 0 while the reference map's cardinality is 2^32. -/
theorem C18_counterexample :
    runCalls (ChainedHashTable.create (fun k => k / 5) (2 ^ 30))
        (insertCalls 0 (2 ^ 32) ++ [Call.entries]) =
      some (List.replicate (2 ^ 32) (Answer.bool true) ++ [Answer.count 0]) ∧
    refRun [] (insertCalls 0 (2 ^ 32) ++ [Call.entries]) =
      List.replicate (2 ^ 32) (Answer.bool true) ++ [Answer.count (2 ^ 32)] := by
  constructor
  · have h := packedTable_calls_entries (2 ^ 30) (2 ^ 32) (by norm_num) (by norm_num)
    have hz : (2 : Nat) ^ 32 % UINT_RANGE = 0 := by norm_num [UINT_RANGE]
    rw [hz] at h
    exact h
  · exact refRun_calls_entries (2 ^ 32)

/-! ## A long run that ends in one rebuild -/

theorem packedChain_succ_same (m : Nat) :
    packedChain (m + 1) (m / 5) = packedChain m (m / 5) ++ [Entry.mk m 0] := by
  have h1 : min 5 (m + 1 - 5 * (m / 5)) = min 5 (m - 5 * (m / 5)) + 1 := by omega
  have h2 : 5 * (m / 5) + min 5 (m - 5 * (m / 5)) = m := by omega
  simp only [packedChain]
  rw [h1, List.range'_1_concat, List.map_append, h2]
  rfl

theorem packedChain_succ_other (m j : Nat) (hj : j ≠ m / 5) :
    packedChain (m + 1) j = packedChain m j := by
  have h1 : min 5 (m + 1 - 5 * j) = min 5 (m - 5 * j) := by omega
  simp only [packedChain, h1]

theorem packedChain_key_lt (m i : Nat) (e : Entry Nat Nat) (he : e ∈ packedChain m i) :
    e.Key < m := by
  simp only [packedChain, List.mem_map, List.mem_range'_1] at he
  obtain ⟨j, hj, rfl⟩ := he
  simp only
  omega

theorem evenTable_getElem? (size m i : Nat) (hi : i < size) :
    (evenTable size m).Table[i]? = some (evenChain m i) := by
  simp [evenTable, List.getElem?_range hi]

theorem evenTable_zero (size : Nat) :
    evenTable size 0 = ChainedHashTable.create (fun k => 2 * (k / 5)) size := by
  unfold evenTable ChainedHashTable.create
  simp only [ChainedHashTable.mk.injEq, true_and, and_true]
  refine ⟨?_, by simp [UINT_RANGE], by simp⟩
  apply List.ext_getElem?
  intro j
  by_cases hj : j < size
  · simp [List.getElem?_range hj, hj, evenChain, packedChain]
  · simp [hj, List.getElem?_replicate]
    omega

theorem evenTable_step (size m : Nat) (hs : size ≤ 2 ^ 32) (hm : 2 * (m / 5) < size) :
    (evenTable size m).insertKeyData m 0 = some (true, evenTable size (m + 1)) := by
  have hidx : bucketIndex (evenTable size m).HasherFunc (evenTable size m).TableSize m
      = some (2 * (m / 5)) := by
    simp only [bucketIndex, evenTable, UINT_RANGE]
    rw [if_neg (by omega)]
    congr 1
    rw [Nat.mod_eq_of_lt (by omega)]
    omega
  have hchain : evenChain m (2 * (m / 5)) = packedChain m (m / 5) := by
    have h1 : 2 * (m / 5) % 2 = 0 := by omega
    have h2 : 2 * (m / 5) / 2 = m / 5 := by omega
    simp only [evenChain, h1, h2, if_true]
  have hk : (evenTable size m).pushEntry (2 * (m / 5)) (packedChain m (m / 5))
      (Entry.mk m 0) = evenTable size (m + 1) := by
    unfold ChainedHashTable.pushEntry
    simp only [evenTable, ChainedHashTable.mk.injEq, true_and]
    refine ⟨?_, ?_, ?_⟩
    · apply List.ext_getElem?
      intro j
      rw [List.getElem?_set]
      by_cases hj : j < size
      · simp only [List.length_map, List.length_range, List.getElem?_map,
          List.getElem?_range hj, Option.map_some']
        by_cases hjq : 2 * (m / 5) = j
        · subst hjq
          simp only [if_true, hm]
          congr 1
          have h1 : 2 * (m / 5) % 2 = 0 := by omega
          have h2 : 2 * (m / 5) / 2 = m / 5 := by omega
          simp only [evenChain, h1, h2, if_true]
          exact (packedChain_succ_same m).symm
        · rw [if_neg hjq]
          congr 1
          simp only [evenChain]
          split
          · exact (packedChain_succ_other m (j / 2) (by omega)).symm
          · rfl
      · have : (List.range size)[j]? = none := by simp; omega
        simp [this]
        omega
    · simp only [UINT_RANGE]
      omega
    · simp only [packedChain, List.length_append, List.length_map, List.length_range',
        List.length_singleton, UINT_RANGE]
      split <;> omega
  unfold ChainedHashTable.insertKeyData ChainedHashTable.insert
  simp only [hidx, evenTable_getElem? size m (2 * (m / 5)) hm, hchain, packedChain_any m, hk]
  rw [resize_keep (by simp [evenTable, MAX_CHAINED_DATA])]
  simp

theorem evenTable_reachable (size m : Nat) (hs0 : 0 < size) (hs : size ≤ 2 ^ 32)
    (hm : 2 * (m / 5) < size) : Reachable (evenTable size m) := by
  induction m with
  | zero =>
    rw [evenTable_zero]
    exact Reachable.create _ _ hs0
  | succ m ih =>
    exact Reachable.insert _ _ m 0 true (ih (by omega)) (evenTable_step size m hs (by omega))

theorem evenTable_key_lt (size m : Nat) (e : Entry Nat Nat)
    (he : e ∈ (evenTable size m).Table.flatten) : e.Key < m := by
  obtain ⟨i, l, hl, hel⟩ := (mem_flatten_iff_getElem? _ _).1 he
  have hi : i < size := by
    have := (List.getElem?_eq_some.1 hl).1
    simpa [evenTable] using this
  rw [evenTable_getElem? size m i hi] at hl
  simp only [Option.some.injEq] at hl
  subst hl
  unfold evenChain at hel
  split at hel
  · exact packedChain_key_lt m _ e hel
  · simp at hel

theorem evenTable_length (size m : Nat) (hs0 : 0 < size) (hs : size ≤ 2 ^ 32)
    (hm : 2 * (m / 5) < size) : (evenTable size m).Table.flatten.length = m := by
  induction m with
  | zero =>
    rw [evenTable_zero]
    simp [ChainedHashTable.create]
  | succ m ih =>
    have hw := (evenTable_reachable size m hs0 hs (by omega)).wf
    have hstep := evenTable_step size m hs (by omega)
    obtain ⟨_, _, hcase⟩ := insert_spec hw hstep
    rcases hcase with ⟨hb, _⟩ | ⟨_, _, hperm, _⟩
    · simp at hb
    · rw [hperm.length_eq, List.length_cons, ih (by omega)]

theorem evenTable_far_index (half m : Nat) (hh : 0 < half) (hs : 2 * half ≤ 2 ^ 32) :
    bucketIndex (evenTable (2 * half) m).HasherFunc (evenTable (2 * half) m).TableSize
      (5 * half) = some 0 := by
  simp only [bucketIndex, evenTable, UINT_RANGE]
  rw [if_neg (by omega)]
  congr 1
  have h5 : 5 * half / 5 = half := by omega
  rw [h5]
  by_cases h : 2 * half = 2 ^ 32
  · rw [h]
    rfl
  · have h1 : 2 * half % 2 ^ 32 = 2 * half := Nat.mod_eq_of_lt (by omega)
    rw [h1, Nat.mod_self]

theorem evenTable_chain_zero (half m : Nat) (hh : 0 < half) :
    (evenTable (2 * half) m).Table[0]? = some (packedChain m 0) := by
  rw [evenTable_getElem? (2 * half) m 0 (by omega)]
  rfl

/-- The insert that merges everything: with `m` entries stored, `m` a multiple of 2^32,
`insert(5 * half, 0)` makes chain 0 six entries long, the entry count becomes 1, and
`resize_` rehashes all entries into bucket 0 of a 2-bucket array. -/
theorem evenTable_merge (half m : Nat) (hh : 0 < half) (hs : 2 * half ≤ 2 ^ 32)
    (hm5 : 5 ≤ m) (hm : m < 5 * half) (hwrap : m % 2 ^ 32 = 0) :
    (evenTable (2 * half) m).insertKeyData (5 * half) 0 = some (true, mergedTable half m) ∧
    List.Perm (mergedChain half m)
      (Entry.mk (5 * half) 0 :: (evenTable (2 * half) m).Table.flatten) := by
  have hr := evenTable_reachable (2 * half) m (by omega) hs (by omega)
  have hw := hr.wf
  have hi := evenTable_far_index half m hh hs
  have hl := evenTable_chain_zero half m hh
  have hany : ¬ (packedChain m 0).any
      (fun it => it.Key == (Entry.mk (5 * half) (0 : Nat)).Key) = true := by
    rw [List.any_eq_true]
    rintro ⟨x, hx, hk⟩
    have := packedChain_key_lt m 0 x hx
    simp at hk
    omega
  obtain ⟨hw1, hperm⟩ := pushEntry_wf hw hi hl hany
  refine ⟨?_, hperm⟩
  have hlen5 : (packedChain m 0).length = 5 := by
    simp [packedChain]
    omega
  have hmax : ((evenTable (2 * half) m).pushEntry 0 (packedChain m 0)
      (Entry.mk (5 * half) 0)).MaxChained = 6 := by
    simp only [ChainedHashTable.pushEntry, evenTable, List.length_append, hlen5,
      List.length_singleton, UINT_RANGE]
    split <;> omega
  have hcnt : ((evenTable (2 * half) m).pushEntry 0 (packedChain m 0)
      (Entry.mk (5 * half) 0)).EntriesCount = 1 := by
    simp only [ChainedHashTable.pushEntry, evenTable, UINT_RANGE]
    omega
  have hall : ∀ e ∈ mergedChain half m,
      bucketIndex (fun k => 2 * (k / 5)) 2 e.Key = some 0 := by
    intro e _
    simp only [bucketIndex, UINT_RANGE]
    rw [if_neg (by omega)]
    congr 1
    omega
  have hrehash := rehashChain_same_bucket (fun k => 2 * (k / 5)) 2 0 (mergedChain half m)
    hall [] [] [[]] rfl
  simp only [List.nil_append] at hrehash
  obtain ⟨i, l, hi1, hl1, hins⟩ := insert_eq_of_wf hw (Entry.mk (5 * half) 0)
  rw [hi] at hi1
  simp only [Option.some.injEq] at hi1
  subst hi1
  rw [hl] at hl1
  simp only [Option.some.injEq] at hl1
  subst hl1
  unfold ChainedHashTable.insertKeyData
  rw [hins, if_neg hany, resize_eq hw1.len, hmax, hcnt]
  have hfire : (6 : Nat) > MAX_CHAINED_DATA := by simp [MAX_CHAINED_DATA]
  have hsize : (1 * BASE_INCREASE) % UINT_RANGE = 2 := by simp [BASE_INCREASE, UINT_RANGE]
  rw [if_pos hfire, hsize]
  have hrep : List.replicate 2 ([] : List (Entry Nat Nat)) = [[], []] := rfl
  have hh1 : ((evenTable (2 * half) m).pushEntry 0 (packedChain m 0)
      (Entry.mk (5 * half) 0)).HasherFunc = fun k => 2 * (k / 5) := rfl
  rw [hrep, hh1]
  have hflat : ((evenTable (2 * half) m).pushEntry 0 (packedChain m 0)
      (Entry.mk (5 * half) 0)).Table.flatten = mergedChain half m := rfl
  rw [hflat, hrehash]
  simp only [mergedTable, hcnt, hh1]

theorem mergedTable_reachable (half m : Nat) (hh : 0 < half) (hs : 2 * half ≤ 2 ^ 32)
    (hm5 : 5 ≤ m) (hm : m < 5 * half) (hwrap : m % 2 ^ 32 = 0) :
    Reachable (mergedTable half m) :=
  Reachable.insert _ _ (5 * half) 0 true
    (evenTable_reachable (2 * half) m (by omega) hs (by omega))
    (evenTable_merge half m hh hs hm5 hm hwrap).1

theorem mergedChain_length (half m : Nat) (hh : 0 < half) (hs : 2 * half ≤ 2 ^ 32)
    (hm5 : 5 ≤ m) (hm : m < 5 * half) (hwrap : m % 2 ^ 32 = 0) :
    (mergedChain half m).length = m + 1 := by
  rw [(evenTable_merge half m hh hs hm5 hm hwrap).2.length_eq, List.length_cons,
    evenTable_length (2 * half) m (by omega) hs (by omega)]

/-- On the merged table the next insert appends to a chain of `m + 1` entries: the
recorded max chain length becomes `(m + 2) mod 2^32 = 2` and nothing is rebuilt. -/
theorem mergedTable_insert (half m : Nat) (hh : 0 < half) (hs : 2 * half ≤ 2 ^ 32)
    (hm5 : 5 ≤ m) (hm : m < 5 * half) (hwrap : m % 2 ^ 32 = 0) :
    bucketIndex (mergedTable half m).HasherFunc (mergedTable half m).TableSize
      (5 * half + 1) = some 0 ∧
    (mergedTable half m).Table[0]? = some (mergedChain half m) ∧
    (mergedChain half m).any (fun it => it.Key == 5 * half + 1) = false ∧
    ((mergedTable half m).pushEntry 0 (mergedChain half m)
      (Entry.mk (5 * half + 1) 0)).MaxChained = 2 ∧
    (mergedTable half m).insertKeyData (5 * half + 1) 0 =
      some (true, (mergedTable half m).pushEntry 0 (mergedChain half m)
        (Entry.mk (5 * half + 1) 0)) := by
  have hidx : bucketIndex (mergedTable half m).HasherFunc (mergedTable half m).TableSize
      (5 * half + 1) = some 0 := by
    simp only [bucketIndex, mergedTable, UINT_RANGE]
    rw [if_neg (by omega)]
    congr 1
    omega
  have hget : (mergedTable half m).Table[0]? = some (mergedChain half m) := rfl
  have hany : (mergedChain half m).any (fun it => it.Key == 5 * half + 1) = false := by
    rw [List.any_eq_false]
    intro x hx
    have hx1 := (evenTable_merge half m hh hs hm5 hm hwrap).2.mem_iff.1 hx
    rw [List.mem_cons] at hx1
    rcases hx1 with hx1 | hx1
    · subst hx1
      simp
    · have := evenTable_key_lt (2 * half) m x hx1
      simp
      omega
  have hmax : ((mergedTable half m).pushEntry 0 (mergedChain half m)
      (Entry.mk (5 * half + 1) 0)).MaxChained = 2 := by
    rw [pushEntry_maxChained, mergedChain_length half m hh hs hm5 hm hwrap]
    simp only [mergedTable, UINT_RANGE]
    omega
  refine ⟨hidx, hget, hany, hmax, ?_⟩
  unfold ChainedHashTable.insertKeyData ChainedHashTable.insert
  simp only [hidx, hget, hany]
  rw [resize_keep (by rw [hmax]; simp [MAX_CHAINED_DATA])]
  simp

/-! ## C13: the resize policy -/

/-- C13 (as amended). For every insert on a reachable table that returns true, let `m`
be the larger of the old max chain length and the length of the target bucket after the
append, reduced to a 32-bit unsigned, and `c` the old entry count plus one. If `m > 5`
then afterwards the bucket count is `2 * c` as 32-bit unsigned and the max chain length
is 1; if `m ≤ 5` then the bucket count is unchanged, the max chain length is `m`, and the
bucket array differs only by the new entry at the end of bucket
`hash(key) mod bucket_count`. The reduction changes `m` only for a chain of 2^32 - 1 or
more entries. -/
theorem C13_resize_policy [DecidableEq TKey] (t t1 : ChainedHashTable TKey TData)
    (hr : Reachable t) (k : TKey) (d : TData)
    (h : t.insertKeyData k d = some (true, t1)) :
    ∃ i l, bucketIndex t.HasherFunc t.TableSize k = some i ∧ t.Table[i]? = some l ∧
      (MAX_CHAINED_DATA < (max t.MaxChained (l.length + 1)) % 2 ^ 32 →
        t1.TableSize = (2 * (t.entries + 1)) % 2 ^ 32 ∧ t1.MaxChained = 1) ∧
      ((max t.MaxChained (l.length + 1)) % 2 ^ 32 ≤ MAX_CHAINED_DATA →
        t1.TableSize = t.TableSize ∧
        t1.MaxChained = (max t.MaxChained (l.length + 1)) % 2 ^ 32 ∧
        t1.Table = t.Table.set i (l ++ [Entry.mk k d])) ∧
      (l.length + 1 < 2 ^ 32 →
        (max t.MaxChained (l.length + 1)) % 2 ^ 32 = max t.MaxChained (l.length + 1)) := by
  have hw := hr.wf
  have hmc := hr.maxChained_le
  obtain ⟨i, l, hi, hl, _, hcase⟩ := insert_cases hw h
  have hmax := pushEntry_maxChained t i l (Entry.mk k d)
  simp only [UINT_RANGE] at hmax
  refine ⟨i, l, hi, hl, ?_, ?_, ?_⟩
  · intro hfire
    rcases hcase with ⟨_, hsz, hone⟩ | ⟨hle, _⟩
    · refine ⟨?_, hone⟩
      rw [hsz]
      simp only [ChainedHashTable.pushEntry, ChainedHashTable.entries, UINT_RANGE,
        BASE_INCREASE]
      omega
    · rw [hmax] at hle
      omega
  · intro hkeep
    rcases hcase with ⟨hfire, _⟩ | ⟨_, ht⟩
    · rw [hmax] at hfire
      omega
    · subst ht
      exact ⟨rfl, hmax, rfl⟩
  · intro hlt
    apply Nat.mod_eq_of_lt
    simp only [MAX_CHAINED_DATA] at hmc
    omega

/-- Witness for C13: the sixth insert into the crowded table rebuilds it. -/
theorem C13_resize_policy_witness :
    ∃ i l, bucketIndex crowdedTable.HasherFunc crowdedTable.TableSize 6 = some i ∧
      crowdedTable.Table[i]? = some l ∧
      (MAX_CHAINED_DATA < (max crowdedTable.MaxChained (l.length + 1)) % 2 ^ 32 →
        resizedTable.TableSize = (2 * (crowdedTable.entries + 1)) % 2 ^ 32 ∧
        resizedTable.MaxChained = 1) ∧
      ((max crowdedTable.MaxChained (l.length + 1)) % 2 ^ 32 ≤ MAX_CHAINED_DATA →
        resizedTable.TableSize = crowdedTable.TableSize ∧
        resizedTable.MaxChained = (max crowdedTable.MaxChained (l.length + 1)) % 2 ^ 32 ∧
        resizedTable.Table = crowdedTable.Table.set i (l ++ [Entry.mk 6 60])) ∧
      (l.length + 1 < 2 ^ 32 →
        (max crowdedTable.MaxChained (l.length + 1)) % 2 ^ 32
          = max crowdedTable.MaxChained (l.length + 1)) :=
  C13_resize_policy crowdedTable resizedTable crowdedTable_reachable 6 60 rfl

/-- C13 as stated fails. Take `create(k ↦ 2 * (k / 5), 2^31)`, insert keys
`0 .. 2^32 - 1` (five to a chain, no resize, the entry count wraps to 0), then key
`5 * 2^30`: chain 0 gets a sixth entry, the entry count is 1, and the table is rebuilt
with 2 buckets, all `2^32 + 1` entries landing in bucket 0. On this table
`insert(5 * 2^30 + 1, 0)` returns true with `m = 2^32 + 2 > 5` and `c = 2`, yet the
bucket count stays 2 (not `2 * c = 4`) and the max chain length becomes 2 (not 1),
because the chain length is stored into a 32-bit unsigned. -/
theorem C13_counterexample :
    Reachable (mergedTable (2 ^ 30) (2 ^ 32)) ∧
    bucketIndex (mergedTable (2 ^ 30) (2 ^ 32)).HasherFunc
      (mergedTable (2 ^ 30) (2 ^ 32)).TableSize (5 * 2 ^ 30 + 1) = some 0 ∧
    (mergedTable (2 ^ 30) (2 ^ 32)).Table[0]? = some (mergedChain (2 ^ 30) (2 ^ 32)) ∧
    max (mergedTable (2 ^ 30) (2 ^ 32)).MaxChained
      ((mergedChain (2 ^ 30) (2 ^ 32)).length + 1) = 2 ^ 32 + 2 ∧
    (2 * ((mergedTable (2 ^ 30) (2 ^ 32)).entries + 1)) % 2 ^ 32 = 4 ∧
    ∃ t1, (mergedTable (2 ^ 30) (2 ^ 32)).insertKeyData (5 * 2 ^ 30 + 1) 0
        = some (true, t1) ∧
      t1.TableSize = 2 ∧ t1.MaxChained = 2 := by
  obtain ⟨h1, h2, _, h4, h5⟩ :=
    mergedTable_insert (2 ^ 30) (2 ^ 32) (by norm_num) (by norm_num) (by norm_num)
      (by norm_num) (by norm_num)
  have hlen := mergedChain_length (2 ^ 30) (2 ^ 32) (by norm_num) (by norm_num)
    (by norm_num) (by norm_num) (by norm_num)
  refine ⟨mergedTable_reachable (2 ^ 30) (2 ^ 32) (by norm_num) (by norm_num) (by norm_num)
    (by norm_num) (by norm_num), h1, h2, ?_, ?_, _, h5, rfl, h4⟩
  · rw [hlen]
    have : (mergedTable (2 ^ 30) (2 ^ 32)).MaxChained = 1 := rfl
    rw [this]
    norm_num
  · have : (mergedTable (2 ^ 30) (2 ^ 32)).entries = 1 := rfl
    rw [this]
    norm_num

/-! ## Objects in the free store: what an object denotes -/

theorem stored_load_some {o : TableObject TKey TData} {s : Store TKey TData}
    {t : ChainedHashTable TKey TData} (h : o.load s = some t) :
    s[o.Table]? = some (some t.Table) ∧ o.Table < s.length ∧ t.TableSize = o.TableSize ∧
      t.HasherFunc = o.HasherFunc ∧ t.EntriesCount = o.EntriesCount ∧
      t.MaxChained = o.MaxChained := by
  unfold TableObject.load at h
  split at h
  · next table hs =>
    simp only [Option.some.injEq] at h
    subst h
    refine ⟨hs, ?_, rfl, rfl, rfl, rfl⟩
    by_contra hlt
    rw [List.getElem?_eq_none (by omega)] at hs
    simp at hs
  · simp at h

theorem stored_load_of {o : TableObject TKey TData} {s : Store TKey TData}
    {table : List (List (Entry TKey TData))} (h : s[o.Table]? = some (some table)) :
    o.load s =
      some { Table := table
             TableSize := o.TableSize
             HasherFunc := o.HasherFunc
             EntriesCount := o.EntriesCount
             MaxChained := o.MaxChained } := by
  unfold TableObject.load
  rw [h]

/-- The object made of the fields of `t` and an address denotes `t` when the cell at
that address holds the array of `t`. -/
theorem stored_load_mk {s : Store TKey TData} {a : Nat}
    (t : ChainedHashTable TKey TData) (h : s[a]? = some (some t.Table)) :
    TableObject.load
      { Table := a
        TableSize := t.TableSize
        HasherFunc := t.HasherFunc
        EntriesCount := t.EntriesCount
        MaxChained := t.MaxChained } s = some t := by
  unfold TableObject.load
  simp only [h]

theorem objectAtZero_load (t : ChainedHashTable TKey TData) :
    (objectAtZero t).load [some t.Table] = some t :=
  stored_load_mk t rfl

/-- The constructor on the store makes an object that denotes `create`. -/
theorem stored_create_load (s : Store TKey TData) (hasher : TKey → Nat) (size : Nat) :
    (TableObject.create s hasher size).2.load (TableObject.create s hasher size).1 =
      some (ChainedHashTable.create hasher size) := by
  unfold TableObject.create TableObject.load ChainedHashTable.create
  simp

theorem stored_resize_eq {o : TableObject TKey TData} {s : Store TKey TData}
    {t : ChainedHashTable TKey TData} (h : o.load s = some t) :
    o.resize_ s =
      if t.MaxChained > MAX_CHAINED_DATA then
        match t.resize_ with
        | none => none
        | some t2 =>
          some ((s ++ [some t2.Table]).set o.Table none,
            { o with MaxChained := 1, Table := s.length, TableSize := t2.TableSize })
      else some (s, o) := by
  unfold TableObject.resize_ ChainedHashTable.resize_
  rw [h]
  by_cases h1 : t.MaxChained > MAX_CHAINED_DATA
  · simp only [if_pos h1]
    cases rehashTable t.HasherFunc ((t.EntriesCount * BASE_INCREASE) % UINT_RANGE) t.Table
        (List.range t.TableSize)
        (List.replicate ((t.EntriesCount * BASE_INCREASE) % UINT_RANGE) []) <;> rfl
  · simp only [if_neg h1]

theorem resize_fields {t t2 : ChainedHashTable TKey TData} (h : t.resize_ = some t2)
    (h1 : MAX_CHAINED_DATA < t.MaxChained) :
    t2.HasherFunc = t.HasherFunc ∧ t2.EntriesCount = t.EntriesCount ∧ t2.MaxChained = 1 ∧
      t2.TableSize = (t.EntriesCount * BASE_INCREASE) % UINT_RANGE := by
  unfold ChainedHashTable.resize_ at h
  rw [if_pos h1] at h
  simp only at h
  split at h
  · simp at h
  · simp only [Option.some.injEq] at h
    subst h
    exact ⟨rfl, rfl, rfl, rfl⟩

theorem stored_resize_none {o : TableObject TKey TData} {s : Store TKey TData}
    {t : ChainedHashTable TKey TData} (h : o.load s = some t) (h2 : t.resize_ = none) :
    o.resize_ s = none := by
  rw [stored_resize_eq h, h2]
  by_cases h1 : t.MaxChained > MAX_CHAINED_DATA
  · rw [if_pos h1]
  · rw [resize_keep (by omega)] at h2
    simp at h2

/-- The pointer `resize_` leaves in the object is new exactly when the test of line 159
succeeds; the new array is one more cell, the old cell is emptied and no other cell
changes. -/
theorem stored_resize_some {o : TableObject TKey TData} {s : Store TKey TData}
    {t t2 : ChainedHashTable TKey TData} (h : o.load s = some t) (h2 : t.resize_ = some t2) :
    ∃ s2 o2, o.resize_ s = some (s2, o2) ∧ o2.load s2 = some t2 ∧
      (MAX_CHAINED_DATA < t.MaxChained →
        o2.Table = s.length ∧ s2.length = s.length + 1 ∧ s2[o.Table]? = some none) ∧
      (t.MaxChained ≤ MAX_CHAINED_DATA → o2 = o ∧ s2 = s) ∧
      (∀ a, a ≠ o.Table → a < s.length → s2[a]? = s[a]?) := by
  obtain ⟨hcell, hlt, _, hh, he, _⟩ := stored_load_some h
  rw [stored_resize_eq h, h2]
  by_cases h1 : t.MaxChained > MAX_CHAINED_DATA
  · rw [if_pos h1]
    obtain ⟨f1, f2, f3, _⟩ := resize_fields h2 h1
    refine ⟨_, _, rfl, ?_, ?_, ?_, ?_⟩
    · have hc : ((s ++ [some t2.Table]).set o.Table none)[s.length]? =
          some (some t2.Table) := by
        rw [List.getElem?_set_ne (by omega)]
        simp
      have := stored_load_mk t2 hc
      rw [f1, f2, f3, hh, he] at this
      exact this
    · intro _
      refine ⟨rfl, by simp, ?_⟩
      rw [List.getElem?_set_self (by simp; omega)]
    · intro h3
      omega
    · intro a ha hal
      rw [List.getElem?_set_ne (fun h => ha h.symm), List.getElem?_append_left hal]
  · rw [if_neg h1]
    rw [resize_keep (by omega)] at h2
    simp only [Option.some.injEq] at h2
    subst h2
    refine ⟨_, _, rfl, h, ?_, ?_, ?_⟩
    · intro h3
      omega
    · intro _
      exact ⟨rfl, rfl⟩
    · intro a _ _
      rfl

theorem stored_load_cases {o : TableObject TKey TData} {s : Store TKey TData}
    {t : ChainedHashTable TKey TData} (h : o.load s = some t) :
    ∃ table, s[o.Table]? = some (some table) ∧ o.Table < s.length ∧
      t = { Table := table
            TableSize := o.TableSize
            HasherFunc := o.HasherFunc
            EntriesCount := o.EntriesCount
            MaxChained := o.MaxChained } := by
  obtain ⟨hcell, hlt, _⟩ := stored_load_some h
  refine ⟨t.Table, hcell, hlt, ?_⟩
  have h2 := stored_load_of hcell
  rw [h] at h2
  exact Option.some.inj h2

section StoredOps

variable [DecidableEq TKey]

/-- Lines 107-113 on an object: after the push_back and the two assignments the object
denotes `pushEntry`, and `insert` returns what `resize_` makes of that state. -/
theorem stored_insert_absent_eq {o : TableObject TKey TData} {s : Store TKey TData}
    {t : ChainedHashTable TKey TData} (h : o.load s = some t) {e : Entry TKey TData}
    {i : Nat} {l : List (Entry TKey TData)}
    (hi : bucketIndex t.HasherFunc t.TableSize e.Key = some i) (hl : t.Table[i]? = some l)
    (hany : ¬ l.any (fun it => it.Key == e.Key) = true) :
    TableObject.load
        { o with
          MaxChained := (t.pushEntry i l e).MaxChained
          EntriesCount := (t.pushEntry i l e).EntriesCount }
        (s.set o.Table (some (t.pushEntry i l e).Table)) = some (t.pushEntry i l e) ∧
      o.insert s e =
        (match TableObject.resize_
            { o with
              MaxChained := (t.pushEntry i l e).MaxChained
              EntriesCount := (t.pushEntry i l e).EntriesCount }
            (s.set o.Table (some (t.pushEntry i l e).Table)) with
        | none => none
        | some (s2, o2) => some (true, s2, o2)) ∧
      t.insert e =
        (match (t.pushEntry i l e).resize_ with
        | none => none
        | some t1 => some (true, t1)) := by
  obtain ⟨table, hcell, hlt, rfl⟩ := stored_load_cases h
  refine ⟨?_, ?_, ?_⟩
  · apply stored_load_of
    rw [List.getElem?_set_self hlt]
    rfl
  · unfold TableObject.insert
    rw [h]
    simp only [hi, hl, hany]
    rfl
  · unfold ChainedHashTable.insert
    simp only [hi, hl, hany]
    rfl

theorem stored_insert_present_eq {o : TableObject TKey TData} {s : Store TKey TData}
    {t : ChainedHashTable TKey TData} (h : o.load s = some t) {e : Entry TKey TData}
    {i : Nat} {l : List (Entry TKey TData)}
    (hi : bucketIndex t.HasherFunc t.TableSize e.Key = some i) (hl : t.Table[i]? = some l)
    (hany : l.any (fun it => it.Key == e.Key) = true) :
    o.insert s e = some (false, s, o) ∧ t.insert e = some (false, t) := by
  constructor
  · unfold TableObject.insert
    rw [h]
    simp only [hi, hl, hany]
    rfl
  · unfold ChainedHashTable.insert
    simp only [hi, hl, hany]
    rfl

/-- An insert on an object does to the table the object denotes what `insert` does to
that table; the object keeps its array or moves to a new cell, and no other cell of the
store changes. -/
theorem stored_insert_some {o : TableObject TKey TData} {s : Store TKey TData}
    {t t1 : ChainedHashTable TKey TData} (h : o.load s = some t) {e : Entry TKey TData}
    {b : Bool} (h2 : t.insert e = some (b, t1)) :
    ∃ s2 o2, o.insert s e = some (b, s2, o2) ∧ o2.load s2 = some t1 ∧
      s.length ≤ s2.length ∧ (o2.Table = o.Table ∨ o2.Table = s.length) ∧
      (∀ a, a ≠ o.Table → a < s.length → s2[a]? = s[a]?) := by
  cases hi : bucketIndex t.HasherFunc t.TableSize e.Key with
  | none =>
    unfold ChainedHashTable.insert at h2
    simp [hi] at h2
  | some i =>
    cases hl : t.Table[i]? with
    | none =>
      unfold ChainedHashTable.insert at h2
      simp [hi, hl] at h2
    | some l =>
      by_cases hany : l.any (fun it => it.Key == e.Key) = true
      · obtain ⟨ho, ht⟩ := stored_insert_present_eq h hi hl hany
        rw [ht] at h2
        simp only [Option.some.injEq, Prod.mk.injEq] at h2
        obtain ⟨rfl, rfl⟩ := h2
        exact ⟨s, o, ho, h, Nat.le_refl _, Or.inl rfl, fun _ _ _ => rfl⟩
      · obtain ⟨hld, ho, ht⟩ := stored_insert_absent_eq h hi hl hany
        obtain ⟨_, hlt, _⟩ := stored_load_some h
        rw [ht] at h2
        cases hr : (t.pushEntry i l e).resize_ with
        | none =>
          rw [hr] at h2
          simp at h2
        | some t2 =>
          rw [hr] at h2
          simp only [Option.some.injEq, Prod.mk.injEq] at h2
          obtain ⟨rfl, rfl⟩ := h2
          obtain ⟨s2, o2, hres, hld2, hgrow, hkeep, hframe⟩ :=
            stored_resize_some hld hr
          refine ⟨s2, o2, by rw [ho, hres], hld2, ?_, ?_, ?_⟩
          · by_cases h1 : MAX_CHAINED_DATA < (t.pushEntry i l e).MaxChained
            · obtain ⟨_, h4, _⟩ := hgrow h1
              rw [h4, List.length_set]
              omega
            · obtain ⟨_, h4⟩ := hkeep (by omega)
              rw [h4, List.length_set]
          · by_cases h1 : MAX_CHAINED_DATA < (t.pushEntry i l e).MaxChained
            · obtain ⟨h3, _, _⟩ := hgrow h1
              right
              rw [h3, List.length_set]
            · obtain ⟨h3, _⟩ := hkeep (by omega)
              left
              rw [h3]
          · intro a ha hal
            rw [hframe a ha (by rw [List.length_set]; exact hal),
              List.getElem?_set_ne (fun h => ha h.symm)]

end StoredOps

section StoredOps2

variable [DecidableEq TKey]

end StoredOps2

section StoredRuns

variable [DecidableEq TKey]

end StoredRuns

/-- An insert of an absent key whose recorded chain length stays within the threshold
changes the object's array in place and allocates nothing. -/
theorem stored_insert_kept [DecidableEq TKey] {o : TableObject TKey TData}
    {s : Store TKey TData} {t : ChainedHashTable TKey TData} (h : o.load s = some t)
    {e : Entry TKey TData} {i : Nat} {l : List (Entry TKey TData)}
    (hi : bucketIndex t.HasherFunc t.TableSize e.Key = some i) (hl : t.Table[i]? = some l)
    (hany : l.any (fun it => it.Key == e.Key) = false)
    (hk : (t.pushEntry i l e).MaxChained ≤ MAX_CHAINED_DATA) :
    o.insert s e =
      some (true, s.set o.Table (some (t.pushEntry i l e).Table),
        { o with
          MaxChained := (t.pushEntry i l e).MaxChained
          EntriesCount := (t.pushEntry i l e).EntriesCount }) := by
  have hany1 : ¬ l.any (fun it => it.Key == e.Key) = true := by
    rw [hany]
    simp
  obtain ⟨hld, ho, _⟩ := stored_insert_absent_eq h hi hl hany1
  rw [ho, stored_resize_eq hld, if_neg (by omega)]

/-- The copy of the sample table and `insert(4, 40)` on the copy, evaluated: the copy is
cell 1, the insert appends to bucket 0 of cell 1, and cell 0 is as it was. -/
theorem sampleTable_copy_insert_stored :
    ((objectAtZero sampleTable).copy [some sampleTable.Table]).map
        (fun r => (r.1, r.2.Table, r.2.TableSize, r.2.EntriesCount, r.2.MaxChained)) =
      some ([some sampleTable.Table, some sampleTable.Table], 1, 4, 3, 2) ∧
    (TableObject.insert
        { Table := 1
          TableSize := 4
          HasherFunc := fun k => k
          EntriesCount := 3
          MaxChained := 2 }
        [some sampleTable.Table, some sampleTable.Table] (Entry.mk 4 40)).map
        (fun r => (r.1, r.2.1, r.2.2.Table, r.2.2.TableSize, r.2.2.EntriesCount,
          r.2.2.MaxChained)) =
      some (true,
        [some sampleTable.Table,
         some [[Entry.mk 4 40], [Entry.mk 1 10, Entry.mk 5 50], [Entry.mk 2 20], []]],
        1, 4, 4, 2) :=
  ⟨by rfl, by rfl⟩

/-- The sixth insert into the crowded table, evaluated: the old array in cell 0 is
released and the object points to cell 1, an array of 12 buckets. -/
theorem crowdedTable_insert_stored :
    ((objectAtZero crowdedTable).insert [some crowdedTable.Table] (Entry.mk 6 60)).map
        (fun r => (r.1, r.2.1, r.2.2.Table, r.2.2.TableSize, r.2.2.EntriesCount,
          r.2.2.MaxChained)) =
      some (true,
        [none,
         some ([Entry.mk 1 10, Entry.mk 2 20, Entry.mk 3 30, Entry.mk 4 40, Entry.mk 5 50,
            Entry.mk 6 60] :: List.replicate 11 [])],
        1, 12, 6, 1) := by
  rfl

/-! ## C20: when an insert rebuilds -/

/-- C20 (as amended). Let object `o` denote, in a store, a table `t` reachable from
`create(hasher, n)` with `n > 0` by `insert`, `remove` and the copy constructor. Then the
max chain length of `t` is at most 5, whatever earlier removals left in it; so for an
insert of an absent key whose bucket has fewer than `2^32` entries after the append:
the insert returns whenever the entry count plus one is not a multiple of `2^31`; and
when it returns, it returns true, the object denotes what `insert` makes of `t` (the
entries of `t` and the new one), and the object points to a new bucket array if and only
if the bucket that received the new entry has length greater than 5 after the append.
In that case the new array is one new cell of the store, the old cell is released, the
bucket count is twice the new entry count (as a 32-bit unsigned) and the max chain length
is 1; otherwise the bucket count is unchanged and the only change to the store is the
append to that bucket. -/
theorem C20_insert_rebuilds_iff [DecidableEq TKey] (s : Store TKey TData)
    (o : TableObject TKey TData) (t : ChainedHashTable TKey TData)
    (hload : o.load s = some t) (hr : Reachable t) :
    t.MaxChained ≤ MAX_CHAINED_DATA ∧
    ∀ (e : Entry TKey TData) (i : Nat) (l : List (Entry TKey TData)),
      bucketIndex t.HasherFunc t.TableSize e.Key = some i → t.Table[i]? = some l →
      l.any (fun it => it.Key == e.Key) = false → (l ++ [e]).length < 2 ^ 32 →
      ((t.EntriesCount + 1) % 2 ^ 31 ≠ 0 → ∃ s2 o2, o.insert s e = some (true, s2, o2)) ∧
      ∀ b s2 o2, o.insert s e = some (b, s2, o2) →
        b = true ∧
        (∃ t1, t.insert e = some (true, t1) ∧ o2.load s2 = some t1 ∧
          List.Perm t1.Table.flatten (e :: t.Table.flatten)) ∧
        (o2.Table ≠ o.Table ↔ MAX_CHAINED_DATA < (l ++ [e]).length) ∧
        (MAX_CHAINED_DATA < (l ++ [e]).length →
          o2.Table = s.length ∧ s2.length = s.length + 1 ∧ s2[o.Table]? = some none ∧
          o2.TableSize = ((t.EntriesCount + 1) % UINT_RANGE * BASE_INCREASE) % UINT_RANGE ∧
          o2.MaxChained = 1) ∧
        ((l ++ [e]).length ≤ MAX_CHAINED_DATA →
          o2.Table = o.Table ∧ o2.TableSize = o.TableSize ∧
          s2 = s.set o.Table (some (t.Table.set i (l ++ [e])))) := by
  have hw := hr.wf
  have hmc := hr.maxChained_le
  refine ⟨hmc, ?_⟩
  intro e i l hi hl hany hlen
  have hany1 : ¬ l.any (fun it => it.Key == e.Key) = true := by
    rw [hany]
    simp
  obtain ⟨hld, ho, ht⟩ := stored_insert_absent_eq hload hi hl hany1
  obtain ⟨_, hlt, _, _, _, _⟩ := stored_load_some hload
  have hmax : (t.pushEntry i l e).MaxChained = max t.MaxChained (l.length + 1) := by
    rw [pushEntry_maxChained]
    apply Nat.mod_eq_of_lt
    simp only [List.length_append, List.length_singleton, MAX_CHAINED_DATA, UINT_RANGE]
      at hmc hlen ⊢
    omega
  have hiff : MAX_CHAINED_DATA < (t.pushEntry i l e).MaxChained ↔
      MAX_CHAINED_DATA < (l ++ [e]).length := by
    rw [hmax]
    simp only [List.length_append, List.length_singleton, MAX_CHAINED_DATA] at hmc ⊢
    omega
  have hsmall : (l ++ [e]).length ≤ MAX_CHAINED_DATA →
      (t.pushEntry i l e).MaxChained ≤ MAX_CHAINED_DATA := by
    intro hle
    by_contra hgt
    have := hiff.1 (by omega)
    omega
  constructor
  · intro hc
    have habs : ∀ x ∈ t.Table.flatten, x.Key ≠ e.Key :=
      fun x hx hk => hany1 ((any_iff_mem hw hi hl).2 ⟨x, hx, hk⟩)
    obtain ⟨t1, h1⟩ := insert_absent_total hw e habs hc
    obtain ⟨s2, o2, h2, _⟩ := stored_insert_some hload h1
    exact ⟨s2, o2, h2⟩
  · intro b s2 o2 hins
    rw [ho] at hins
    cases hres : (t.pushEntry i l e).resize_ with
    | none =>
      rw [stored_resize_none hld hres] at hins
      simp at hins
    | some t2 =>
      obtain ⟨s3, o3, hres3, hld3, hgrow, hkeep, _⟩ := stored_resize_some hld hres
      rw [hres3] at hins
      simp only [Option.some.injEq, Prod.mk.injEq] at hins
      obtain ⟨rfl, rfl, rfl⟩ := hins
      have ht2 : t.insert e = some (true, t2) := by
        rw [ht, hres]
      have hperm : List.Perm t2.Table.flatten (e :: t.Table.flatten) := by
        obtain ⟨_, _, hcase⟩ := insert_spec hw ht2
        rcases hcase with ⟨hb, _⟩ | ⟨_, _, hp, _⟩
        · simp at hb
        · exact hp
      refine ⟨rfl, ⟨t2, ht2, hld3, hperm⟩, ?_, ?_, ?_⟩
      · constructor
        · intro hne
          by_contra hle
          have hk := hkeep (hsmall (by omega))
          rw [hk.1] at hne
          exact hne rfl
        · intro hgt
          obtain ⟨h1, _, _⟩ := hgrow (hiff.2 hgt)
          rw [h1, List.length_set]
          omega
      · intro hgt
        obtain ⟨h1, h2, h3⟩ := hgrow (hiff.2 hgt)
        obtain ⟨_, _, f3, f4⟩ := resize_fields hres (hiff.2 hgt)
        obtain ⟨_, _, g1, _, _, g2⟩ := stored_load_some hld3
        rw [List.length_set] at h1 h2
        refine ⟨h1, h2, h3, ?_, ?_⟩
        · rw [← g1, f4]
          rfl
        · rw [← g2, f3]
      · intro hle
        obtain ⟨h1, h2⟩ := hkeep (hsmall hle)
        rw [h1, h2]
        exact ⟨rfl, rfl, rfl⟩

/-- Witness for C20: the crowded table as the object at cell 0 of a one-cell store, and
the insert of key 6, which makes the chain 6 long. -/
theorem C20_insert_rebuilds_iff_witness :
    (objectAtZero crowdedTable).load [some crowdedTable.Table] = some crowdedTable ∧
    Reachable crowdedTable ∧
    bucketIndex crowdedTable.HasherFunc crowdedTable.TableSize
      (Entry.mk 6 60 : Entry Nat Nat).Key = some 0 ∧
    crowdedTable.Table[0]? =
      some [Entry.mk 1 10, Entry.mk 2 20, Entry.mk 3 30, Entry.mk 4 40, Entry.mk 5 50] ∧
    [Entry.mk 1 10, Entry.mk 2 20, Entry.mk 3 30, Entry.mk 4 40, Entry.mk 5 50].any
      (fun it => it.Key == (Entry.mk 6 60 : Entry Nat Nat).Key) = false ∧
    ([Entry.mk 1 10, Entry.mk 2 20, Entry.mk 3 30, Entry.mk 4 40, Entry.mk 5 50] ++
      [(Entry.mk 6 60 : Entry Nat Nat)]).length < 2 ^ 32 ∧
    crowdedTable.MaxChained ≤ MAX_CHAINED_DATA ∧
    ((crowdedTable.EntriesCount + 1) % 2 ^ 31 ≠ 0 →
      ∃ s2 o2, (objectAtZero crowdedTable).insert [some crowdedTable.Table]
        (Entry.mk 6 60) = some (true, s2, o2)) ∧
    ∀ b s2 o2,
      (objectAtZero crowdedTable).insert [some crowdedTable.Table] (Entry.mk 6 60) =
        some (b, s2, o2) →
      b = true ∧
      (∃ t1, crowdedTable.insert (Entry.mk 6 60) = some (true, t1) ∧
        o2.load s2 = some t1 ∧
        List.Perm t1.Table.flatten (Entry.mk 6 60 :: crowdedTable.Table.flatten)) ∧
      (o2.Table ≠ (objectAtZero crowdedTable).Table ↔
        MAX_CHAINED_DATA <
          ([Entry.mk 1 10, Entry.mk 2 20, Entry.mk 3 30, Entry.mk 4 40, Entry.mk 5 50] ++
            [(Entry.mk 6 60 : Entry Nat Nat)]).length) ∧
      (MAX_CHAINED_DATA <
          ([Entry.mk 1 10, Entry.mk 2 20, Entry.mk 3 30, Entry.mk 4 40, Entry.mk 5 50] ++
            [(Entry.mk 6 60 : Entry Nat Nat)]).length →
        o2.Table = [some crowdedTable.Table].length ∧
        s2.length = [some crowdedTable.Table].length + 1 ∧
        s2[(objectAtZero crowdedTable).Table]? = some none ∧
        o2.TableSize =
          ((crowdedTable.EntriesCount + 1) % UINT_RANGE * BASE_INCREASE) % UINT_RANGE ∧
        o2.MaxChained = 1) ∧
      (([Entry.mk 1 10, Entry.mk 2 20, Entry.mk 3 30, Entry.mk 4 40, Entry.mk 5 50] ++
          [(Entry.mk 6 60 : Entry Nat Nat)]).length ≤ MAX_CHAINED_DATA →
        o2.Table = (objectAtZero crowdedTable).Table ∧
        o2.TableSize = (objectAtZero crowdedTable).TableSize ∧
        s2 = [some crowdedTable.Table].set (objectAtZero crowdedTable).Table
          (some (crowdedTable.Table.set 0
            ([Entry.mk 1 10, Entry.mk 2 20, Entry.mk 3 30, Entry.mk 4 40, Entry.mk 5 50] ++
              [(Entry.mk 6 60 : Entry Nat Nat)])))) :=
  ⟨rfl, crowdedTable_reachable, rfl, rfl, rfl, by decide,
   (C20_insert_rebuilds_iff [some crowdedTable.Table] (objectAtZero crowdedTable)
     crowdedTable rfl crowdedTable_reachable).1,
   (C20_insert_rebuilds_iff [some crowdedTable.Table] (objectAtZero crowdedTable)
     crowdedTable rfl crowdedTable_reachable).2 (Entry.mk 6 60) 0
     [Entry.mk 1 10, Entry.mk 2 20, Entry.mk 3 30, Entry.mk 4 40, Entry.mk 5 50]
     rfl rfl rfl (by decide)⟩

/-- C20 as stated fails in its second part: on the reachable table of 2 buckets whose
bucket 0 holds `2^32 + 1` entries (see C13), `insert(5 * 2^30 + 1, 0)` returns true and
appends to bucket 0, which then has `2^32 + 2 > 5` entries; but that length is recorded
as 2, and the insert leaves the object with the same array and the same bucket count and
allocates nothing: the bucket array is not rebuilt. -/
theorem C20_counterexample :
    Reachable (mergedTable (2 ^ 30) (2 ^ 32)) ∧
    (objectAtZero (mergedTable (2 ^ 30) (2 ^ 32))).load
      [some (mergedTable (2 ^ 30) (2 ^ 32)).Table] = some (mergedTable (2 ^ 30) (2 ^ 32)) ∧
    bucketIndex (mergedTable (2 ^ 30) (2 ^ 32)).HasherFunc
      (mergedTable (2 ^ 30) (2 ^ 32)).TableSize (5 * 2 ^ 30 + 1) = some 0 ∧
    (mergedTable (2 ^ 30) (2 ^ 32)).Table[0]? = some (mergedChain (2 ^ 30) (2 ^ 32)) ∧
    (mergedChain (2 ^ 30) (2 ^ 32)).any (fun it => it.Key == 5 * 2 ^ 30 + 1) = false ∧
    MAX_CHAINED_DATA <
      (mergedChain (2 ^ 30) (2 ^ 32) ++ [Entry.mk (5 * 2 ^ 30 + 1) 0]).length ∧
    ∃ s2 o2,
      (objectAtZero (mergedTable (2 ^ 30) (2 ^ 32))).insert
        [some (mergedTable (2 ^ 30) (2 ^ 32)).Table] (Entry.mk (5 * 2 ^ 30 + 1) 0) =
        some (true, s2, o2) ∧
      o2.Table = (objectAtZero (mergedTable (2 ^ 30) (2 ^ 32))).Table ∧
      o2.TableSize = (objectAtZero (mergedTable (2 ^ 30) (2 ^ 32))).TableSize ∧
      s2.length = [some (mergedTable (2 ^ 30) (2 ^ 32)).Table].length ∧
      (mergedTable (2 ^ 30) (2 ^ 32)).insert (Entry.mk (5 * 2 ^ 30 + 1) 0) =
        some (true, (mergedTable (2 ^ 30) (2 ^ 32)).pushEntry 0
          (mergedChain (2 ^ 30) (2 ^ 32)) (Entry.mk (5 * 2 ^ 30 + 1) 0)) := by
  obtain ⟨h1, h2, h3, h4, h5⟩ :=
    mergedTable_insert (2 ^ 30) (2 ^ 32) (by norm_num) (by norm_num) (by norm_num)
      (by norm_num) (by norm_num)
  have hlen := mergedChain_length (2 ^ 30) (2 ^ 32) (by norm_num) (by norm_num)
    (by norm_num) (by norm_num) (by norm_num)
  refine ⟨mergedTable_reachable (2 ^ 30) (2 ^ 32) (by norm_num) (by norm_num) (by norm_num)
    (by norm_num) (by norm_num), objectAtZero_load _, h1, h2, h3, ?_, ?_⟩
  · rw [List.length_append, hlen]
    simp [MAX_CHAINED_DATA]
  · have hk : ((mergedTable (2 ^ 30) (2 ^ 32)).pushEntry 0 (mergedChain (2 ^ 30) (2 ^ 32))
        (Entry.mk (5 * 2 ^ 30 + 1) 0)).MaxChained ≤ MAX_CHAINED_DATA := by
      rw [h4]
      simp [MAX_CHAINED_DATA]
    exact ⟨_, _, stored_insert_kept (objectAtZero_load _) h1 h2 h3 hk, rfl, rfl,
      List.length_set _ _ _, h5⟩

end ChainedHash
